import Mathlib

/-!
Shallow embedding of a CDCL SAT solver (`CDCL.py`) together with its two
alternative solving strategies (`DPLL.py`, `resolution.py`).

Python dictionaries are modelled as association lists with distinct keys;
the solver's `while` loops take an explicit fuel argument and report fuel
exhaustion through a dedicated constructor, and every place where the Python
code could raise an exception (a failing dictionary lookup, a failing
`next(...)`) is modelled by a dedicated `stuck` outcome.  The random
branching choice is modelled by an oracle `Nat → Nat × Bool` supplying, at
each decision, an index into the list of unassigned variables and a value.
-/

namespace CDCL

/-- `Literal` from `CDCL.py`: a variable id together with a negation flag.
(The Python field `variable` is a Lean keyword, hence `var`.) -/
structure Literal where
  var : Int
  negation : Bool
deriving DecidableEq, Repr

/-- `Literal.neg`: the negation of a literal. -/
def Literal.negL (l : Literal) : Literal := ⟨l.var, !l.negation⟩

/-- `Clause`: a disjunction of literals. -/
structure Clause where
  literals : List Literal
deriving DecidableEq, Repr

/-- `Formula`: a clause list plus the derived variable set.  `Formula.mk'`
below is the only constructor used by the program (`Formula.__init__`). -/
structure Formula where
  clauses : List Clause
  vars : List Int
deriving DecidableEq, Repr

/-- `Formula.__init__`: store each clause with duplicate literals removed
(Python `Clause(list(set(clause)))`, modelled by `List.dedup`) and collect
the set of variables occurring in the input clauses (Python builds a `set`;
we keep a duplicate-free list so that `len` is its length). -/
def Formula.mk' (clauses : List Clause) : Formula :=
  { clauses := clauses.map (fun c => Clause.mk c.literals.dedup)
    vars := (clauses.flatMap (fun c => c.literals.map (·.var))).dedup }

/-- `Assignment`: value, optional antecedent clause, decision level. -/
structure Assignment where
  value : Bool
  antecedent : Option Clause
  dl : Nat
deriving DecidableEq, Repr

/-- `Assignments`: the trail.  The Python class is a `dict` from variable to
`Assignment` plus a current decision level; the dict is modelled as an
association list with distinct keys (newest entry first). -/
structure Assignments where
  entries : List (Int × Assignment)
  dl : Nat
deriving DecidableEq, Repr

namespace Assignments

/-- Dictionary lookup `assignments[var]` (as an `Option`; Python raises
`KeyError` on a missing key). -/
def lookup (a : Assignments) (v : Int) : Option Assignment :=
  a.entries.lookup v

/-- Membership test `var in assignments`. -/
def mem (a : Assignments) (v : Int) : Bool :=
  (a.lookup v).isSome

/-- `Assignments.value` on a literal whose variable may be unassigned:
`not self[v].value if negation else self[v].value`, `none` when the lookup
would raise. -/
def valueOpt (a : Assignments) (l : Literal) : Option Bool :=
  (a.lookup l.var).map (fun asg => if l.negation then !asg.value else asg.value)

/-- `Assignments.assign`: store `Assignment(value, antecedent, self.dl)`
under `variable`.  (The solver only ever assigns unassigned variables; the
`eraseP` keeps the key list duplicate-free in general.) -/
def assign (a : Assignments) (v : Int) (value : Bool) (antecedent : Option Clause) :
    Assignments :=
  { a with entries := (v, ⟨value, antecedent, a.dl⟩) :: a.entries.eraseP (fun p => p.1 == v) }

/-- `Assignments.unassign` / `dict.pop`. -/
def pop (a : Assignments) (v : Int) : Assignments :=
  { a with entries := a.entries.eraseP (fun p => p.1 == v) }

/-- `Assignments.satisfy`: for each clause build the full list of literal
values (raising, i.e. `none`, if any variable is unassigned); return `false`
at the first clause without a `true` literal, else `true`. -/
def satisfy (a : Assignments) (f : Formula) : Option Bool :=
  go f.clauses
where
  go : List Clause → Option Bool
  | [] => some true
  | c :: rest =>
    match c.literals.mapM (fun l => a.valueOpt l) with
    | none => none
    | some values => if true ∈ values then go rest else some false

end Assignments

/-- The four-way clause classification of `clause_status`. -/
inductive ClauseStatus where
  | satisfied
  | unsatisfied
  | unitS
  | unresolved
deriving DecidableEq, Repr

/-- `clause_status`: literal values (with `none` for unassigned variables),
then: some `True` → satisfied; all `False` → unsatisfied; all but one
`False` → unit; otherwise unresolved. -/
def clause_status (c : Clause) (a : Assignments) : ClauseStatus :=
  let values : List (Option Bool) := c.literals.map (fun l => a.valueOpt l)
  if some true ∈ values then .satisfied
  else if values.count (some false) = values.length then .unsatisfied
  else if values.count (some false) = values.length - 1 then .unitS
  else .unresolved

/-- Outcome of one scan over the clause list inside `unit_propagation`. -/
inductive PassOut where
  | conflict (c : Clause) (a : Assignments)
  | done (a : Assignments) (changed : Bool)
  | stuck
deriving DecidableEq, Repr

/-- One `for clause in formula` pass of `unit_propagation`: skip satisfied
and unresolved clauses, assign the unassigned literal of a unit clause with
the clause as antecedent (continuing the scan), stop at an unsatisfied
clause.  `stuck` models the (unreachable) failure of
`next(lit for lit in clause if lit.variable not in assignments)`. -/
def propagatePass : List Clause → Assignments → Bool → PassOut
  | [], a, changed => .done a changed
  | c :: rest, a, changed =>
    match clause_status c a with
    | .satisfied => propagatePass rest a changed
    | .unresolved => propagatePass rest a changed
    | .unitS =>
      match c.literals.find? (fun l => !(a.mem l.var)) with
      | some l => propagatePass rest (a.assign l.var (!l.negation) (some c)) true
      | none => .stuck
    | .unsatisfied => .conflict c a

/-- Outcome of `unit_propagation`. -/
inductive UPOut where
  | conflict (c : Clause) (a : Assignments)
  | saturated (a : Assignments)
  | stuck
  | fuelOut
deriving DecidableEq, Repr

/-- `unit_propagation`: repeat passes until one makes no assignment
(`('unresolved', None)`, here `saturated`) or reports a conflict. -/
def unit_propagation : Nat → Formula → Assignments → UPOut
  | 0, _, _ => .fuelOut
  | fuel + 1, f, a =>
    match propagatePass f.clauses a false with
    | .conflict c a' => .conflict c a'
    | .stuck => .stuck
    | .done a' changed =>
      if changed then unit_propagation fuel f a' else .saturated a'

/-- `resolve`: union of the two literal lists minus both polarities of `x`
(Python forms a `set`; the order of the surviving literals is arbitrary
there, list order with `dedup` here). -/
def resolve (a b : Clause) (x : Int) : Clause :=
  Clause.mk (((a.literals ++ b.literals).filter
    (fun l => !(l == ⟨x, true⟩ || l == ⟨x, false⟩))).dedup)

/-- Outcome of `conflict_analysis`: `(-1, None)` is `top`; `(b, clause)` is
`learned`; `stuck` models a `KeyError` on an unassigned variable or a
failing `next` over the filtered literals. -/
inductive CAOut where
  | top
  | learned (b : Nat) (c : Clause)
  | stuck
  | fuelOut
deriving DecidableEq, Repr

/-- The literals of `clause` whose variable is assigned at the current
decision level (the `literals` list of `conflict_analysis`). -/
def currentLevelLits (c : Clause) (a : Assignments) : List Literal :=
  c.literals.filter (fun l => ((a.lookup l.var).map (·.dl)) == some a.dl)

/-- The backjump level computed at the end of `conflict_analysis`:
`sorted(set(dl of lit for lit in clause))`, then `0` when at most one
distinct level remains, else the second-largest. -/
def backjumpLevel (c : Clause) (a : Assignments) : Nat :=
  let levels := List.insertionSort (· ≤ ·)
    ((c.literals.filterMap (fun l => (a.lookup l.var).map (·.dl))).dedup)
  if levels.length ≤ 1 then 0 else levels.getD (levels.length - 2) 0

/-- The resolution loop of `conflict_analysis`.  Each iteration requires
every literal of the working clause to be assigned (otherwise the Python
level lookups raise: `stuck`), picks the first current-level literal with a
non-absent antecedent (`stuck` if `next` finds none), and resolves. -/
def analysisLoop : Nat → Clause → Assignments → CAOut
  | 0, _, _ => .fuelOut
  | fuel + 1, c, a =>
    if c.literals.any (fun l => !(a.mem l.var)) then .stuck
    else
      if (currentLevelLits c a).length = 1 then .learned (backjumpLevel c a) c
      else
        match (currentLevelLits c a).find?
            (fun l => ((a.lookup l.var).bind (·.antecedent)).isSome) with
        | none => .stuck
        | some l =>
          match (a.lookup l.var).bind (·.antecedent) with
          | none => .stuck
          | some ante => analysisLoop fuel (resolve c ante l.var) a

/-- `conflict_analysis`: at decision level 0 report top-level UNSAT
(`(-1, None)`), otherwise run the resolution loop. -/
def conflict_analysis (fuel : Nat) (c : Clause) (a : Assignments) : CAOut :=
  if a.dl = 0 then .top else analysisLoop fuel c a

/-- `backtrack`: collect the variables whose decision level exceeds `b`,
then pop each of them. -/
def backtrack (a : Assignments) (b : Nat) : Assignments :=
  ((a.entries.filter (fun p => b < p.2.dl)).map (·.1)).foldl Assignments.pop a

/-- `all_variables_assigned`: `len(formula.variables()) == len(assignments)`. -/
def all_variables_assigned (f : Formula) (a : Assignments) : Bool :=
  f.vars.length == a.entries.length

/-- `pick_branching_variable`: the Python code picks a uniformly random
member of the unassigned-variable list and a random value; the oracle's
index (taken modulo the list length) ranges over exactly the possible
choices. -/
def pick_branching_variable (f : Formula) (a : Assignments) (choice : Nat × Bool) :
    Int × Bool :=
  let unassigned := f.vars.filter (fun v => !(a.mem v))
  (unassigned.getD (choice.1 % unassigned.length) 0, choice.2)

/-- `add_learnt_clause`: append to the clause store. -/
def add_learnt_clause (f : Formula) (c : Clause) : Formula :=
  { f with clauses := f.clauses ++ [c] }

/-- Result of `cdcl_solve`: a satisfying trail, or the `None` sentinel
(`unsatAt` records the decision level current at the conflict that produced
it), or a modelled exception, or fuel exhaustion. -/
inductive Result where
  | sat (a : Assignments)
  | unsatAt (dl : Nat)
  | stuck
  | fuelOut
deriving DecidableEq, Repr

/-- Outcome of the inner conflict-handling loop of `cdcl_solve`. -/
inductive InnerOut where
  | ok (f : Formula) (a : Assignments)
  | unsatAt (dl : Nat)
  | stuck
  | fuelOut
deriving DecidableEq, Repr

/-- The inner `while True` loop of `cdcl_solve`: propagate; on conflict
analyse, and either report UNSAT (backtrack impossible) or append the learnt
clause, backtrack to `b` and set the decision level to `b`. -/
def innerLoop (upFuel caFuel : Nat) : Nat → Formula → Assignments → InnerOut
  | 0, _, _ => .fuelOut
  | fuel + 1, f, a =>
    match unit_propagation upFuel f a with
    | .saturated a' => .ok f a'
    | .stuck => .stuck
    | .fuelOut => .fuelOut
    | .conflict c a' =>
      match conflict_analysis caFuel c a' with
      | .top => .unsatAt a'.dl
      | .stuck => .stuck
      | .fuelOut => .fuelOut
      | .learned b lc =>
        innerLoop upFuel caFuel fuel (add_learnt_clause f lc)
          { backtrack a' b with dl := b }

/-- The outer `while not all_variables_assigned` loop of `cdcl_solve`:
branch, raise the decision level, push the decision, then run the inner
conflict-handling loop. -/
def outerLoop (oracle : Nat → Nat × Bool) (upFuel caFuel : Nat) :
    Nat → Nat → Formula → Assignments → Result
  | 0, _, _, _ => .fuelOut
  | fuel + 1, k, f, a =>
    if all_variables_assigned f a then .sat a
    else
      match innerLoop upFuel caFuel fuel f
          (Assignments.assign { a with dl := a.dl + 1 }
            (pick_branching_variable f a (oracle k)).1
            (pick_branching_variable f a (oracle k)).2 none) with
      | .ok f' a' => outerLoop oracle upFuel caFuel fuel (k + 1) f' a'
      | .unsatAt d => .unsatAt d
      | .stuck => .stuck
      | .fuelOut => .fuelOut

/-- `cdcl_solve`: initial unit propagation on the empty trail (conflict
there is UNSAT at level 0), then the decision loop. -/
def cdcl_solve (oracle : Nat → Nat × Bool) (fuel upFuel caFuel : Nat)
    (f : Formula) : Result :=
  let a : Assignments := ⟨[], 0⟩
  match unit_propagation upFuel f a with
  | .conflict _ a' => .unsatAt a'.dl
  | .stuck => .stuck
  | .fuelOut => .fuelOut
  | .saturated a' => outerLoop oracle upFuel caFuel fuel 0 f a'

/-- Normalise line terminators (Python `splitlines` treats `\r\n` and a
lone `\r` as line breaks like `\n`). -/
def normNewlines : List Char → List Char
  | [] => []
  | '\r' :: '\n' :: rest => '\n' :: normNewlines rest
  | '\r' :: rest => '\n' :: normNewlines rest
  | c :: rest => c :: normNewlines rest

/-- Split a character list at every character satisfying `p` (empty pieces
are kept; callers drop them as Python `str.split()` does). -/
def splitOnPred (p : Char → Bool) : List Char → List (List Char)
  | [] => [[]]
  | c :: rest =>
    let r := splitOnPred p rest
    if p c then [] :: r else (c :: r.headD []) :: r.tail

/-- The value of a digit character. -/
def digitVal (c : Char) : Nat := c.toNat - 48

/-- Python `int(tok)` on a whitespace-free token: an optional sign followed
by at least one decimal digit; `none` models the `ValueError` branch. -/
def tokToInt : List Char → Option Int
  | [] => none
  | '-' :: ds =>
    if ds ≠ [] ∧ ds.all (fun c => c.isDigit) then
      some (-(Int.ofNat (ds.foldl (fun n c => n * 10 + digitVal c) 0)))
    else none
  | '+' :: ds =>
    if ds ≠ [] ∧ ds.all (fun c => c.isDigit) then
      some (Int.ofNat (ds.foldl (fun n c => n * 10 + digitVal c) 0))
    else none
  | ds =>
    if ds.all (fun c => c.isDigit) then
      some (Int.ofNat (ds.foldl (fun n c => n * 10 + digitVal c) 0))
    else none

/-- `parse_dimacs_cnf` from `CDCL.py`, processing one token: non-integer
tokens are skipped; a `0` appends an empty clause; any other integer is
placed in a fresh singleton clause when the clause list is empty or its last
clause is empty, and is appended to the last clause otherwise. -/
def parseStep (clauses : List Clause) (tok : List Char) : List Clause :=
  match tokToInt tok with
  | none => clauses
  | some lit =>
    if lit = 0 then clauses ++ [Clause.mk []]
    else
      let v : Int := if lit < 0 then -lit else lit
      let neg : Bool := lit < 0
      match clauses.getLast? with
      | none => [Clause.mk [⟨v, neg⟩]]
      | some last =>
        if last.literals.isEmpty then clauses ++ [Clause.mk [⟨v, neg⟩]]
        else clauses.dropLast ++ [Clause.mk (last.literals ++ [⟨v, neg⟩])]

/-- `parse_dimacs_cnf` from `CDCL.py`: split into lines, skip empty lines
and lines starting with `c` or `%`, split each line on whitespace
(dropping empty tokens), process every token, and build the `Formula`. -/
def parse_dimacs_cnf (content : String) : Formula :=
  let lines := splitOnPred (fun c => c = '\n') (normNewlines content.toList)
  Formula.mk' (lines.foldl
    (fun clauses line =>
      if line.length = 0 ∨ line.headD ' ' = 'c' ∨ line.headD ' ' = '%' then clauses
      else ((splitOnPred (fun c => c = ' ' ∨ c = '\t') line).filter (· ≠ [])).foldl
        parseStep clauses)
    [])

end CDCL

namespace DPLL

/-- Outcome of `unit_propagate` in `DPLL.py`: the `(None, None)` conflict
marker, or the simplified clauses and extended assignment. -/
inductive UPOut where
  | conflict
  | ok (clauses : List (List Int)) (asn : List (Int × Bool))
  | fuelOut
deriving DecidableEq, Repr

/-- `simplify` from `DPLL.py`: drop clauses containing the satisfied
literal, remove the falsified literal from the rest, and silently drop any
clause that becomes empty (`if new_clause:`). -/
def simplify (clauses : List (List Int)) (v : Int) (val : Bool) :
    List (List Int) :=
  clauses.foldr
    (fun c acc =>
      if (val && c.contains v) || (!val && c.contains (-v)) then acc
      else
        let nc := c.filter (fun l => !(l == v) && !(l == -v))
        if nc.isEmpty then acc else nc :: acc)
    []

/-- `unit_propagate` from `DPLL.py`: find the first clause of length one;
on a contradictory existing assignment report a conflict, on an agreeing one
stop (the `break` leaves `changed` false), otherwise assign, simplify and
rescan. -/
def unit_propagate : Nat → List (List Int) → List (Int × Bool) → UPOut
  | 0, _, _ => .fuelOut
  | fuel + 1, clauses, asn =>
    match clauses.find? (fun c => c.length == 1) with
    | none => .ok clauses asn
    | some c =>
      let lit := c.headD 0
      let v : Int := if lit < 0 then -lit else lit
      let val : Bool := 0 < lit
      match asn.lookup v with
      | some stored => if stored ≠ val then .conflict else .ok clauses asn
      | none => unit_propagate fuel (simplify clauses v val) ((v, val) :: asn)

/-- `dpll` from `DPLL.py`: propagate, then split on the first unassigned
variable occurring in the clauses (`some false` is Python `False`,
`none` is fuel exhaustion). -/
def dpll (upFuel : Nat) : Nat → List (List Int) → List (Int × Bool) → Option Bool
  | 0, _, _ => none
  | fuel + 1, clauses0, asn0 =>
    match unit_propagate upFuel clauses0 asn0 with
    | .fuelOut => none
    | .conflict => some false
    | .ok clauses asn =>
      if clauses.isEmpty then some true
      else
        match (clauses.flatMap id).find?
            (fun l => ((asn.lookup (if l < 0 then -l else l)).isNone : Bool)) with
        | none => some true
        | some l =>
          let v : Int := if l < 0 then -l else l
          match dpll upFuel fuel (simplify clauses v true) ((v, true) :: asn) with
          | none => none
          | some true => some true
          | some false =>
            match dpll upFuel fuel (simplify clauses v false) ((v, false) :: asn) with
            | none => none
            | some r => some r

end DPLL

namespace Resolution

/-- `resolve` from `resolution.py` on a pair of clauses (clauses are sets of
integers): one resolvent for each literal of `ci` whose negation is in `cj`. -/
def resolvents (ci cj : Finset Int) : Finset (Finset Int) :=
  (ci.filter (fun l => -l ∈ cj)).image (fun l => (ci ∪ cj) \ {l, -l})

/-- All resolvents over the pairs of distinct clauses
(`itertools.combinations(clauses, 2)`; `resolve` produces the same set for
either orientation of a pair). -/
def allPairsResolvents (clauses : Finset (Finset Int)) : Finset (Finset Int) :=
  clauses.biUnion (fun ci => (clauses.erase ci).biUnion (fun cj => resolvents ci cj))

/-- The `while True` loop of `pl_resolution`: return `True` as soon as an
empty resolvent appears (the code documents this as "satisfiable"), return
`False` when the accumulated `new` set is contained in the clause set, else
add the new clauses and repeat. -/
def plLoop : Nat → Finset (Finset Int) → Finset (Finset Int) → Option Bool
  | 0, _, _ => none
  | fuel + 1, clauses, acc =>
    let res := allPairsResolvents clauses
    if ∅ ∈ res then some true
    else
      let acc' := acc ∪ res
      if acc' ⊆ clauses then some false
      else plLoop fuel (clauses ∪ acc') acc'

/-- `pl_resolution` from `resolution.py`: convert the clause list to a set
of frozensets and run the saturation loop with an initially empty `new`. -/
def pl_resolution (fuel : Nat) (clauses : List (List Int)) : Option Bool :=
  plLoop fuel (clauses.map List.toFinset).toFinset ∅

end Resolution

namespace CDCL

/-- Spec-side: the keys (assigned variables) of a trail. -/
def keysOf (a : Assignments) : List Int :=
  a.entries.map Prod.fst

/-- Spec-side: a trail is well formed when no variable has two entries
(Python dictionaries cannot). -/
def KeysNodup (a : Assignments) : Prop :=
  (keysOf a).Nodup

instance (a : Assignments) : Decidable (KeysNodup a) :=
  inferInstanceAs (Decidable ((keysOf a).Nodup))

/-- Spec-side: the trail restricted to the entries of decision level at
most `b` (what non-chronological backtracking is specified to leave). -/
def restrict (a : Assignments) (b : Nat) : Assignments :=
  { a with entries := a.entries.filter (fun p => decide (p.2.dl ≤ b)) }

/-- Spec-side: the second-highest member of a finite set of decision
levels, or `0` when the set has at most one element. -/
def secondHighestLevel (s : Finset Nat) : Nat :=
  if s.card ≤ 1 then 0 else ((s.erase (s.max.getD 0)).max.getD 0)

/-- Spec-side: the decision levels of the (assigned) literals of a clause,
as a finite set. -/
def clauseLevels (c : Clause) (a : Assignments) : Finset Nat :=
  (c.literals.filterMap (fun l => (a.lookup l.var).map (·.dl))).toFinset

/-- Spec-side: every literal of every clause of the store mentions only
variables from `V` (the formula's variable set, fixed at construction). -/
def ClausesWF (V : List Int) (f : Formula) : Prop :=
  ∀ c ∈ f.clauses, ∀ l ∈ c.literals, l.var ∈ V

/-- Spec-side trail invariant: distinct keys (a Python dict), keys within
the variable set, and antecedent clauses mentioning only those variables. -/
def TrailWF (V : List Int) (a : Assignments) : Prop :=
  KeysNodup a ∧
  ∀ p ∈ a.entries, p.1 ∈ V ∧
    ∀ c, p.2.antecedent = some c → ∀ l ∈ c.literals, l.var ∈ V

/-- Spec-side: a clause all of whose literals evaluate to false under the
trail (exactly the `unsatisfied` classification). -/
def Falsified (c : Clause) (a : Assignments) : Prop :=
  ∀ l ∈ c.literals, a.valueOpt l = some false

/-- Spec-side: every trail entry's decision level is at most the current
decision level. -/
def EntryDl (a : Assignments) : Prop :=
  ∀ p ∈ a.entries, p.2.dl ≤ a.dl

/-- Spec-side: at most one decision (entry with absent antecedent) per
decision level. -/
def OneDecisionPerLevel (a : Assignments) : Prop :=
  ∀ p ∈ a.entries, ∀ q ∈ a.entries,
    p.2.antecedent = none → q.2.antecedent = none → p.2.dl = q.2.dl → p = q

/-- Spec-side: every propagated entry's antecedent clause has all its other
literals currently assigned false, at levels at most the entry's level
(the unit-propagation invariant of the trail). -/
def AnteSound (a : Assignments) : Prop :=
  ∀ p ∈ a.entries, ∀ A, p.2.antecedent = some A →
    ∀ l ∈ A.literals, l.var ≠ p.1 →
      ∃ asg, a.lookup l.var = some asg ∧
        (if l.negation then !asg.value else asg.value) = false ∧ asg.dl ≤ p.2.dl

/-- Spec-side bundle of the trail invariants needed for conflict-analysis
safety. -/
def TrailSafe (a : Assignments) : Prop :=
  KeysNodup a ∧ EntryDl a ∧ OneDecisionPerLevel a ∧ AnteSound a

/-- Spec-side: `a` extends `a0` only with entries at decision level `d`
(the shape of a trail during one propagation phase at level `d`). -/
def Ext (a0 : Assignments) (d : Nat) (a : Assignments) : Prop :=
  a.dl = d ∧
  (∀ v asg, a0.lookup v = some asg → a.lookup v = some asg) ∧
  (∀ v asg, a0.lookup v = none → a.lookup v = some asg → asg.dl = d)

/-- Spec-side: no clause of the store is falsified by the trail. -/
def NoFalsified (f : Formula) (a : Assignments) : Prop :=
  ∀ c ∈ f.clauses, ¬ Falsified c a

/-- Spec-side: every stored clause has duplicate-free literals. -/
def ClausesNodup (f : Formula) : Prop :=
  ∀ c ∈ f.clauses, c.literals.Nodup

/-- Spec-side: along the trail list (newest first), every propagated entry's
antecedent clause has its other literals assigned by strictly older entries,
at decision levels at most the entry's own (the assignment order recorded by
the trail). -/
def AnteOrderL : List (Int × Assignment) → Prop
  | [] => True
  | p :: rest =>
    (∀ A, p.2.antecedent = some A → ∀ l ∈ A.literals, l.var ≠ p.1 →
      ∃ q ∈ rest, q.1 = l.var ∧ q.2.dl ≤ p.2.dl) ∧ AnteOrderL rest

/-- Spec-side: weight `2 ^ (position from the oldest end)` of the entry of
variable `v` on the trail (`0` when unassigned); the termination measure of
the resolution loop sums these weights. -/
def posW : List (Int × Assignment) → Int → Nat
  | [], _ => 0
  | p :: rest, v => if p.1 = v then 2 ^ rest.length else posW rest v

/-- Spec-side: the termination measure of the resolution loop of
`conflict_analysis`: the summed positional weights of the current-level
literals of the working clause. -/
def caMeasure (c : Clause) (a : Assignments) : Nat :=
  ((currentLevelLits c a).map (fun l => posW a.entries l.var)).sum

/-- Spec-side: the number of trail entries recorded at decision level `i`. -/
def countLev (a : Assignments) (i : Nat) : Nat :=
  (a.entries.filter (fun p => p.2.dl == i)).length

/-- Spec-side: the decision-level population vector of a trail, read as a
base-`B` numeral of width `L + 1` (level 0 is the most significant digit);
it strictly increases at every conflict, bounding the conflict count. -/
def levMeasure (B L : Nat) (a : Assignments) : Nat :=
  ((List.range (L + 1)).map (fun i => countLev a i * B ^ (L - i))).sum

/-- Spec-side: every decision level from 1 up to the current one carries a
decision entry (an entry with an absent antecedent). -/
def LevelsFull (a : Assignments) : Prop :=
  ∀ i, 1 ≤ i → i ≤ a.dl → ∃ p ∈ a.entries, p.2.dl = i ∧ p.2.antecedent = none

end CDCL

-- ===== theorems =====

namespace CDCL

theorem eraseP_eq_filter_of_keysNodup (l : List (Int × Assignment)) (k : Int)
    (h : (l.map Prod.fst).Nodup) :
    l.eraseP (fun p => p.1 == k) = l.filter (fun p => !(p.1 == k)) := by
  induction l with
  | nil => rfl
  | cons p l ih =>
    simp only [List.map_cons, List.nodup_cons] at h
    by_cases hk : p.1 = k
    · subst hk
      rw [List.eraseP_cons_of_pos (by simp), List.filter_cons_of_neg (by simp)]
      symm
      rw [List.filter_eq_self]
      intro q hq
      simp only [Bool.not_eq_true', beq_eq_false_iff_ne, ne_eq]
      intro hq1
      exact h.1 (hq1 ▸ List.mem_map_of_mem Prod.fst hq)
    · rw [List.eraseP_cons_of_neg (by simp [hk]), List.filter_cons_of_pos (by simp [hk]),
        ih h.2]

theorem pop_entries (a : Assignments) (k : Int) (h : KeysNodup a) :
    (a.pop k).entries = a.entries.filter (fun p => !(p.1 == k)) :=
  eraseP_eq_filter_of_keysNodup a.entries k h

theorem keysNodup_pop (a : Assignments) (k : Int) (h : KeysNodup a) :
    KeysNodup (a.pop k) := by
  rw [KeysNodup, keysOf, pop_entries a k h]
  exact h.sublist ((List.filter_sublist _).map Prod.fst)

theorem foldl_pop_entries (ks : List Int) (a : Assignments) (h : KeysNodup a) :
    (ks.foldl Assignments.pop a).entries =
      a.entries.filter (fun p => !(ks.contains p.1)) := by
  induction ks generalizing a with
  | nil => simp
  | cons k ks ih =>
    rw [List.foldl_cons, ih (a.pop k) (keysNodup_pop a k h), pop_entries a k h,
      List.filter_filter]
    apply List.filter_congr
    intro p _
    simp only [List.contains_cons]
    cases h1 : p.1 == k <;> cases h2 : ks.contains p.1 <;> rfl

theorem pair_eq_of_keysNodup {l : List (Int × Assignment)} (h : (l.map Prod.fst).Nodup)
    {p q : Int × Assignment} (hp : p ∈ l) (hq : q ∈ l) (hpq : p.1 = q.1) : p = q := by
  induction l with
  | nil => cases hp
  | cons r l ih =>
    simp only [List.map_cons, List.nodup_cons] at h
    rcases List.mem_cons.mp hp with rfl | hp'
    · rcases List.mem_cons.mp hq with rfl | hq'
      · rfl
      · exact absurd (hpq ▸ List.mem_map_of_mem Prod.fst hq') h.1
    · rcases List.mem_cons.mp hq with rfl | hq'
      · exact absurd (hpq ▸ List.mem_map_of_mem Prod.fst hp') h.1
      · exact ih h.2 hp' hq'

theorem backtrack_entries (a : Assignments) (b : Nat) (h : KeysNodup a) :
    (backtrack a b).entries = a.entries.filter (fun p => decide (p.2.dl ≤ b)) := by
  rw [backtrack, foldl_pop_entries _ a h]
  refine List.filter_congr (fun p hp => ?_)
  have hmem : (((a.entries.filter (fun q => decide (b < q.2.dl))).map Prod.fst).contains p.1)
      ↔ b < p.2.dl := by
    rw [List.elem_iff]
    constructor
    · intro hc
      obtain ⟨q, hq, hq1⟩ := List.mem_map.mp hc
      rw [List.mem_filter] at hq
      have := pair_eq_of_keysNodup h hp hq.1 hq1.symm
      subst this
      simpa using hq.2
    · intro hdl
      exact List.mem_map.mpr ⟨p, List.mem_filter.mpr ⟨hp, by simpa using hdl⟩, rfl⟩
  by_cases hdl : b < p.2.dl
  · have h1 : (((a.entries.filter (fun q => decide (b < q.2.dl))).map Prod.fst).contains p.1)
        = true := by rw [hmem]; exact hdl
    rw [h1]
    simp [Nat.not_le.mpr hdl]
  · have h1 : (((a.entries.filter (fun q => decide (b < q.2.dl))).map Prod.fst).contains p.1)
        = false := by
      rw [← Bool.not_eq_true]
      exact fun hx => hdl (hmem.mp hx)
    rw [h1]
    simp [Nat.not_lt.mp hdl]

end CDCL

namespace CDCL

theorem dedup_union_left {α : Type} [DecidableEq α] (l r : List α) :
    l.dedup ∪ r = l ∪ r := by
  induction l with
  | nil => rfl
  | cons a l ih =>
    by_cases ha : a ∈ l
    · rw [List.dedup_cons_of_mem ha, ih, List.cons_union,
        List.insert_of_mem (List.mem_union_left ha r)]
    · rw [List.dedup_cons_of_not_mem ha, List.cons_union, List.cons_union, ih]

theorem dedup_map_dedup {α β : Type} [DecidableEq α] [DecidableEq β]
    (f : α → β) (l : List α) :
    ((l.dedup).map f).dedup = (l.map f).dedup := by
  induction l with
  | nil => rfl
  | cons a l ih =>
    by_cases ha : a ∈ l
    · rw [List.dedup_cons_of_mem ha, List.map_cons,
        List.dedup_cons_of_mem (List.mem_map_of_mem f ha), ih]
    · rw [List.dedup_cons_of_not_mem ha, List.map_cons, List.map_cons]
      by_cases hfa : f a ∈ l.map f
      · have hfa' : f a ∈ (l.dedup).map f := by
          obtain ⟨b, hb, hfb⟩ := List.mem_map.mp hfa
          exact List.mem_map.mpr ⟨b, List.mem_dedup.mpr hb, hfb⟩
        rw [List.dedup_cons_of_mem hfa', List.dedup_cons_of_mem hfa, ih]
      · have hfa' : f a ∉ (l.dedup).map f := by
          intro hx
          obtain ⟨b, hb, hfb⟩ := List.mem_map.mp hx
          exact hfa (List.mem_map.mpr ⟨b, List.mem_dedup.mp hb, hfb⟩)
        rw [List.dedup_cons_of_not_mem hfa', List.dedup_cons_of_not_mem hfa, ih]

/-- **C5**: for every trail and target level `b`, the backtracking step of
the driver (`backtrack` followed by setting the decision level) removes
exactly the entries of decision level strictly greater than `b`, keeps every
entry of level at most `b` unchanged — value, level and antecedent included,
being the very same `Assignment` records — and sets the current decision
level counter to `b`. -/
theorem C5_backtrack_contract (a : Assignments) (b : Nat) (h : KeysNodup a) :
    ({ backtrack a b with dl := b } : Assignments).entries
        = a.entries.filter (fun p => decide (p.2.dl ≤ b)) ∧
    ({ backtrack a b with dl := b } : Assignments).dl = b :=
  ⟨backtrack_entries a b h, rfl⟩

/-- Witness for C5: a concrete three-entry trail backtracked to level 1. -/
theorem C5_backtrack_contract_witness :
    KeysNodup ⟨[(1, ⟨true, none, 2⟩), (2, ⟨false, some (Clause.mk []), 1⟩),
        (3, ⟨true, none, 0⟩)], 2⟩ ∧
    (({ backtrack ⟨[(1, ⟨true, none, 2⟩), (2, ⟨false, some (Clause.mk []), 1⟩),
          (3, ⟨true, none, 0⟩)], 2⟩ 1 with dl := 1 } : Assignments).entries
        = ([(1, ⟨true, none, 2⟩), (2, ⟨false, some (Clause.mk []), 1⟩),
            (3, ⟨true, none, 0⟩)] : List (Int × Assignment)).filter
            (fun p => decide (p.2.dl ≤ 1)) ∧
     ({ backtrack ⟨[(1, ⟨true, none, 2⟩), (2, ⟨false, some (Clause.mk []), 1⟩),
          (3, ⟨true, none, 0⟩)], 2⟩ 1 with dl := 1 } : Assignments).dl = 1) :=
  ⟨by decide, C5_backtrack_contract _ 1 (by decide)⟩

/-- **C7**: clauses are stored with duplicate literals collapsed at
`Formula` construction; building a formula from a clause with repeated
literals gives the same `Formula` as building it from the de-duplicated
clause, and in particular the clause built from `{1, 1, ¬2}` equals the one
built from `{1, ¬2}`, so its four-way status classification and its
behaviour under resolution are identical. -/
theorem C7_duplicate_literal_normalization :
    (∀ (cs : List Clause), ∀ c ∈ (Formula.mk' cs).clauses, c.literals.Nodup) ∧
    (∀ (lits : List Literal) (cs : List Clause),
      Formula.mk' (Clause.mk lits :: cs) = Formula.mk' (Clause.mk lits.dedup :: cs)) ∧
    (Formula.mk' [Clause.mk [⟨1, false⟩, ⟨1, false⟩, ⟨2, true⟩]]
        = Formula.mk' [Clause.mk [⟨1, false⟩, ⟨2, true⟩]]) ∧
    (∀ (a : Assignments) (oth : Clause) (x : Int),
      clause_status ((Formula.mk' [Clause.mk [⟨1, false⟩, ⟨1, false⟩, ⟨2, true⟩]]).clauses.getD 0
          (Clause.mk [])) a
          = clause_status ((Formula.mk' [Clause.mk [⟨1, false⟩, ⟨2, true⟩]]).clauses.getD 0
          (Clause.mk [])) a ∧
      resolve ((Formula.mk' [Clause.mk [⟨1, false⟩, ⟨1, false⟩, ⟨2, true⟩]]).clauses.getD 0
          (Clause.mk [])) oth x
          = resolve ((Formula.mk' [Clause.mk [⟨1, false⟩, ⟨2, true⟩]]).clauses.getD 0
          (Clause.mk [])) oth x) := by
  refine ⟨?_, ?_, by decide, ?_⟩
  · intro cs c hc
    rw [Formula.mk'] at hc
    obtain ⟨c0, _, rfl⟩ := List.mem_map.mp hc
    exact List.nodup_dedup _
  · intro lits cs
    rw [Formula.mk', Formula.mk']
    congr 1
    · simp [List.dedup_idem]
    · simp only [List.flatMap_cons, List.dedup_append]
      rw [← dedup_union_left (List.map (fun l => l.var) lits),
        ← dedup_union_left (List.map (fun l => l.var) lits.dedup), dedup_map_dedup]
  · intro a oth x
    have h : (Formula.mk' [Clause.mk [⟨1, false⟩, ⟨1, false⟩, ⟨2, true⟩]]).clauses.getD 0
        (Clause.mk [])
        = (Formula.mk' [Clause.mk [⟨1, false⟩, ⟨2, true⟩]]).clauses.getD 0 (Clause.mk []) := by
      decide
    rw [h]
    exact ⟨rfl, rfl⟩

end CDCL

namespace CDCL

theorem mapM_valueOpt_isSome (a : Assignments) (lits : List Literal)
    (h : ∀ l ∈ lits, a.mem l.var) :
    (lits.mapM (fun l => a.valueOpt l)).isSome := by
  induction lits with
  | nil => rfl
  | cons l lits ih =>
    have hl : (a.valueOpt l).isSome := by
      have := h l (List.mem_cons_self l lits)
      rw [Assignments.mem] at this
      obtain ⟨x, hx⟩ := Option.isSome_iff_exists.mp this
      rw [Assignments.valueOpt, hx]
      rfl
    obtain ⟨v, hv⟩ := Option.isSome_iff_exists.mp hl
    obtain ⟨vs, hvs⟩ := Option.isSome_iff_exists.mp
      (ih (fun l' hl' => h l' (List.mem_cons_of_mem l hl')))
    rw [List.mapM_cons, hv, hvs]
    rfl

theorem mapM_valueOpt_eq_none (a : Assignments) (lits : List Literal)
    (h : ∃ l ∈ lits, a.mem l.var = false) :
    lits.mapM (fun l => a.valueOpt l) = none := by
  induction lits with
  | nil => simp at h
  | cons l lits ih =>
    rw [List.mapM_cons]
    rcases h with ⟨l', hl', hmem⟩
    rcases List.mem_cons.mp hl' with rfl | hl''
    · have hnone : a.lookup l'.var = none := by
        rw [Assignments.mem] at hmem
        exact Option.not_isSome_iff_eq_none.mp (by simp [hmem])
      rw [Assignments.valueOpt, hnone]
      rfl
    · cases hval : a.valueOpt l
      · rfl
      · rw [ih ⟨l', hl'', hmem⟩]
        rfl

theorem satisfy_go_isSome (a : Assignments) (cs : List Clause)
    (h : ∀ c ∈ cs, ∀ l ∈ c.literals, a.mem l.var) :
    (Assignments.satisfy.go a cs).isSome := by
  induction cs with
  | nil => rfl
  | cons c cs ih =>
    rw [Assignments.satisfy.go]
    obtain ⟨vs, hvs⟩ := Option.isSome_iff_exists.mp
      (mapM_valueOpt_isSome a c.literals (h c (List.mem_cons_self c cs)))
    rw [hvs]
    by_cases htrue : true ∈ vs
    · simpa [htrue] using ih (fun c' hc' => h c' (List.mem_cons_of_mem c hc'))
    · simp [htrue]

/-- **C10** (amended): `Assignments.value` looks its variable up
unconditionally and `Assignments.satisfy` evaluates every literal of each
clause it reaches, so `satisfy` is defined whenever every variable of the
formula has a trail entry; when the formula's first clause contains a
variable without a trail entry, evaluating `satisfy` hits the failing lookup
(modelled by `none`) rather than returning `False`.  (It is not true for
*any* formula containing an unassigned variable: an earlier fully-assigned
clause with no true literal makes `satisfy` return `False` early.) -/
theorem C10_satisfy_partiality (f : Formula) (a : Assignments) :
    ((∀ c ∈ f.clauses, ∀ l ∈ c.literals, a.mem l.var) → (a.satisfy f).isSome) ∧
    (∀ c rest, f.clauses = c :: rest → (∃ l ∈ c.literals, a.mem l.var = false) →
      a.satisfy f = none) := by
  constructor
  · intro h
    exact satisfy_go_isSome a f.clauses h
  · intro c rest hcs hl
    rw [Assignments.satisfy, hcs, Assignments.satisfy.go,
      mapM_valueOpt_eq_none a c.literals hl]

/-- Witness for C10 at concrete inputs: a total assignment makes `satisfy`
defined, and an empty trail on a one-clause formula makes it fail. -/
theorem C10_satisfy_partiality_witness :
    (Assignments.satisfy ⟨[(1, ⟨true, none, 0⟩)], 0⟩
        (Formula.mk' [Clause.mk [⟨1, false⟩]])).isSome ∧
    Assignments.satisfy ⟨[], 0⟩ (Formula.mk' [Clause.mk [⟨1, false⟩]]) = none :=
  ⟨(C10_satisfy_partiality (Formula.mk' [Clause.mk [⟨1, false⟩]])
      ⟨[(1, ⟨true, none, 0⟩)], 0⟩).1 (by decide),
   (C10_satisfy_partiality (Formula.mk' [Clause.mk [⟨1, false⟩]]) ⟨[], 0⟩).2
      (Clause.mk [⟨1, false⟩]) [] (by decide) ⟨⟨1, false⟩, by decide, by decide⟩⟩

/-- **C10** counterexample: the claim as stated fails — here variable `2`
occurs in the formula and has no trail entry, yet `satisfy` returns
`False` (the first clause is fully assigned with no true literal and
triggers the early return) instead of hitting a failing lookup. -/
theorem C10_counterexample :
    ((2 : Int) ∈ (Formula.mk' [Clause.mk [⟨1, false⟩], Clause.mk [⟨2, false⟩]]).vars) ∧
    (Assignments.mem ⟨[(1, ⟨false, none, 0⟩)], 0⟩ 2 = false) ∧
    (Assignments.satisfy ⟨[(1, ⟨false, none, 0⟩)], 0⟩
        (Formula.mk' [Clause.mk [⟨1, false⟩], Clause.mk [⟨2, false⟩]]) = some false) := by
  exact ⟨by decide, by decide, by decide⟩

/-- **C9** (code bug): on input `"1 0"` the parser produces the clause
`{x1}` *and* a spurious empty clause left behind by the `0` terminator
(`clauses.append(Clause([]))` is never filled nor removed), contradicting
"exactly one clause per 0-terminated group ... no extra empty clauses". -/
theorem C9_parse_zero_terminator_bug :
    (parse_dimacs_cnf "1 0").clauses = [Clause.mk [⟨1, false⟩], Clause.mk []] ∧
    Clause.mk [] ∈ (parse_dimacs_cnf "1 0").clauses := by
  exact ⟨by decide, by decide⟩

end CDCL

/-- **C8** (code bug): on the two-clause formula `{x1}, {¬x1}` —
unsatisfiable, as both assignments of the single variable leave one clause
false, and `cdcl_solve` correctly reports UNSAT — `dpll` returns `True`
(its `simplify` silently drops clauses that become empty) and
`pl_resolution` returns `True`, which its own code comments document as
"satisfiable" (it derives the empty clause, which witnesses the opposite).
Neither alternative agrees with `cdcl_solve`'s verdict here. -/
theorem C8_alternative_solvers_disagree :
    DPLL.dpll 5 5 [[1], [-1]] [] = some true ∧
    Resolution.pl_resolution 5 [[1], [-1]] = some true ∧
    CDCL.cdcl_solve (fun _ => (0, true)) 5 5 5
        (CDCL.Formula.mk' [CDCL.Clause.mk [⟨1, false⟩], CDCL.Clause.mk [⟨1, true⟩]])
        = CDCL.Result.unsatAt 0 ∧
    CDCL.Assignments.satisfy ⟨[(1, ⟨true, none, 0⟩)], 0⟩
        (CDCL.Formula.mk' [CDCL.Clause.mk [⟨1, false⟩], CDCL.Clause.mk [⟨1, true⟩]])
        = some false ∧
    CDCL.Assignments.satisfy ⟨[(1, ⟨false, none, 0⟩)], 0⟩
        (CDCL.Formula.mk' [CDCL.Clause.mk [⟨1, false⟩], CDCL.Clause.mk [⟨1, true⟩]])
        = some false := by
  exact ⟨by decide, by decide, by decide, by decide, by decide⟩

namespace CDCL

theorem sorted_le_getD {l : List Nat} (hs : l.Sorted (· ≤ ·)) :
    ∀ {x : Nat}, x ∈ l → x ≤ l.getD (l.length - 1) 0 := by
  induction l with
  | nil => intro x hx; cases hx
  | cons a l ih =>
    intro x hx
    cases l with
    | nil =>
      rcases List.mem_cons.mp hx with rfl | hx'
      · rfl
      · cases hx'
    | cons b l' =>
      have hlast : (a :: b :: l').getD ((a :: b :: l').length - 1) 0
          = (b :: l').getD ((b :: l').length - 1) 0 := by
        simp [List.getD_cons_succ]
      rw [hlast]
      rcases List.mem_cons.mp hx with rfl | hx'
      · have hmem : (b :: l').getD ((b :: l').length - 1) 0 ∈ (b :: l') := by
          have hi : (b :: l').length - 1 < (b :: l').length := by simp
          rw [List.getD_eq_getElem _ 0 hi]
          exact List.getElem_mem hi
        exact List.rel_of_sorted_cons hs _ hmem
      · exact ih hs.of_cons hx'

theorem sorted_toFinset_max {l : List Nat} (hs : l.Sorted (· ≤ ·)) (hl : l ≠ []) :
    l.toFinset.max = some (l.getD (l.length - 1) 0) := by
  have hne : l.toFinset.Nonempty := by
    obtain ⟨a, ha⟩ := List.exists_mem_of_ne_nil l hl
    exact ⟨a, List.mem_toFinset.mpr ha⟩
  have hmem : l.getD (l.length - 1) 0 ∈ l := by
    have hi : l.length - 1 < l.length := by
      have := List.length_pos.mpr hl
      omega
    rw [List.getD_eq_getElem _ 0 hi]
    exact List.getElem_mem hi
  have hmax : l.toFinset.max' hne = l.getD (l.length - 1) 0 := by
    apply le_antisymm
    · exact sorted_le_getD hs (List.mem_toFinset.mp (l.toFinset.max'_mem hne))
    · exact l.toFinset.le_max' _ (List.mem_toFinset.mpr hmem)
  rw [← Finset.coe_max' hne, hmax]
  rfl

end CDCL

namespace CDCL

theorem backjumpLevel_eq_secondHighest (c : Clause) (a : Assignments) :
    backjumpLevel c a = secondHighestLevel (clauseLevels c a) := by
  simp only [backjumpLevel, secondHighestLevel, clauseLevels]
  set L := (c.literals.filterMap (fun l => (a.lookup l.var).map (·.dl))).dedup with hLdef
  set lv := List.insertionSort (· ≤ ·) L with hlvdef
  have hperm : List.Perm lv L := List.perm_insertionSort (· ≤ ·) L
  have hndL : L.Nodup := List.nodup_dedup _
  have hnd : lv.Nodup := hperm.nodup_iff.mpr hndL
  have hsort : lv.Sorted (· ≤ ·) := List.sorted_insertionSort (· ≤ ·) L
  have hfs : (c.literals.filterMap (fun l => (a.lookup l.var).map (·.dl))).toFinset
      = lv.toFinset := by
    have h1 : (c.literals.filterMap (fun l => (a.lookup l.var).map (·.dl))).toFinset
        = L.toFinset := by
      rw [hLdef]
      ext x
      simp [List.mem_dedup]
    rw [h1, List.toFinset_eq_of_perm _ _ hperm]
  have hcard : (c.literals.filterMap (fun l => (a.lookup l.var).map (·.dl))).toFinset.card
      = lv.length := by
    rw [hfs, List.toFinset_card_of_nodup hnd]
  rw [hfs, List.toFinset_card_of_nodup hnd]
  by_cases hlen : lv.length ≤ 1
  · rw [if_pos hlen, if_pos hlen]
  · rw [if_neg hlen, if_neg hlen]
    have hne : lv ≠ [] := by
      intro hx
      rw [hx] at hlen
      exact hlen (by simp)
    have hmax : lv.toFinset.max = some (lv.getD (lv.length - 1) 0) := sorted_toFinset_max hsort hne
    rw [hmax]
    have hgetD : (some (lv.getD (lv.length - 1) 0) : WithBot Nat).getD 0
        = lv.getD (lv.length - 1) 0 := rfl
    rw [hgetD]
    set m := lv.getD (lv.length - 1) 0 with hmdef
    have hlast : lv.getLast hne = m := by
      rw [List.getLast_eq_getElem, hmdef, List.getD_eq_getElem]
    have hsplit : lv = lv.dropLast ++ [m] := by
      rw [← hlast]
      exact (List.dropLast_append_getLast hne).symm
    have hmnot : m ∉ lv.dropLast := by
      intro hmem
      have := hnd
      rw [hsplit, List.nodup_append] at this
      exact this.2.2 hmem (List.mem_singleton_self m)
    have herase : lv.toFinset.erase m = lv.dropLast.toFinset := by
      ext x
      simp only [Finset.mem_erase, List.mem_toFinset]
      constructor
      · intro ⟨hxm, hxlv⟩
        rw [hsplit] at hxlv
        rcases List.mem_append.mp hxlv with h' | h'
        · exact h'
        · exact absurd (List.mem_singleton.mp h') hxm
      · intro hx
        refine ⟨fun hxm => hmnot (hxm ▸ hx), ?_⟩
        rw [hsplit]
        exact List.mem_append_left _ hx
    rw [herase]
    have hdlne : lv.dropLast ≠ [] := by
      intro hx
      have : lv.dropLast.length = 0 := by rw [hx]; rfl
      rw [List.length_dropLast] at this
      omega
    have hdsort : lv.dropLast.Sorted (· ≤ ·) := hsort.sublist (List.dropLast_sublist lv)
    have hdmax : lv.dropLast.toFinset.max
        = some (lv.dropLast.getD (lv.dropLast.length - 1) 0) :=
      sorted_toFinset_max hdsort hdlne
    rw [hdmax]
    have hidx : lv.dropLast.length - 1 = lv.length - 2 := by
      rw [List.length_dropLast]
      omega
    have hlt : lv.length - 2 < lv.dropLast.length := by
      rw [List.length_dropLast]
      omega
    have hdget : lv.dropLast.getD (lv.dropLast.length - 1) 0 = lv.getD (lv.length - 2) 0 := by
      rw [hidx, List.getD_eq_getElem _ 0 hlt, List.getElem_dropLast,
        List.getD_eq_getElem _ 0 (by rw [List.length_dropLast] at hlt; omega)]
    rw [hdget]
    rfl

end CDCL

namespace CDCL

theorem analysisLoop_learned (fuel : Nat) :
    ∀ (c : Clause) (a : Assignments) {b : Nat} {lc : Clause},
    analysisLoop fuel c a = .learned b lc → b = backjumpLevel lc a := by
  induction fuel with
  | zero =>
    intro c a b lc h
    rw [analysisLoop] at h
    exact CAOut.noConfusion h
  | succ fuel ih =>
    intro c a b lc h
    rw [analysisLoop] at h
    split at h
    · exact CAOut.noConfusion h
    · split at h
      · rw [CAOut.learned.injEq] at h
        rw [← h.1, ← h.2]
      · split at h
        · exact CAOut.noConfusion h
        · split at h
          · exact CAOut.noConfusion h
          · exact ih _ _ h

theorem conflict_analysis_learned (fuel : Nat) (c : Clause) (a : Assignments)
    {b : Nat} {lc : Clause} (h : conflict_analysis fuel c a = .learned b lc) :
    b = backjumpLevel lc a ∧ a.dl ≠ 0 := by
  rw [conflict_analysis] at h
  split at h
  · exact CAOut.noConfusion h
  · next hdl => exact ⟨analysisLoop_learned fuel c a h, hdl⟩

/-- **C3**: whenever `conflict_analysis` is invoked at decision level
greater than 0 (which is exactly when it can return a learned clause) and
produces a learned clause, the backtrack level it returns is the
second-highest decision level among the distinct decision levels of the
learned clause's literals' trail entries, and 0 when those span at most one
distinct level.  The conjuncts instantiate the spec's examples: a learned
clause over trail levels `{0, 2, 2, 3}` backjumps to level 2, and one whose
literals sit at level `{0}` only yields level 0. -/
theorem C3_backjump_second_highest :
    (∀ (fuel : Nat) (c : Clause) (a : Assignments) (b : Nat) (lc : Clause),
      conflict_analysis fuel c a = .learned b lc →
      0 < a.dl ∧ b = secondHighestLevel (clauseLevels lc a)) ∧
    conflict_analysis 5 (Clause.mk [⟨1, false⟩, ⟨2, false⟩, ⟨3, false⟩, ⟨4, false⟩])
        ⟨[(1, ⟨false, none, 0⟩), (2, ⟨false, none, 2⟩), (3, ⟨false, none, 2⟩),
          (4, ⟨false, none, 3⟩)], 3⟩
      = .learned 2 (Clause.mk [⟨1, false⟩, ⟨2, false⟩, ⟨3, false⟩, ⟨4, false⟩]) ∧
    backjumpLevel (Clause.mk [⟨1, false⟩]) ⟨[(1, ⟨false, none, 0⟩)], 1⟩ = 0 := by
  refine ⟨?_, by decide, by decide⟩
  intro fuel c a b lc h
  obtain ⟨hb, hdl⟩ := conflict_analysis_learned fuel c a h
  exact ⟨Nat.pos_of_ne_zero hdl, hb.trans (backjumpLevel_eq_secondHighest lc a)⟩

/-- Witness for C3: the first conjunct applied to the `{0, 2, 2, 3}`
example. -/
theorem C3_backjump_second_highest_witness :
    0 < (⟨[(1, ⟨false, none, 0⟩), (2, ⟨false, none, 2⟩), (3, ⟨false, none, 2⟩),
          (4, ⟨false, none, 3⟩)], 3⟩ : Assignments).dl ∧
    2 = secondHighestLevel (clauseLevels
        (Clause.mk [⟨1, false⟩, ⟨2, false⟩, ⟨3, false⟩, ⟨4, false⟩])
        ⟨[(1, ⟨false, none, 0⟩), (2, ⟨false, none, 2⟩), (3, ⟨false, none, 2⟩),
          (4, ⟨false, none, 3⟩)], 3⟩) :=
  C3_backjump_second_highest.1 5
    (Clause.mk [⟨1, false⟩, ⟨2, false⟩, ⟨3, false⟩, ⟨4, false⟩])
    ⟨[(1, ⟨false, none, 0⟩), (2, ⟨false, none, 2⟩), (3, ⟨false, none, 2⟩),
      (4, ⟨false, none, 3⟩)], 3⟩ 2
    (Clause.mk [⟨1, false⟩, ⟨2, false⟩, ⟨3, false⟩, ⟨4, false⟩]) (by decide)

end CDCL

namespace CDCL

theorem count_ne_length_exists {values : List (Option Bool)} (v : Option Bool)
    (h : values.count v ≠ values.length) : ∃ x ∈ values, x ≠ v := by
  by_contra hx
  push_neg at hx
  exact h (List.count_eq_length.mpr (fun x hxm => (hx x hxm).symm))

theorem unit_has_unassigned {c : Clause} {a : Assignments}
    (h : clause_status c a = .unitS) :
    (c.literals.find? (fun l => !(a.mem l.var))).isSome := by
  rw [clause_status] at h
  split at h
  · exact ClauseStatus.noConfusion h
  · split at h
    · exact ClauseStatus.noConfusion h
    · split at h
      · next hnotsat hnotall _ =>
        obtain ⟨x, hxmem, hxne⟩ := count_ne_length_exists (some false) hnotall
        have hxnone : x = none := by
          cases x with
          | none => rfl
          | some bv =>
            cases bv with
            | true => exact absurd hxmem hnotsat
            | false => exact absurd rfl hxne
        subst hxnone
        obtain ⟨l, hl, hval⟩ := List.mem_map.mp hxmem
        rw [List.find?_isSome]
        refine ⟨l, hl, ?_⟩
        have : a.lookup l.var = none := by
          rw [Assignments.valueOpt] at hval
          exact Option.map_eq_none'.mp hval
        simp [Assignments.mem, this]
      · exact ClauseStatus.noConfusion h

theorem propagatePass_ne_stuck : ∀ (cs : List Clause) (a : Assignments) (ch : Bool),
    propagatePass cs a ch ≠ .stuck := by
  intro cs
  induction cs with
  | nil => intro a ch h; exact PassOut.noConfusion h
  | cons c0 rest ih =>
    intro a ch h
    rw [propagatePass] at h
    split at h
    · exact ih _ _ h
    · exact ih _ _ h
    · split at h
      · exact ih _ _ h
      · have hst : clause_status c0 a = .unitS := by assumption
        have hfind : c0.literals.find? (fun l => !(a.mem l.var)) = none := by assumption
        have := unit_has_unassigned hst
        rw [hfind] at this
        exact Bool.noConfusion this
    · exact PassOut.noConfusion h

theorem propagatePass_inv {P : Assignments → Prop} :
    ∀ (cs : List Clause) (a : Assignments) (ch : Bool) (r : PassOut),
    P a →
    (∀ (a' : Assignments) (c : Clause) (l : Literal), c ∈ cs → l ∈ c.literals →
      a'.mem l.var = false → clause_status c a' = .unitS → P a' →
      P (a'.assign l.var (!l.negation) (some c))) →
    propagatePass cs a ch = r →
    (∀ c a', r = .conflict c a' → P a' ∧ c ∈ cs ∧ clause_status c a' = .unsatisfied) ∧
    (∀ a' ch', r = .done a' ch' → P a') := by
  intro cs
  induction cs with
  | nil =>
    intro a ch r hP _ heq
    subst heq
    exact ⟨fun c a' h => PassOut.noConfusion h,
      fun a' ch' h => by injection h with h1 _; exact h1 ▸ hP⟩
  | cons c0 rest ih =>
    intro a ch r hP hassign heq
    rw [propagatePass] at heq
    split at heq
    · exact ih a ch r hP
        (fun a' c l hc hl hm hu hp => hassign a' c l (List.mem_cons_of_mem c0 hc) hl hm hu hp)
        heq |>.imp
        (fun h1 c a' hr => (h1 c a' hr).imp_right
          (fun h2 => h2.imp_left (List.mem_cons_of_mem c0)))
        (fun h2 => h2)
    · exact ih a ch r hP
        (fun a' c l hc hl hm hu hp => hassign a' c l (List.mem_cons_of_mem c0 hc) hl hm hu hp)
        heq |>.imp
        (fun h1 c a' hr => (h1 c a' hr).imp_right
          (fun h2 => h2.imp_left (List.mem_cons_of_mem c0)))
        (fun h2 => h2)
    · next hst =>
      split at heq
      · next l hfind =>
        have hl : l ∈ c0.literals := List.mem_of_find?_eq_some hfind
        have hm : a.mem l.var = false := by
          have := List.find?_some hfind
          simpa using this
        have hP1 := hassign a c0 l (List.mem_cons_self c0 rest) hl hm hst hP
        exact ih _ true r hP1
          (fun a' c l' hc hl' hm' hu' hp' =>
            hassign a' c l' (List.mem_cons_of_mem c0 hc) hl' hm' hu' hp')
          heq |>.imp
          (fun h1 c a' hr => (h1 c a' hr).imp_right
            (fun h2 => h2.imp_left (List.mem_cons_of_mem c0)))
          (fun h2 => h2)
      · subst heq
        exact ⟨fun c a' h => PassOut.noConfusion h, fun a' ch' h => PassOut.noConfusion h⟩
    · next hst =>
      subst heq
      refine ⟨fun c a' h => ?_, fun a' ch' h => PassOut.noConfusion h⟩
      injection h with h1 h2
      subst h1
      subst h2
      exact ⟨hP, List.mem_cons_self c0 rest, hst⟩

end CDCL

namespace CDCL

theorem propagatePass_done_false : ∀ (cs : List Clause) (a : Assignments) (ch : Bool)
    (a' : Assignments), propagatePass cs a ch = .done a' false →
    ch = false ∧ a' = a ∧
    ∀ c ∈ cs, clause_status c a = .satisfied ∨ clause_status c a = .unresolved := by
  intro cs
  induction cs with
  | nil =>
    intro a ch a' h
    injection h with h1 h2
    exact ⟨h2, h1.symm, fun c hc => absurd hc (List.not_mem_nil c)⟩
  | cons c0 rest ih =>
    intro a ch a' h
    rw [propagatePass] at h
    split at h
    · next hst =>
      obtain ⟨h1, h2, h3⟩ := ih a ch a' h
      exact ⟨h1, h2, fun c hc => by
        rcases List.mem_cons.mp hc with rfl | hc'
        · exact Or.inl hst
        · exact h3 c hc'⟩
    · next hst =>
      obtain ⟨h1, h2, h3⟩ := ih a ch a' h
      exact ⟨h1, h2, fun c hc => by
        rcases List.mem_cons.mp hc with rfl | hc'
        · exact Or.inr hst
        · exact h3 c hc'⟩
    · split at h
      · obtain ⟨h1, _, _⟩ := ih _ true a' h
        exact Bool.noConfusion h1
      · exact PassOut.noConfusion h
    · exact PassOut.noConfusion h

theorem unit_propagation_ne_stuck : ∀ (fuel : Nat) (f : Formula) (a : Assignments),
    unit_propagation fuel f a ≠ .stuck := by
  intro fuel
  induction fuel with
  | zero => intro f a h; exact UPOut.noConfusion h
  | succ fuel ih =>
    intro f a h
    rw [unit_propagation] at h
    split at h
    · exact UPOut.noConfusion h
    · next heq => exact propagatePass_ne_stuck _ _ _ heq
    · split at h
      · exact ih _ _ h
      · exact UPOut.noConfusion h

theorem unit_propagation_inv {P : Assignments → Prop} (f : Formula)
    (hassign : ∀ (a' : Assignments) (c : Clause) (l : Literal), c ∈ f.clauses →
      l ∈ c.literals → a'.mem l.var = false → clause_status c a' = .unitS → P a' →
      P (a'.assign l.var (!l.negation) (some c))) :
    ∀ (fuel : Nat) (a : Assignments), P a →
    (∀ c a', unit_propagation fuel f a = .conflict c a' →
      P a' ∧ c ∈ f.clauses ∧ clause_status c a' = .unsatisfied) ∧
    (∀ a', unit_propagation fuel f a = .saturated a' → P a') := by
  intro fuel
  induction fuel with
  | zero =>
    intro a hP
    exact ⟨fun c a' h => UPOut.noConfusion h, fun a' h => UPOut.noConfusion h⟩
  | succ fuel ih =>
    intro a hP
    constructor
    · intro c a' h
      rw [unit_propagation] at h
      split at h
      · next c1 a1 heq =>
        injection h with h1 h2
        rw [← h1, ← h2]
        exact (propagatePass_inv f.clauses a false _ hP hassign heq).1 c1 a1 rfl
      · exact UPOut.noConfusion h
      · next a1 changed heq =>
        split at h
        · have hP1 := (propagatePass_inv f.clauses a false _ hP hassign heq).2 a1 changed rfl
          exact (ih a1 hP1).1 c a' h
        · exact UPOut.noConfusion h
    · intro a' h
      rw [unit_propagation] at h
      split at h
      · exact UPOut.noConfusion h
      · exact UPOut.noConfusion h
      · next a1 changed heq =>
        have hP1 := (propagatePass_inv f.clauses a false _ hP hassign heq).2 a1 changed rfl
        split at h
        · exact (ih a1 hP1).2 a' h
        · injection h with h1
          exact h1 ▸ hP1

theorem unit_propagation_saturated_status : ∀ (fuel : Nat) (f : Formula) (a a' : Assignments),
    unit_propagation fuel f a = .saturated a' →
    ∀ c ∈ f.clauses, clause_status c a' = .satisfied ∨ clause_status c a' = .unresolved := by
  intro fuel
  induction fuel with
  | zero => intro f a a' h; exact UPOut.noConfusion h
  | succ fuel ih =>
    intro f a a' h
    rw [unit_propagation] at h
    split at h
    · exact UPOut.noConfusion h
    · exact UPOut.noConfusion h
    · next a1 changed heq =>
      split at h
      · exact ih f a1 a' h
      · next hch =>
        injection h with h1
        rw [Bool.not_eq_true] at hch
        subst hch
        obtain ⟨_, h2, h3⟩ := propagatePass_done_false f.clauses a false a1 heq
        rw [← h1, h2]
        exact h3

end CDCL

namespace CDCL

theorem analysisLoop_ne_top : ∀ (fuel : Nat) (c : Clause) (a : Assignments),
    analysisLoop fuel c a ≠ .top := by
  intro fuel
  induction fuel with
  | zero => intro c a h; exact CAOut.noConfusion h
  | succ fuel ih =>
    intro c a h
    rw [analysisLoop] at h
    split at h
    · exact CAOut.noConfusion h
    · split at h
      · exact CAOut.noConfusion h
      · split at h
        · exact CAOut.noConfusion h
        · split at h
          · exact CAOut.noConfusion h
          · exact ih _ _ h

theorem conflict_analysis_top_iff (fuel : Nat) (c : Clause) (a : Assignments) :
    conflict_analysis fuel c a = .top ↔ a.dl = 0 := by
  rw [conflict_analysis]
  split
  · next hdl => exact ⟨fun _ => hdl, fun _ => rfl⟩
  · next hdl => exact ⟨fun h => absurd h (analysisLoop_ne_top fuel c a), fun h => absurd h hdl⟩

theorem unit_propagation_dl (fuel : Nat) (f : Formula) (a : Assignments) :
    (∀ c a', unit_propagation fuel f a = .conflict c a' → a'.dl = a.dl) ∧
    (∀ a', unit_propagation fuel f a = .saturated a' → a'.dl = a.dl) := by
  have h := unit_propagation_inv (P := fun x => x.dl = a.dl) f
    (fun a' c l _ _ _ _ hp => hp) fuel a rfl
  exact ⟨fun c a' hh => (h.1 c a' hh).1, fun a' hh => h.2 a' hh⟩

theorem innerLoop_unsat_zero (upFuel caFuel : Nat) : ∀ (fuel : Nat) (f : Formula)
    (a : Assignments) (d : Nat), innerLoop upFuel caFuel fuel f a = .unsatAt d → d = 0 := by
  intro fuel
  induction fuel with
  | zero => intro f a d h; exact InnerOut.noConfusion h
  | succ fuel ih =>
    intro f a d h
    rw [innerLoop] at h
    split at h
    · exact InnerOut.noConfusion h
    · exact InnerOut.noConfusion h
    · exact InnerOut.noConfusion h
    · next c a' heq =>
      split at h
      · next htop =>
        injection h with h1
        rw [← h1]
        exact (conflict_analysis_top_iff caFuel c a').mp htop
      · exact InnerOut.noConfusion h
      · exact InnerOut.noConfusion h
      · exact ih _ _ _ h

theorem outerLoop_unsat_zero (oracle : Nat → Nat × Bool) (upFuel caFuel : Nat) :
    ∀ (fuel k : Nat) (f : Formula) (a : Assignments) (d : Nat),
    outerLoop oracle upFuel caFuel fuel k f a = .unsatAt d → d = 0 := by
  intro fuel
  induction fuel with
  | zero => intro k f a d h; exact Result.noConfusion h
  | succ fuel ih =>
    intro k f a d h
    rw [outerLoop] at h
    split at h
    · exact Result.noConfusion h
    · split at h
      · exact ih _ _ _ _ h
      · next heq =>
        injection h with h1
        rw [← h1]
        exact innerLoop_unsat_zero upFuel caFuel fuel _ _ _ heq
      · exact Result.noConfusion h
      · exact Result.noConfusion h

theorem cdcl_solve_unsat_zero (oracle : Nat → Nat × Bool) (fuel upFuel caFuel : Nat)
    (f : Formula) (d : Nat) (h : cdcl_solve oracle fuel upFuel caFuel f = .unsatAt d) :
    d = 0 := by
  rw [cdcl_solve] at h
  split at h
  · next c a' heq =>
    injection h with h1
    rw [← h1]
    exact (unit_propagation_dl upFuel f ⟨[], 0⟩).1 c a' heq
  · exact Result.noConfusion h
  · exact Result.noConfusion h
  · next a' heq => exact outerLoop_unsat_zero oracle upFuel caFuel fuel 0 f a' d h

theorem propagatePass_empty_conflict : ∀ (cs : List Clause) (a : Assignments) (ch : Bool),
    Clause.mk [] ∈ cs → ∃ c' a', propagatePass cs a ch = .conflict c' a' := by
  intro cs
  induction cs with
  | nil => intro a ch h; exact absurd h (List.not_mem_nil _)
  | cons c0 rest ih =>
    intro a ch hmem
    by_cases hc0 : c0 = Clause.mk []
    · subst hc0
      have hst : clause_status (Clause.mk []) a = .unsatisfied := rfl
      refine ⟨Clause.mk [], a, ?_⟩
      rw [propagatePass, hst]
    · have hrest : Clause.mk [] ∈ rest := by
        rcases List.mem_cons.mp hmem with h' | h'
        · exact absurd h'.symm hc0
        · exact h'
      rw [propagatePass]
      cases hst : clause_status c0 a with
      | satisfied => exact ih a ch hrest
      | unresolved => exact ih a ch hrest
      | unsatisfied => exact ⟨c0, a, rfl⟩
      | unitS =>
        obtain ⟨l, hfind⟩ := Option.isSome_iff_exists.mp (unit_has_unassigned hst)
        rw [hfind]
        exact ih _ true hrest

/-- **C4**: the UNSAT sentinel is produced exactly by a level-0 conflict.
First conjunct: any UNSAT result of `cdcl_solve` records decision level 0
for the terminating conflict (the sentinel arises only from the initial
propagation on the empty trail, which is at level 0, or from
`conflict_analysis` reporting top-level UNSAT).  Second conjunct:
`conflict_analysis` reports top-level UNSAT (Python `(-1, None)`) exactly
when the current decision level is 0.  Third conjunct: a clause with zero
literals is classified unsatisfied under every trail.  Fourth conjunct: a
formula containing an empty clause makes the solver return the UNSAT
sentinel from the level-0 conflict regardless of branching. -/
theorem C4_unsat_iff_level0_conflict :
    (∀ (oracle : Nat → Nat × Bool) (fuel upFuel caFuel : Nat) (f : Formula) (d : Nat),
      cdcl_solve oracle fuel upFuel caFuel f = .unsatAt d → d = 0) ∧
    (∀ (fuel : Nat) (c : Clause) (a : Assignments),
      conflict_analysis fuel c a = .top ↔ a.dl = 0) ∧
    (∀ a : Assignments, clause_status (Clause.mk []) a = .unsatisfied) ∧
    (∀ (oracle : Nat → Nat × Bool) (fuel upFuel caFuel : Nat) (f : Formula),
      Clause.mk [] ∈ f.clauses →
      cdcl_solve oracle fuel (upFuel + 1) caFuel f = .unsatAt 0) := by
  refine ⟨cdcl_solve_unsat_zero, conflict_analysis_top_iff, fun a => rfl, ?_⟩
  intro oracle fuel upFuel caFuel f hmem
  obtain ⟨c', a', hpass⟩ := propagatePass_empty_conflict f.clauses ⟨[], 0⟩ false hmem
  have hup : unit_propagation (upFuel + 1) f ⟨[], 0⟩ = .conflict c' a' := by
    rw [unit_propagation, hpass]
  have hdl : a'.dl = 0 := (unit_propagation_dl (upFuel + 1) f ⟨[], 0⟩).1 c' a' hup
  rw [cdcl_solve, hup]
  show Result.unsatAt a'.dl = Result.unsatAt 0
  rw [hdl]

/-- Witness for C4: the formula consisting of a single empty clause is
reported UNSAT at level 0. -/
theorem C4_unsat_iff_level0_conflict_witness :
    Clause.mk [] ∈ (Formula.mk' [Clause.mk []]).clauses ∧
    cdcl_solve (fun _ => (0, true)) 3 3 3 (Formula.mk' [Clause.mk []]) = .unsatAt 0 :=
  ⟨by decide, C4_unsat_iff_level0_conflict.2.2.2 (fun _ => (0, true)) 3 2 3
    (Formula.mk' [Clause.mk []]) (by decide)⟩

end CDCL

namespace CDCL

theorem lookup_some_mem : ∀ (entries : List (Int × Assignment)) (v : Int) (asg : Assignment),
    entries.lookup v = some asg → (v, asg) ∈ entries := by
  intro entries
  induction entries with
  | nil => intro v asg h; exact Option.noConfusion h
  | cons p rest ih =>
    intro v asg h
    obtain ⟨k, bv⟩ := p
    rw [List.lookup] at h
    split at h
    · next heq =>
      injection h with h1
      subst h1
      have : v = k := by simpa using heq
      subst this
      exact List.mem_cons_self _ _
    · exact List.mem_cons_of_mem _ (ih v asg h)

theorem mem_of_key_mem : ∀ (entries : List (Int × Assignment)) (v : Int),
    v ∈ entries.map Prod.fst → (entries.lookup v).isSome := by
  intro entries
  induction entries with
  | nil => intro v h; exact absurd h (List.not_mem_nil v)
  | cons p rest ih =>
    intro v h
    obtain ⟨k, bv⟩ := p
    rw [List.lookup]
    by_cases hv : v = k
    · subst hv
      simp
    · have h' : v ∈ rest.map Prod.fst := by
        rcases List.mem_cons.mp h with h'' | h''
        · exact absurd h'' hv
        · exact h''
      have hbeq : (v == k) = false := by simpa using hv
      rw [hbeq]
      exact ih v h'

theorem trailWF_assign (V : List Int) (a : Assignments) (v : Int) (val : Bool)
    (ante : Option Clause) (hwf : TrailWF V a) (hv : v ∈ V)
    (hante : ∀ c, ante = some c → ∀ l ∈ c.literals, l.var ∈ V) :
    TrailWF V (a.assign v val ante) := by
  obtain ⟨hnd, hmem⟩ := hwf
  constructor
  · rw [KeysNodup, keysOf, Assignments.assign]
    simp only [List.map_cons]
    rw [eraseP_eq_filter_of_keysNodup _ _ hnd, List.nodup_cons]
    constructor
    · intro hx
      obtain ⟨q, hq, hq1⟩ := List.mem_map.mp hx
      rw [List.mem_filter] at hq
      have : (q.1 == v) = false := by simpa using hq.2
      rw [hq1] at this
      simp at this
    · exact hnd.sublist ((List.filter_sublist _).map Prod.fst)
  · intro p hp
    rw [Assignments.assign] at hp
    rcases List.mem_cons.mp hp with rfl | hp'
    · exact ⟨hv, fun c hc => hante c hc⟩
    · exact hmem p (List.mem_of_mem_eraseP hp')

theorem trailWF_backtrack (V : List Int) (a : Assignments) (b : Nat)
    (hwf : TrailWF V a) : TrailWF V { backtrack a b with dl := b } := by
  obtain ⟨hnd, hmem⟩ := hwf
  have hent : ({ backtrack a b with dl := b } : Assignments).entries
      = a.entries.filter (fun p => decide (p.2.dl ≤ b)) := backtrack_entries a b hnd
  constructor
  · rw [KeysNodup, keysOf, hent]
    exact hnd.sublist ((List.filter_sublist _).map Prod.fst)
  · intro p hp
    rw [hent] at hp
    exact hmem p (List.mem_filter.mp hp).1

theorem trailWF_up (V : List Int) (f : Formula) (hcl : ClausesWF V f) (fuel : Nat)
    (a : Assignments) (hwf : TrailWF V a) :
    (∀ c a', unit_propagation fuel f a = .conflict c a' →
      TrailWF V a' ∧ c ∈ f.clauses ∧ clause_status c a' = .unsatisfied) ∧
    (∀ a', unit_propagation fuel f a = .saturated a' → TrailWF V a') :=
  unit_propagation_inv f
    (fun a' c l hc hl _ _ hp =>
      trailWF_assign V a' l.var (!l.negation) (some c) hp (hcl c hc l hl)
        (fun c' hc' => by injection hc' with h1; exact h1 ▸ hcl c hc))
    fuel a hwf

theorem resolve_literal_mem {c ante : Clause} {x : Int} {l : Literal}
    (h : l ∈ (resolve c ante x).literals) : l ∈ c.literals ∨ l ∈ ante.literals := by
  rw [resolve] at h
  have h1 := List.mem_dedup.mp h
  exact List.mem_append.mp (List.mem_of_mem_filter h1)

theorem analysisLoop_vars (V : List Int) : ∀ (fuel : Nat) (c : Clause) (a : Assignments)
    (b : Nat) (lc : Clause), analysisLoop fuel c a = .learned b lc →
    (∀ l ∈ c.literals, l.var ∈ V) → TrailWF V a → ∀ l ∈ lc.literals, l.var ∈ V := by
  intro fuel
  induction fuel with
  | zero => intro c a b lc h; exact CAOut.noConfusion h
  | succ fuel ih =>
    intro c a b lc h hc hwf
    rw [analysisLoop] at h
    split at h
    · exact CAOut.noConfusion h
    · split at h
      · rw [CAOut.learned.injEq] at h
        exact h.2 ▸ hc
      · split at h
        · exact CAOut.noConfusion h
        · next l hfind =>
          split at h
          · exact CAOut.noConfusion h
          · next ante hante =>
            refine ih _ a b lc h (fun l' hl' => ?_) hwf
            rcases resolve_literal_mem hl' with h' | h'
            · exact hc l' h'
            · obtain ⟨asg, hasg, hasg2⟩ : ∃ asg, a.lookup l.var = some asg ∧
                  asg.antecedent = some ante := by
                cases hlk : a.lookup l.var with
                | none => rw [hlk] at hante; exact Option.noConfusion hante
                | some asg =>
                  rw [hlk] at hante
                  exact ⟨asg, rfl, hante⟩
              have hpmem := lookup_some_mem a.entries l.var asg hasg
              exact (hwf.2 _ hpmem).2 ante hasg2 l' h'

end CDCL

namespace CDCL

theorem conflict_analysis_vars (V : List Int) (fuel : Nat) (c : Clause) (a : Assignments)
    (b : Nat) (lc : Clause) (h : conflict_analysis fuel c a = .learned b lc)
    (hc : ∀ l ∈ c.literals, l.var ∈ V) (hwf : TrailWF V a) :
    ∀ l ∈ lc.literals, l.var ∈ V := by
  rw [conflict_analysis] at h
  split at h
  · exact CAOut.noConfusion h
  · exact analysisLoop_vars V fuel c a b lc h hc hwf

theorem innerLoop_ok_inv (V : List Int) (upFuel caFuel : Nat) : ∀ (fuel : Nat) (f : Formula)
    (a : Assignments) (f' : Formula) (a' : Assignments),
    innerLoop upFuel caFuel fuel f a = .ok f' a' →
    f.vars = V → ClausesWF V f → TrailWF V a →
    f'.vars = V ∧ ClausesWF V f' ∧ TrailWF V a' ∧ f.clauses ⊆ f'.clauses ∧
    (∀ c ∈ f'.clauses, clause_status c a' = .satisfied ∨ clause_status c a' = .unresolved) := by
  intro fuel
  induction fuel with
  | zero => intro f a f' a' h; exact InnerOut.noConfusion h
  | succ fuel ih =>
    intro f a f' a' h hfv hcl hwf
    rw [innerLoop] at h
    split at h
    · next a1 heq =>
      injection h with h1 h2
      subst h1
      subst h2
      exact ⟨hfv, hcl, (trailWF_up V f hcl upFuel a hwf).2 a1 heq,
        fun c hc => hc, unit_propagation_saturated_status upFuel f a a1 heq⟩
    · exact InnerOut.noConfusion h
    · exact InnerOut.noConfusion h
    · next c a1 heq =>
      obtain ⟨hwf1, hcmem, _⟩ := (trailWF_up V f hcl upFuel a hwf).1 c a1 heq
      split at h
      · exact InnerOut.noConfusion h
      · exact InnerOut.noConfusion h
      · exact InnerOut.noConfusion h
      · next b lc hca =>
        have hlcvars : ∀ l ∈ lc.literals, l.var ∈ V :=
          conflict_analysis_vars V caFuel c a1 b lc hca
            (fun l hl => hcl c hcmem l hl) hwf1
        have hcl2 : ClausesWF V (add_learnt_clause f lc) := by
          intro c' hc' l hl
          rw [add_learnt_clause] at hc'
          rcases List.mem_append.mp hc' with h' | h'
          · exact hcl c' h' l hl
          · rw [List.mem_singleton.mp h'] at hl
            exact hlcvars l hl
        have hwf2 : TrailWF V { backtrack a1 b with dl := b } :=
          trailWF_backtrack V a1 b hwf1
        obtain ⟨g1, g2, g3, g4, g5⟩ := ih (add_learnt_clause f lc)
          { backtrack a1 b with dl := b } f' a' h hfv hcl2 hwf2
        refine ⟨g1, g2, g3, ?_, g5⟩
        intro c' hc'
        exact g4 (by rw [add_learnt_clause]; exact List.mem_append_left _ hc')

theorem status_satisfied_iff (c : Clause) (a : Assignments) :
    clause_status c a = .satisfied ↔ some true ∈ c.literals.map (fun l => a.valueOpt l) := by
  rw [clause_status]
  constructor
  · intro h
    split at h
    · next hmem => exact hmem
    · split at h
      · exact ClauseStatus.noConfusion h
      · split at h
        · exact ClauseStatus.noConfusion h
        · exact ClauseStatus.noConfusion h
  · intro hmem
    rw [if_pos hmem]

theorem status_all_assigned (c : Clause) (a : Assignments)
    (h : ∀ l ∈ c.literals, a.mem l.var) :
    clause_status c a = .satisfied ∨ clause_status c a = .unsatisfied := by
  rw [clause_status]
  by_cases hmem : some true ∈ c.literals.map (fun l => a.valueOpt l)
  · rw [if_pos hmem]
    exact Or.inl rfl
  · rw [if_neg hmem]
    have hall : ∀ x ∈ c.literals.map (fun l => a.valueOpt l), x = some false := by
      intro x hx
      obtain ⟨l, hl, hval⟩ := List.mem_map.mp hx
      obtain ⟨asg, hasg⟩ := Option.isSome_iff_exists.mp (h l hl)
      have hxs : x = some (if l.negation then !asg.value else asg.value) := by
        rw [← hval, Assignments.valueOpt, hasg]
        rfl
      cases hbv : (if l.negation then !asg.value else asg.value) with
      | true =>
        rw [hxs, hbv] at hx
        exact absurd hx hmem
      | false => rw [hxs, hbv]
    rw [if_pos (List.count_eq_length.mpr (fun b hb => (hall b hb).symm))]
    exact Or.inr rfl

end CDCL

namespace CDCL

theorem all_assigned_of_length {V : List Int} (hVnd : V.Nodup) {a : Assignments}
    (hkeys : ∀ p ∈ a.entries, p.1 ∈ V) (hnd : KeysNodup a)
    (hlen : V.length = a.entries.length) : ∀ v ∈ V, a.mem v = true := by
  intro v hv
  have hsub : (a.entries.map Prod.fst).toFinset ⊆ V.toFinset := by
    intro x hx
    obtain ⟨p, hp, hp1⟩ := List.mem_map.mp (List.mem_toFinset.mp hx)
    exact List.mem_toFinset.mpr (hp1 ▸ hkeys p hp)
  have hnd' : (a.entries.map Prod.fst).Nodup := hnd
  have hcard : V.toFinset.card ≤ (a.entries.map Prod.fst).toFinset.card := by
    rw [List.toFinset_card_of_nodup hVnd, List.toFinset_card_of_nodup hnd',
      List.length_map]
    exact Nat.le_of_eq hlen
  have heq : (a.entries.map Prod.fst).toFinset = V.toFinset :=
    Finset.eq_of_subset_of_card_le hsub hcard
  have hvk : v ∈ a.entries.map Prod.fst := by
    rw [← List.mem_toFinset, heq]
    exact List.mem_toFinset.mpr hv
  exact mem_of_key_mem a.entries v hvk

theorem pick_mem_of_not_all (f : Formula) (a : Assignments) (choice : Nat × Bool)
    (hna : all_variables_assigned f a = false) (hkeys : ∀ p ∈ a.entries, p.1 ∈ f.vars)
    (hnd : KeysNodup a) (hVnd : f.vars.Nodup) :
    (pick_branching_variable f a choice).1 ∈ f.vars := by
  have hne : (f.vars.filter (fun v => !(a.mem v))).length ≠ 0 := by
    intro hzero
    have hempty : f.vars.filter (fun v => !(a.mem v)) = [] :=
      List.eq_nil_of_length_eq_zero hzero
    have hall : ∀ v ∈ f.vars, a.mem v = true := by
      intro v hv
      by_contra hmem
      rw [Bool.not_eq_true] at hmem
      have : v ∈ f.vars.filter (fun v => !(a.mem v)) :=
        List.mem_filter.mpr ⟨hv, by rw [hmem]; rfl⟩
      rw [hempty] at this
      exact List.not_mem_nil v this
    have hinj : ∀ v ∈ f.vars, ∃ p ∈ a.entries, p.1 = v := by
      intro v hv
      obtain ⟨asg, hasg⟩ := Option.isSome_iff_exists.mp (hall v hv)
      exact ⟨(v, asg), lookup_some_mem a.entries v asg hasg, rfl⟩
    have hsub2 : f.vars.toFinset ⊆ (a.entries.map Prod.fst).toFinset := by
      intro x hx
      obtain ⟨p, hp, hp1⟩ := hinj x (List.mem_toFinset.mp hx)
      exact List.mem_toFinset.mpr (hp1 ▸ List.mem_map_of_mem Prod.fst hp)
    have hsub3 : (a.entries.map Prod.fst).toFinset ⊆ f.vars.toFinset := by
      intro x hx
      obtain ⟨p, hp, hp1⟩ := List.mem_map.mp (List.mem_toFinset.mp hx)
      exact List.mem_toFinset.mpr (hp1 ▸ hkeys p hp)
    have heq : f.vars.toFinset = (a.entries.map Prod.fst).toFinset :=
      le_antisymm hsub2 hsub3
    have hnd' : (a.entries.map Prod.fst).Nodup := hnd
    have hlen : f.vars.length = a.entries.length := by
      rw [← List.toFinset_card_of_nodup hVnd, ← List.length_map a.entries Prod.fst,
        ← List.toFinset_card_of_nodup hnd', heq]
    rw [all_variables_assigned] at hna
    simp [hlen] at hna
  rw [pick_branching_variable]
  have hlt : choice.1 % (f.vars.filter (fun v => !(a.mem v))).length
      < (f.vars.filter (fun v => !(a.mem v))).length :=
    Nat.mod_lt _ (Nat.pos_of_ne_zero hne)
  have hmem := List.getElem_mem hlt
  rw [List.getD_eq_getElem _ 0 hlt]
  exact (List.mem_filter.mp hmem).1

end CDCL

namespace CDCL

theorem mem_true_of_mapM (a : Assignments) : ∀ (lits : List Literal) (vs : List Bool),
    lits.mapM (fun l => a.valueOpt l) = some vs →
    (∃ l ∈ lits, a.valueOpt l = some true) → true ∈ vs := by
  intro lits
  induction lits with
  | nil =>
    intro vs _ hex
    obtain ⟨l, hl, _⟩ := hex
    exact absurd hl (List.not_mem_nil l)
  | cons l0 rest ih =>
    intro vs hmap hex
    rw [List.mapM_cons] at hmap
    cases hv : a.valueOpt l0 with
    | none => rw [hv] at hmap; exact Option.noConfusion hmap
    | some v0 =>
      rw [hv] at hmap
      cases hrest : rest.mapM (fun l => a.valueOpt l) with
      | none => rw [hrest] at hmap; exact Option.noConfusion hmap
      | some vs' =>
        rw [hrest] at hmap
        injection hmap with h1
        obtain ⟨l, hl, hval⟩ := hex
        rcases List.mem_cons.mp hl with rfl | hl'
        · rw [hv] at hval
          injection hval with h2
          rw [← h1, ← h2]
          exact List.mem_cons_self v0 vs'
        · rw [← h1]
          exact List.mem_cons_of_mem v0 (ih vs' hrest ⟨l, hl', hval⟩)

theorem satisfy_go_all_satisfied (a : Assignments) : ∀ (cs : List Clause),
    (∀ c ∈ cs, (∀ l ∈ c.literals, a.mem l.var) ∧ clause_status c a = .satisfied) →
    Assignments.satisfy.go a cs = some true := by
  intro cs
  induction cs with
  | nil => intro _; rfl
  | cons c rest ih =>
    intro h
    obtain ⟨hmem, hsat⟩ := h c (List.mem_cons_self c rest)
    obtain ⟨vs, hvs⟩ := Option.isSome_iff_exists.mp (mapM_valueOpt_isSome a c.literals hmem)
    have hex : ∃ l ∈ c.literals, a.valueOpt l = some true := by
      obtain ⟨l, hl, hval⟩ := List.mem_map.mp ((status_satisfied_iff c a).mp hsat)
      exact ⟨l, hl, hval⟩
    have htrue : true ∈ vs := mem_true_of_mapM a c.literals vs hvs hex
    rw [Assignments.satisfy.go, hvs]
    simp only [htrue, if_pos]
    exact ih (fun c' hc' => h c' (List.mem_cons_of_mem c hc'))

theorem outerLoop_sat (oracle : Nat → Nat × Bool) (upFuel caFuel : Nat) (V : List Int)
    (hVnd : V.Nodup) : ∀ (fuel k : Nat) (f : Formula) (a asat : Assignments),
    outerLoop oracle upFuel caFuel fuel k f a = .sat asat →
    f.vars = V → ClausesWF V f → TrailWF V a →
    (∀ c ∈ f.clauses, clause_status c a = .satisfied ∨ clause_status c a = .unresolved) →
    (∀ v ∈ V, asat.mem v = true) ∧
    (∀ c ∈ f.clauses, (∀ l ∈ c.literals, asat.mem l.var) ∧
      clause_status c asat = .satisfied) := by
  intro fuel
  induction fuel with
  | zero => intro k f a asat h; exact Result.noConfusion h
  | succ fuel ih =>
    intro k f a asat h hfv hcl hwf hst
    rw [outerLoop] at h
    split at h
    · next hall =>
      injection h with h1
      subst h1
      rw [all_variables_assigned] at hall
      have hlen : f.vars.length = a.entries.length := by simpa using hall
      have hlen' : V.length = a.entries.length := by rw [← hfv]; exact hlen
      have hmemall : ∀ v ∈ V, a.mem v = true :=
        all_assigned_of_length hVnd (fun p hp => hfv ▸ (hwf.2 p hp).1) hwf.1 hlen'
      refine ⟨hmemall, fun c hc => ?_⟩
      have hlits : ∀ l ∈ c.literals, a.mem l.var := fun l hl => hmemall l.var (hcl c hc l hl)
      rcases status_all_assigned c a hlits with hsat | hunsat
      · exact ⟨hlits, hsat⟩
      · rcases hst c hc with h' | h'
        · exact ⟨hlits, h'⟩
        · rw [hunsat] at h'
          exact absurd h' (fun hx => ClauseStatus.noConfusion hx)
    · next hall =>
      split at h
      · next f' a' heq =>
        have hvpick : (pick_branching_variable f a (oracle k)).1 ∈ f.vars :=
          pick_mem_of_not_all f a (oracle k) (Bool.not_eq_true _ ▸ Bool.of_not_eq_true hall)
            (fun p hp => hfv ▸ (hwf.2 p hp).1) hwf.1 (hfv ▸ hVnd)
        have hwf1 : TrailWF V (Assignments.assign { a with dl := a.dl + 1 }
            (pick_branching_variable f a (oracle k)).1
            (pick_branching_variable f a (oracle k)).2 none) := by
          refine trailWF_assign V { a with dl := a.dl + 1 }
            (pick_branching_variable f a (oracle k)).1
            (pick_branching_variable f a (oracle k)).2 none ⟨hwf.1, hwf.2⟩
            (hfv ▸ hvpick) (fun c hc => Option.noConfusion hc)
        obtain ⟨g1, g2, g3, g4, g5⟩ := innerLoop_ok_inv V upFuel caFuel fuel f _ f' a' heq
          hfv hcl hwf1
        obtain ⟨r1, r2⟩ := ih (k + 1) f' a' asat h g1 g2 g3 g5
        exact ⟨r1, fun c hc => r2 c (g4 hc)⟩
      · exact Result.noConfusion h
      · exact Result.noConfusion h
      · exact Result.noConfusion h

end CDCL

namespace CDCL

theorem formula_mk_clausesWF (cs : List Clause) :
    ClausesWF (Formula.mk' cs).vars (Formula.mk' cs) := by
  intro c hc l hl
  have hc' : c ∈ cs.map (fun c => Clause.mk c.literals.dedup) := hc
  obtain ⟨c0, hc0, rfl⟩ := List.mem_map.mp hc'
  have hl0 : l ∈ c0.literals := List.mem_dedup.mp hl
  show l.var ∈ (cs.flatMap (fun c => c.literals.map (·.var))).dedup
  rw [List.mem_dedup]
  exact List.mem_flatMap.mpr ⟨c0, hc0, List.mem_map_of_mem (·.var) hl0⟩

/-- **C1** (soundness of a SAT verdict): whenever `cdcl_solve` returns an
assignment rather than the UNSAT sentinel, that assignment has a trail
entry (a boolean) for every variable of the formula, and
`Assignments.satisfy` evaluates the original formula — the clause set built
by the `Formula` constructor before any learning — to `True`. -/
theorem C1_sat_soundness (oracle : Nat → Nat × Bool) (fuel upFuel caFuel : Nat)
    (cs : List Clause) (asat : Assignments)
    (h : cdcl_solve oracle fuel upFuel caFuel (Formula.mk' cs) = .sat asat) :
    (∀ v ∈ (Formula.mk' cs).vars, asat.mem v = true) ∧
    asat.satisfy (Formula.mk' cs) = some true := by
  rw [cdcl_solve] at h
  split at h
  · exact Result.noConfusion h
  · exact Result.noConfusion h
  · exact Result.noConfusion h
  · next a0 heq =>
    have hcl : ClausesWF (Formula.mk' cs).vars (Formula.mk' cs) := formula_mk_clausesWF cs
    have hVnd : (Formula.mk' cs).vars.Nodup := List.nodup_dedup _
    have hwf0 : TrailWF (Formula.mk' cs).vars ⟨[], 0⟩ :=
      ⟨List.nodup_nil, fun p hp => absurd hp (List.not_mem_nil p)⟩
    have hwfa0 : TrailWF (Formula.mk' cs).vars a0 :=
      (trailWF_up (Formula.mk' cs).vars (Formula.mk' cs) hcl upFuel _ hwf0).2 a0 heq
    have hst0 := unit_propagation_saturated_status upFuel (Formula.mk' cs) _ a0 heq
    obtain ⟨r1, r2⟩ := outerLoop_sat oracle upFuel caFuel (Formula.mk' cs).vars hVnd fuel 0
      (Formula.mk' cs) a0 asat h rfl hcl hwfa0 hst0
    refine ⟨r1, ?_⟩
    rw [Assignments.satisfy]
    exact satisfy_go_all_satisfied asat (Formula.mk' cs).clauses r2

/-- Witness for C1: on the formula `{x1}, {x2}` the solver returns the
trail assigning both variables true, which is total and satisfies the
original clauses. -/
theorem C1_sat_soundness_witness :
    cdcl_solve (fun _ => (0, true)) 5 5 5
        (Formula.mk' [Clause.mk [⟨1, false⟩], Clause.mk [⟨2, false⟩]])
      = .sat ⟨[(2, ⟨true, some (Clause.mk [⟨2, false⟩]), 0⟩),
               (1, ⟨true, some (Clause.mk [⟨1, false⟩]), 0⟩)], 0⟩ ∧
    ((∀ v ∈ (Formula.mk' [Clause.mk [⟨1, false⟩], Clause.mk [⟨2, false⟩]]).vars,
        Assignments.mem ⟨[(2, ⟨true, some (Clause.mk [⟨2, false⟩]), 0⟩),
               (1, ⟨true, some (Clause.mk [⟨1, false⟩]), 0⟩)], 0⟩ v = true) ∧
      Assignments.satisfy ⟨[(2, ⟨true, some (Clause.mk [⟨2, false⟩]), 0⟩),
               (1, ⟨true, some (Clause.mk [⟨1, false⟩]), 0⟩)], 0⟩
        (Formula.mk' [Clause.mk [⟨1, false⟩], Clause.mk [⟨2, false⟩]]) = some true) :=
  ⟨by decide, C1_sat_soundness (fun _ => (0, true)) 5 5 5
    [Clause.mk [⟨1, false⟩], Clause.mk [⟨2, false⟩]]
    ⟨[(2, ⟨true, some (Clause.mk [⟨2, false⟩]), 0⟩),
      (1, ⟨true, some (Clause.mk [⟨1, false⟩]), 0⟩)], 0⟩ (by decide)⟩

end CDCL

namespace CDCL

theorem lookup_eraseP_ne : ∀ (entries : List (Int × Assignment)) (v w : Int), w ≠ v →
    (entries.eraseP (fun p => p.1 == v)).lookup w = entries.lookup w := by
  intro entries
  induction entries with
  | nil => intro v w _; rfl
  | cons p rest ih =>
    intro v w hne
    obtain ⟨k, b⟩ := p
    by_cases hk : k = v
    · subst hk
      rw [List.eraseP_cons_of_pos (by simp)]
      rw [List.lookup]
      have : (w == k) = false := by simpa using hne
      rw [this]
    · rw [List.eraseP_cons_of_neg (by simpa using hk)]
      rw [List.lookup, List.lookup]
      by_cases hw : w = k
      · subst hw
        simp
      · have : (w == k) = false := by simpa using hw
        rw [this]
        exact ih v w hne

theorem lookup_assign (a : Assignments) (v : Int) (val : Bool) (ante : Option Clause)
    (w : Int) : (a.assign v val ante).lookup w
      = if w = v then some ⟨val, ante, a.dl⟩ else a.lookup w := by
  rw [Assignments.assign, Assignments.lookup]
  show List.lookup w ((v, ⟨val, ante, a.dl⟩) :: a.entries.eraseP (fun p => p.1 == v)) = _
  rw [List.lookup]
  by_cases hw : w = v
  · subst hw
    simp
  · have hbeq : (w == v) = false := by simpa using hw
    rw [hbeq, if_neg hw]
    exact lookup_eraseP_ne a.entries v w hw

theorem lookup_none_of_not_mem : ∀ (entries : List (Int × Assignment)) (v : Int),
    v ∉ entries.map Prod.fst → entries.lookup v = none := by
  intro entries
  induction entries with
  | nil => intro v _; rfl
  | cons p rest ih =>
    intro v hv
    obtain ⟨k, b⟩ := p
    rw [List.lookup]
    have hvk : v ≠ k := fun h => hv (by rw [h]; exact List.mem_cons_self k _)
    have : (v == k) = false := by simpa using hvk
    rw [this]
    exact ih v (fun h => hv (List.mem_cons_of_mem k h))

theorem lookup_forall_ne : ∀ (entries : List (Int × Assignment)) (v : Int),
    entries.lookup v = none → ∀ p ∈ entries, p.1 ≠ v := by
  intro entries
  induction entries with
  | nil => intro v _ p hp; exact absurd hp (List.not_mem_nil p)
  | cons q rest ih =>
    intro v h p hp
    obtain ⟨k, b⟩ := q
    rw [List.lookup] at h
    rcases List.mem_cons.mp hp with rfl | hp'
    · intro hx
      rw [show (v == k) = true from by simpa using hx.symm] at h
      exact Option.noConfusion h
    · cases hvk : (v == k) with
      | true => rw [hvk] at h; exact Option.noConfusion h
      | false =>
        rw [hvk] at h
        exact ih v h p hp'

theorem eraseP_no_match (entries : List (Int × Assignment)) (v : Int)
    (h : entries.lookup v = none) : entries.eraseP (fun p => p.1 == v) = entries := by
  apply List.eraseP_of_forall_not
  intro p hp
  have := lookup_forall_ne entries v h p hp
  simpa using this

theorem mem_lookup_of_nodup : ∀ (entries : List (Int × Assignment)),
    (entries.map Prod.fst).Nodup → ∀ (v : Int) (asg : Assignment),
    (v, asg) ∈ entries → entries.lookup v = some asg := by
  intro entries
  induction entries with
  | nil => intro _ v asg h; exact absurd h (List.not_mem_nil _)
  | cons q rest ih =>
    intro hnd v asg hmem
    obtain ⟨k, b⟩ := q
    simp only [List.map_cons, List.nodup_cons] at hnd
    rw [List.lookup]
    rcases List.mem_cons.mp hmem with heq | hmem'
    · injection heq with h1 h2
      subst h1
      subst h2
      simp
    · by_cases hvk : v = k
      · subst hvk
        exact absurd (List.mem_map_of_mem Prod.fst hmem') hnd.1
      · have : (v == k) = false := by simpa using hvk
        rw [this]
        exact ih hnd.2 v asg hmem'

theorem lookup_restrict_list : ∀ (es : List (Int × Assignment)), (es.map Prod.fst).Nodup →
    ∀ (k : Nat) (v : Int),
    (es.filter (fun p => decide (p.2.dl ≤ k))).lookup v
      = match es.lookup v with
        | some asg => if asg.dl ≤ k then some asg else none
        | none => none := by
  intro es
  induction es with
  | nil => intro _ k v; rfl
  | cons q rest ih =>
    intro hnd k v
    obtain ⟨w, b⟩ := q
    simp only [List.map_cons, List.nodup_cons] at hnd
    by_cases hdl : b.dl ≤ k
    · rw [List.filter_cons_of_pos (by simpa using hdl)]
      rw [List.lookup, List.lookup]
      by_cases hv : v = w
      · subst hv
        simp [hdl]
      · have : (v == w) = false := by simpa using hv
        rw [this]
        exact ih hnd.2 k v
    · rw [List.filter_cons_of_neg (by simpa using hdl)]
      by_cases hv : v = w
      · subst hv
        rw [List.lookup]
        have hb : (v == v) = true := by simp
        rw [hb]
        rw [ih hnd.2 k v, lookup_none_of_not_mem rest v hnd.1]
        simp [hdl]
      · rw [List.lookup]
        have : (v == w) = false := by simpa using hv
        rw [this]
        exact ih hnd.2 k v

theorem lookup_restrict (a : Assignments) (hnd : KeysNodup a) (k : Nat) (v : Int) :
    (restrict a k).lookup v
      = match a.lookup v with
        | some asg => if asg.dl ≤ k then some asg else none
        | none => none :=
  lookup_restrict_list a.entries hnd k v

end CDCL

namespace CDCL

theorem status_unsatisfied_iff (c : Clause) (a : Assignments) :
    clause_status c a = .unsatisfied ↔ Falsified c a := by
  rw [clause_status]
  constructor
  · intro h
    split at h
    · exact ClauseStatus.noConfusion h
    · split at h
      · next hcnt =>
        intro l hl
        have := List.count_eq_length.mp hcnt
        exact (this _ (List.mem_map_of_mem (fun l => a.valueOpt l) hl)).symm
      · split at h
        · exact ClauseStatus.noConfusion h
        · exact ClauseStatus.noConfusion h
  · intro hf
    have hall : ∀ x ∈ c.literals.map (fun l => a.valueOpt l), some false = x := by
      intro x hx
      obtain ⟨l, hl, hval⟩ := List.mem_map.mp hx
      exact (hval ▸ hf l hl).symm
    have hnotsat : some true ∉ c.literals.map (fun l => a.valueOpt l) := by
      intro hx
      have := hall _ hx
      simp at this
    rw [if_neg hnotsat, if_pos (List.count_eq_length.mpr hall)]

theorem count_beq_bridge (a : Option Bool) : ∀ (l : List (Option Bool)),
    @List.count _ instBEqOfDecidableEq a l = l.count a := by
  intro l
  induction l with
  | nil => rfl
  | cons b l ih =>
    rw [@List.count_cons _ instBEqOfDecidableEq, List.count_cons, ih]
    by_cases h : b = a
    · subst h
      simp
    · simp [h]

theorem unit_other_false (c : Clause) (a : Assignments)
    (hst : clause_status c a = .unitS) {l : Literal} (hl : l ∈ c.literals)
    (hmem : a.mem l.var = false) :
    ∀ l' ∈ c.literals, l'.var ≠ l.var → a.valueOpt l' = some false := by
  intro l' hl' hvar
  rw [clause_status] at hst
  split at hst
  · exact ClauseStatus.noConfusion hst
  · split at hst
    · exact ClauseStatus.noConfusion hst
    · split at hst
      · next hnotsat hnotall hcnt =>
        by_contra hne
        have hl'none : a.valueOpt l' = none := by
          cases hval : a.valueOpt l' with
          | none => rfl
          | some bv =>
            cases bv with
            | true =>
              exact absurd (List.mem_map.mpr ⟨l', hl', hval⟩) hnotsat
            | false => exact absurd hval hne
        have hlnone : a.valueOpt l = none := by
          have hms : (a.lookup l.var).isSome = false := hmem
          have hlk : a.lookup l.var = none :=
            Option.not_isSome_iff_eq_none.mp (by simp [hms])
          rw [Assignments.valueOpt, hlk]
          rfl
        have hll' : l' ≠ l := fun h => hvar (congrArg Literal.var h)
        have hl'e : l' ∈ c.literals.erase l := (List.mem_erase_of_ne hll').mpr hl'
        have hperm : List.Perm c.literals (l :: l' :: ((c.literals.erase l).erase l')) :=
          (List.perm_cons_erase hl).trans (List.Perm.cons l (List.perm_cons_erase hl'e))
        have hpermv := (hperm.map (fun x => a.valueOpt x)).count_eq (some false)
        rw [count_beq_bridge, count_beq_bridge] at hpermv
        simp only [List.map_cons, List.count_cons, hlnone, hl'none] at hpermv
        simp at hpermv
        have hlenp := hperm.length_eq
        rw [List.length_cons, List.length_cons] at hlenp
        have hcount_le := List.count_le_length (some false)
          (((c.literals.erase l).erase l').map (fun x => a.valueOpt x))
        rw [List.length_map] at hcount_le
        rw [List.length_map] at hcnt
        omega
      · exact ClauseStatus.noConfusion hst

end CDCL

namespace CDCL

theorem keysNodup_assign (a : Assignments) (v : Int) (val : Bool) (ante : Option Clause)
    (h : KeysNodup a) : KeysNodup (a.assign v val ante) := by
  rw [KeysNodup, keysOf, Assignments.assign]
  simp only [List.map_cons]
  rw [eraseP_eq_filter_of_keysNodup _ _ h, List.nodup_cons]
  constructor
  · intro hx
    obtain ⟨q, hq, hq1⟩ := List.mem_map.mp hx
    rw [List.mem_filter] at hq
    have : (q.1 == v) = false := by simpa using hq.2
    rw [hq1] at this
    simp at this
  · exact h.sublist ((List.filter_sublist _).map Prod.fst)

theorem mem_entries_assign {a : Assignments} {v : Int} {val : Bool} {ante : Option Clause}
    {p : Int × Assignment} (hp : p ∈ (a.assign v val ante).entries) :
    p = (v, ⟨val, ante, a.dl⟩) ∨ p ∈ a.entries := by
  rw [Assignments.assign] at hp
  rcases List.mem_cons.mp hp with h | h
  · exact Or.inl h
  · exact Or.inr (List.mem_of_mem_eraseP h)

theorem entryDl_assign (a : Assignments) (v : Int) (val : Bool) (ante : Option Clause)
    (d : Nat) (h : EntryDl a) (hd : a.dl ≤ d) :
    EntryDl (Assignments.assign { a with dl := d } v val ante) := by
  intro p hp
  rcases mem_entries_assign hp with rfl | hp'
  · exact Nat.le_refl d
  · exact Nat.le_trans (h p hp') hd

theorem oneDecision_assign_some (a : Assignments) (v : Int) (val : Bool) (A : Clause)
    (d : Nat) (h : OneDecisionPerLevel a) :
    OneDecisionPerLevel (Assignments.assign { a with dl := d } v val (some A)) := by
  intro p hp q hq hpa hqa hdl
  rcases mem_entries_assign hp with rfl | hp'
  · exact absurd hpa (fun hx => Option.noConfusion hx)
  · rcases mem_entries_assign hq with rfl | hq'
    · exact absurd hqa (fun hx => Option.noConfusion hx)
    · exact h p hp' q hq' hpa hqa hdl

theorem oneDecision_assign_decision (a : Assignments) (v : Int) (val : Bool)
    (h : OneDecisionPerLevel a) (hdl : EntryDl a) :
    OneDecisionPerLevel (Assignments.assign { a with dl := a.dl + 1 } v val none) := by
  intro p hp q hq hpa hqa hdleq
  rcases mem_entries_assign hp with rfl | hp'
  · rcases mem_entries_assign hq with rfl | hq'
    · rfl
    · exact absurd hdleq (by
        have := hdl q hq'
        simp only
        omega)
  · rcases mem_entries_assign hq with rfl | hq'
    · exact absurd hdleq (by
        have := hdl p hp'
        simp only
        omega)
    · exact h p hp' q hq' hpa hqa hdleq

theorem anteSound_assign (a : Assignments) (v : Int) (val : Bool) (ante : Option Clause)
    (d : Nat) (hfresh : a.lookup v = none) (hA : AnteSound a)
    (hnew : ∀ A, ante = some A → ∀ l ∈ A.literals, l.var ≠ v →
      ∃ asg, a.lookup l.var = some asg ∧
        (if l.negation then !asg.value else asg.value) = false ∧ asg.dl ≤ d) :
    AnteSound (Assignments.assign { a with dl := d } v val ante) := by
  intro p hp A hpA l hl hlv
  have hlook : ∀ w asg, a.lookup w = some asg →
      (Assignments.assign { a with dl := d } v val ante).lookup w = some asg := by
    intro w asg hw
    rw [lookup_assign]
    have hwv : ¬ w = v := fun hx => by rw [hx, hfresh] at hw; exact Option.noConfusion hw
    rw [if_neg hwv]
    exact hw
  rcases mem_entries_assign hp with rfl | hp'
  · obtain ⟨asg, h1, h2, h3⟩ := hnew A hpA l hl hlv
    exact ⟨asg, hlook l.var asg h1, h2, h3⟩
  · obtain ⟨asg, h1, h2, h3⟩ := hA p hp' A hpA l hl hlv
    exact ⟨asg, hlook l.var asg h1, h2, h3⟩

theorem ext_assign (a0 : Assignments) (d : Nat) (a : Assignments) (v : Int) (val : Bool)
    (ante : Option Clause) (hext : Ext a0 d a) (hfresh : a.lookup v = none) :
    Ext a0 d (a.assign v val ante) := by
  obtain ⟨h1, h2, h3⟩ := hext
  refine ⟨h1, ?_, ?_⟩
  · intro w asg hw
    rw [lookup_assign]
    have hwv : ¬ w = v := fun hx => by
      rw [hx] at hw
      rw [h2 v asg hw] at hfresh
      · exact Option.noConfusion hfresh
    rw [if_neg hwv]
    exact h2 w asg hw
  · intro w asg hw0 hw
    rw [lookup_assign] at hw
    by_cases hwv : w = v
    · rw [if_pos hwv] at hw
      injection hw with hw'
      rw [← hw']
      exact h1 ▸ rfl
    · rw [if_neg hwv] at hw
      exact h3 w asg hw0 hw

theorem ext_restrict (a : Assignments) (d : Nat) (hnd : KeysNodup a) (hdl : EntryDl a)
    (hd : a.dl = d) : Ext (restrict a (d - 1)) d a := by
  refine ⟨hd, ?_, ?_⟩
  · intro v asg hv
    rw [lookup_restrict a hnd] at hv
    split at hv
    · next asg' heq =>
      by_cases hle : asg'.dl ≤ d - 1
      · rw [if_pos hle] at hv
        injection hv with h1
        exact h1 ▸ heq
      · rw [if_neg hle] at hv
        exact Option.noConfusion hv
    · exact Option.noConfusion hv
  · intro v asg hv0 hv
    rw [lookup_restrict a hnd] at hv0
    split at hv0
    · next asg' heq =>
      rw [hv] at heq
      injection heq with h2
      subst h2
      by_cases hle : asg.dl ≤ d - 1
      · rw [if_pos hle] at hv0
        exact Option.noConfusion hv0
      · have hmem := lookup_some_mem a.entries v asg hv
        have hdla := hdl (v, asg) hmem
        simp only at hdla
        rw [hd] at hdla
        omega
    · next heq =>
      rw [hv] at heq
      exact Option.noConfusion heq

end CDCL

namespace CDCL

theorem falsified_congr {a1 a2 : Assignments} (h : ∀ v, a1.lookup v = a2.lookup v)
    (c : Clause) : Falsified c a1 ↔ Falsified c a2 := by
  have hval : ∀ l, a1.valueOpt l = a2.valueOpt l := by
    intro l
    rw [Assignments.valueOpt, Assignments.valueOpt, h l.var]
  constructor
  · intro hf l hl
    rw [← hval]
    exact hf l hl
  · intro hf l hl
    rw [hval]
    exact hf l hl

theorem restrict_entries_all (a : Assignments) (k : Nat) (h : ∀ p ∈ a.entries, p.2.dl ≤ k) :
    (restrict a k).entries = a.entries := by
  rw [restrict]
  exact List.filter_eq_self.mpr (fun p hp => by simpa using h p hp)

theorem restrict_restrict_entries (a : Assignments) (k k' : Nat) (hk : k ≤ k') :
    (restrict (restrict a k') k).entries = (restrict a k).entries := by
  rw [restrict, restrict, restrict]
  simp only [List.filter_filter]
  apply List.filter_congr
  intro p _
  by_cases h1 : p.2.dl ≤ k
  · have h2 : p.2.dl ≤ k' := Nat.le_trans h1 hk
    simp [h1, h2]
  · simp [h1]

theorem lookup_entries_congr {a1 a2 : Assignments} (h : a1.entries = a2.entries) (v : Int) :
    a1.lookup v = a2.lookup v := by
  rw [Assignments.lookup, Assignments.lookup, h]

theorem restrict_lookup_ext (ab a' : Assignments) (d k : Nat) (hext : Ext ab d a')
    (hk : k < d) (hnd' : KeysNodup a') (hndb : KeysNodup ab) (v : Int) :
    (restrict a' k).lookup v = (restrict ab k).lookup v := by
  rw [lookup_restrict a' hnd', lookup_restrict ab hndb]
  cases hb : ab.lookup v with
  | some asg =>
    rw [hext.2.1 v asg hb]
  | none =>
    cases ha : a'.lookup v with
    | none => rfl
    | some asg =>
      have hd : asg.dl = d := hext.2.2 v asg hb ha
      show (if asg.dl ≤ k then some asg else none) = none
      rw [hd, if_neg (by omega)]

theorem ext_base (a : Assignments) (d : Nat) (hd : a.dl ≤ d) :
    Ext a d { a with dl := d } := by
  refine ⟨rfl, fun v asg hv => hv, fun v asg hv0 hv => ?_⟩
  have hv' : a.entries.lookup v = some asg := hv
  have hv0' : a.entries.lookup v = none := hv0
  rw [hv0'] at hv'
  exact Option.noConfusion hv'

theorem ext_conflict_current (a0 : Assignments) (d : Nat) (a' : Assignments) (c : Clause)
    (hext : Ext a0 d a') (hnf : ¬ Falsified c a0) (hf : Falsified c a') :
    ∃ l ∈ c.literals, ∃ asg, a'.lookup l.var = some asg ∧ asg.dl = d := by
  rw [Falsified] at hnf
  push_neg at hnf
  obtain ⟨l, hl, hlval⟩ := hnf
  have hfv := hf l hl
  rw [Assignments.valueOpt] at hfv
  cases ha' : a'.lookup l.var with
  | none => rw [ha'] at hfv; exact Option.noConfusion hfv
  | some asg =>
    cases hb : a0.lookup l.var with
    | some asg0 =>
      have := hext.2.1 l.var asg0 hb
      rw [ha'] at this
      injection this with h1
      subst h1
      exact absurd (by rw [Assignments.valueOpt, hb]; rw [ha'] at hfv; exact hfv) hlval
    | none =>
      exact ⟨l, hl, asg, ha', hext.2.2 l.var asg hb ha'⟩

theorem currentLevelLits_ne_nil (a : Assignments) (c : Clause)
    (h : ∃ l ∈ c.literals, ∃ asg, a.lookup l.var = some asg ∧ asg.dl = a.dl) :
    currentLevelLits c a ≠ [] := by
  obtain ⟨l, hl, asg, hasg, hdl⟩ := h
  intro hnil
  have hmem : l ∈ currentLevelLits c a := by
    rw [currentLevelLits]
    refine List.mem_filter.mpr ⟨hl, ?_⟩
    rw [hasg]
    simp [hdl]
  rw [hnil] at hmem
  exact List.not_mem_nil l hmem

end CDCL

namespace CDCL

theorem backjumpLevel_lt (c : Clause) (a : Assignments) (hdl : EntryDl a)
    (h0 : 1 ≤ a.dl) : backjumpLevel c a < a.dl := by
  rw [backjumpLevel]
  set L := (c.literals.filterMap (fun l => (a.lookup l.var).map (·.dl))).dedup with hLdef
  set lv := List.insertionSort (· ≤ ·) L with hlvdef
  have hmemle : ∀ x ∈ lv, x ≤ a.dl := by
    intro x hx
    have hxL : x ∈ L := (List.perm_insertionSort (· ≤ ·) L).mem_iff.mp hx
    have hxf : x ∈ c.literals.filterMap (fun l => (a.lookup l.var).map (·.dl)) := by
      rw [hLdef] at hxL
      exact List.mem_dedup.mp hxL
    obtain ⟨l, _, hval⟩ := List.mem_filterMap.mp hxf
    cases hlk : a.lookup l.var with
    | none => rw [hlk] at hval; exact Option.noConfusion hval
    | some asg =>
      rw [hlk] at hval
      injection hval with h1
      have h1' : asg.dl = x := h1
      have := hdl (l.var, asg) (lookup_some_mem a.entries l.var asg hlk)
      simp only at this
      omega
  by_cases hlen : lv.length ≤ 1
  · rw [if_pos hlen]
    omega
  · rw [if_neg hlen]
    have hnd : lv.Nodup := ((List.perm_insertionSort (· ≤ ·) L).nodup_iff).mpr
      (List.nodup_dedup _)
    have hsort : lv.Sorted (· ≤ ·) := List.sorted_insertionSort (· ≤ ·) L
    have h2 : 2 ≤ lv.length := by omega
    have hi1 : lv.length - 2 < lv.length := by omega
    have hi2 : lv.length - 1 < lv.length := by omega
    have hlt : lv.get ⟨lv.length - 2, hi1⟩ < lv.get ⟨lv.length - 1, hi2⟩ := by
      have hle := List.Sorted.rel_get_of_lt hsort
        (show (⟨lv.length - 2, hi1⟩ : Fin lv.length) < ⟨lv.length - 1, hi2⟩ from by
          simp only [Fin.mk_lt_mk]
          omega)
      have hne : lv.get ⟨lv.length - 2, hi1⟩ ≠ lv.get ⟨lv.length - 1, hi2⟩ := by
        intro hx
        have := (List.Nodup.get_inj_iff hnd).mp hx
        rw [Fin.mk.injEq] at this
        omega
      omega
    have hmax : lv.get ⟨lv.length - 1, hi2⟩ ≤ a.dl :=
      hmemle _ (List.get_mem lv _ hi2)
    rw [List.getD_eq_getElem _ 0 hi1]
    have : lv[lv.length - 2] = lv.get ⟨lv.length - 2, hi1⟩ := rfl
    rw [this]
    omega

end CDCL

namespace CDCL

theorem currentLevel_mem_iff (c : Clause) (a : Assignments) (l : Literal) :
    l ∈ currentLevelLits c a ↔
      l ∈ c.literals ∧ ∃ asg, a.lookup l.var = some asg ∧ asg.dl = a.dl := by
  rw [currentLevelLits, List.mem_filter]
  constructor
  · intro ⟨h1, h2⟩
    refine ⟨h1, ?_⟩
    have h2' : (a.lookup l.var).map (·.dl) = some a.dl := by
      exact eq_of_beq h2
    obtain ⟨asg, hasg, hdl⟩ := Option.map_eq_some'.mp h2'
    exact ⟨asg, hasg, hdl⟩
  · intro ⟨h1, asg, hasg, hdl⟩
    refine ⟨h1, ?_⟩
    rw [hasg]
    simp [hdl]

theorem falsified_distinct_vars {c : Clause} {a : Assignments} (hf : Falsified c a)
    {l1 l2 : Literal} (h1 : l1 ∈ c.literals) (h2 : l2 ∈ c.literals) (hne : l1 ≠ l2) :
    l1.var ≠ l2.var := by
  intro hvar
  have hv1 := hf l1 h1
  have hv2 := hf l2 h2
  rw [Assignments.valueOpt] at hv1 hv2
  cases hlk : a.lookup l1.var with
  | none => rw [hlk] at hv1; exact Option.noConfusion hv1
  | some asg =>
    rw [hlk] at hv1
    rw [hvar] at hlk
    rw [hlk] at hv2
    injection hv1 with hb1
    injection hv2 with hb2
    have hn : l1.negation ≠ l2.negation := by
      intro hx
      apply hne
      obtain ⟨v1, n1⟩ := l1
      obtain ⟨v2, n2⟩ := l2
      simp only at hvar hx
      rw [hvar, hx]
    cases hn1 : l1.negation <;> cases hn2 : l2.negation <;>
        rw [hn1] at hb1 <;> rw [hn2] at hb2 <;> simp at hb1 hb2
    · exact hn (hn1.trans hn2.symm)
    · rw [hb1] at hb2
      exact Bool.noConfusion hb2
    · rw [hb2] at hb1
      exact Bool.noConfusion hb1
    · exact hn (hn1.trans hn2.symm)

theorem exists_second_of_nodup {α : Type} [DecidableEq α] {xs : List α} (hnd : xs.Nodup)
    (hlen : 2 ≤ xs.length) {x : α} (hx : x ∈ xs) : ∃ y ∈ xs, y ≠ x := by
  by_contra hall
  push_neg at hall
  have hcnt : xs.count x = xs.length := List.count_eq_length.mpr
    (fun y hy => (hall y hy).symm)
  have hle1 : xs.count x ≤ 1 := List.nodup_iff_count_le_one.mp hnd x
  omega

theorem resolve_var_ne {c A : Clause} {x : Int} {l : Literal}
    (h : l ∈ (resolve c A x).literals) : l.var ≠ x := by
  rw [resolve] at h
  have h1 := List.mem_dedup.mp h
  have h2 := List.of_mem_filter h1
  intro hvar
  obtain ⟨v, n⟩ := l
  simp only at hvar
  subst hvar
  cases n <;> simp at h2

theorem resolve_mem_var {c A : Clause} {x : Int} {l : Literal} (hc : l ∈ c.literals)
    (hvar : l.var ≠ x) : l ∈ (resolve c A x).literals := by
  rw [resolve]
  rw [List.mem_dedup]
  refine List.mem_filter.mpr ⟨List.mem_append_left _ hc, ?_⟩
  obtain ⟨v, n⟩ := l
  simp only at hvar
  simp [hvar]

theorem resolve_falsified {c A : Clause} {a : Assignments} {x : Int} {asg : Assignment}
    (hf : Falsified c a) (hlk : a.lookup x = some asg) (hante : asg.antecedent = some A)
    (hAS : AnteSound a) : Falsified (resolve c A x) a := by
  intro l hl
  have hvar := resolve_var_ne hl
  rw [resolve] at hl
  rcases List.mem_append.mp (List.mem_of_mem_filter (List.mem_dedup.mp hl)) with hc | hA
  · exact hf l hc
  · have hpm := lookup_some_mem a.entries x asg hlk
    obtain ⟨asg', h1, h2, _⟩ := hAS (x, asg) hpm A hante l hA hvar
    rw [Assignments.valueOpt, h1]
    rw [Option.map_eq_some']
    exact ⟨asg', rfl, h2⟩

end CDCL

namespace CDCL

theorem analysisLoop_not_stuck : ∀ (fuel : Nat) (c : Clause) (a : Assignments),
    Falsified c a → currentLevelLits c a ≠ [] → c.literals.Nodup →
    OneDecisionPerLevel a → AnteSound a →
    analysisLoop fuel c a ≠ .stuck := by
  intro fuel
  induction fuel with
  | zero =>
    intro c a _ _ _ _ _ h
    rw [analysisLoop] at h
    exact CAOut.noConfusion h
  | succ fuel ih =>
    intro c a hf hne hnd hOD hAS h
    rw [analysisLoop] at h
    split at h
    · next hany =>
      rw [List.any_eq_true] at hany
      obtain ⟨l, hl, hlm⟩ := hany
      have hval := hf l hl
      rw [Assignments.valueOpt] at hval
      have hmm : (a.lookup l.var).isSome = false := by
        have h1 : a.mem l.var = false := by simpa using hlm
        exact h1
      cases hlk : a.lookup l.var with
      | some asg => rw [hlk] at hmm; exact Bool.noConfusion hmm
      | none => rw [hlk] at hval; exact Option.noConfusion hval
    · next hassigned =>
      split at h
      · exact CAOut.noConfusion h
      · next hlen =>
        have hlits_nd : (currentLevelLits c a).Nodup := by
          rw [currentLevelLits]
          exact hnd.filter _
        have hlen2 : 2 ≤ (currentLevelLits c a).length := by
          have h1 : 1 ≤ (currentLevelLits c a).length := by
            rcases Nat.eq_zero_or_pos (currentLevelLits c a).length with h0 | h1
            · exact absurd (List.eq_nil_of_length_eq_zero h0) hne
            · exact h1
          omega
        split at h
        · next hfind =>
          have hforall := List.find?_eq_none.mp hfind
          have hl1mem : (currentLevelLits c a).getD 0 (Literal.mk 0 false)
              ∈ currentLevelLits c a := by
            have hi : 0 < (currentLevelLits c a).length := by omega
            rw [List.getD_eq_getElem _ _ hi]
            exact List.getElem_mem hi
          obtain ⟨l2, hl2mem, hl2ne⟩ :=
            exists_second_of_nodup hlits_nd hlen2 hl1mem
          obtain ⟨hc1, asg1, hlk1, hdl1⟩ := (currentLevel_mem_iff c a _).mp hl1mem
          obtain ⟨hc2, asg2, hlk2, hdl2⟩ := (currentLevel_mem_iff c a _).mp hl2mem
          have hante1 : asg1.antecedent = none := by
            have := hforall _ hl1mem
            rw [hlk1] at this
            simpa using this
          have hante2 : asg2.antecedent = none := by
            have := hforall _ hl2mem
            rw [hlk2] at this
            simpa using this
          have hvarne : l2.var ≠ ((currentLevelLits c a).getD 0 (Literal.mk 0 false)).var :=
            falsified_distinct_vars hf hc2 hc1 hl2ne
          have hp1 := lookup_some_mem a.entries _ asg1 hlk1
          have hp2 := lookup_some_mem a.entries _ asg2 hlk2
          have heq := hOD _ hp1 _ hp2 hante1 hante2 (by rw [hdl1, hdl2])
          have : ((currentLevelLits c a).getD 0 (Literal.mk 0 false)).var = l2.var := by
            have := congrArg Prod.fst heq
            simpa using this
          exact hvarne this.symm
        · next l hfindeq =>
          split at h
          · next hbind =>
            have hp := List.find?_some hfindeq
            rw [hbind] at hp
            exact Bool.noConfusion hp
          · next ante hante =>
            have hlmem : l ∈ currentLevelLits c a := List.mem_of_find?_eq_some hfindeq
            obtain ⟨hcl, asg, hlk, hdl⟩ := (currentLevel_mem_iff c a l).mp hlmem
            have hasgante : asg.antecedent = some ante := by
              rw [hlk] at hante
              exact hante
            obtain ⟨l2, hl2mem, hl2ne⟩ := exists_second_of_nodup hlits_nd hlen2 hlmem
            obtain ⟨hc2, asg2, hlk2, hdl2⟩ := (currentLevel_mem_iff c a l2).mp hl2mem
            have hvarne : l2.var ≠ l.var := falsified_distinct_vars hf hc2 hcl hl2ne
            refine ih (resolve c ante l.var) a
              (resolve_falsified hf hlk hasgante hAS) ?_ (List.nodup_dedup _) hOD hAS h
            exact currentLevelLits_ne_nil a (resolve c ante l.var)
              ⟨l2, resolve_mem_var hc2 hvarne, asg2, hlk2, hdl2⟩

end CDCL

namespace CDCL

theorem lookup_none_of_mem_false (a : Assignments) (v : Int) (h : a.mem v = false) :
    a.lookup v = none := by
  have h' : (a.lookup v).isSome = false := h
  cases hlk : a.lookup v with
  | none => rfl
  | some asg => rw [hlk] at h'; exact Bool.noConfusion h'

theorem keysNodup_restrict (a : Assignments) (k : Nat) (h : KeysNodup a) :
    KeysNodup (restrict a k) := by
  have h' : (a.entries.map Prod.fst).Nodup := h
  exact h'.sublist ((List.filter_sublist a.entries).map Prod.fst)

theorem falsified_mono (a : Assignments) (hnd : KeysNodup a) {k k' : Nat} (hk : k ≤ k')
    (c : Clause) (hf : Falsified c (restrict a k)) : Falsified c (restrict a k') := by
  intro l hl
  have h1 := hf l hl
  rw [Assignments.valueOpt, lookup_restrict a hnd k] at h1
  rw [Assignments.valueOpt, lookup_restrict a hnd k']
  cases hlk : a.lookup l.var with
  | none => rw [hlk] at h1; exact Option.noConfusion h1
  | some asg =>
    rw [hlk] at h1
    have h1' : (if asg.dl ≤ k then some asg else none).map
        (fun asg => if l.negation then !asg.value else asg.value) = some false := h1
    by_cases hdl : asg.dl ≤ k
    · rw [if_pos hdl] at h1'
      show (if asg.dl ≤ k' then some asg else none).map
        (fun asg => if l.negation then !asg.value else asg.value) = some false
      rw [if_pos (Nat.le_trans hdl hk)]
      exact h1'
    · rw [if_neg hdl] at h1'
      exact Option.noConfusion h1'

theorem analysisLoop_learned_len (fuel : Nat) :
    ∀ (c : Clause) (a : Assignments) {b : Nat} {lc : Clause},
    analysisLoop fuel c a = .learned b lc → (currentLevelLits lc a).length = 1 := by
  induction fuel with
  | zero =>
    intro c a b lc h
    rw [analysisLoop] at h
    exact CAOut.noConfusion h
  | succ fuel ih =>
    intro c a b lc h
    rw [analysisLoop] at h
    split at h
    · exact CAOut.noConfusion h
    · split at h
      · next hlen =>
        rw [CAOut.learned.injEq] at h
        rw [← h.2]
        exact hlen
      · split at h
        · exact CAOut.noConfusion h
        · split at h
          · exact CAOut.noConfusion h
          · exact ih _ _ h

theorem analysisLoop_learned_nodup (fuel : Nat) :
    ∀ (c : Clause) (a : Assignments) {b : Nat} {lc : Clause},
    analysisLoop fuel c a = .learned b lc → c.literals.Nodup → lc.literals.Nodup := by
  induction fuel with
  | zero =>
    intro c a b lc h _
    rw [analysisLoop] at h
    exact CAOut.noConfusion h
  | succ fuel ih =>
    intro c a b lc h hnd
    rw [analysisLoop] at h
    split at h
    · exact CAOut.noConfusion h
    · split at h
      · rw [CAOut.learned.injEq] at h
        rw [← h.2]
        exact hnd
      · split at h
        · exact CAOut.noConfusion h
        · split at h
          · exact CAOut.noConfusion h
          · exact ih _ _ h (List.nodup_dedup _)

theorem clausesNodup_mk (cs : List Clause) : ClausesNodup (Formula.mk' cs) := by
  intro c hc
  have hc' : c ∈ cs.map (fun c => Clause.mk c.literals.dedup) := hc
  obtain ⟨c0, _, rfl⟩ := List.mem_map.mp hc'
  exact List.nodup_dedup _

theorem saturated_noFalsified (fuel : Nat) (f : Formula) (a a' : Assignments)
    (h : unit_propagation fuel f a = .saturated a') : NoFalsified f a' := by
  intro c hc hf
  rcases unit_propagation_saturated_status fuel f a a' h c hc with h1 | h1 <;>
    · rw [(status_unsatisfied_iff c a').mpr hf] at h1
      exact ClauseStatus.noConfusion h1

theorem trailSafe_unit_assign (a : Assignments) (c : Clause) (l : Literal)
    (hl : l ∈ c.literals) (hm : a.mem l.var = false)
    (hu : clause_status c a = .unitS) (hts : TrailSafe a) :
    TrailSafe (a.assign l.var (!l.negation) (some c)) := by
  obtain ⟨hnd, hdl, hod, has⟩ := hts
  have hfresh : a.lookup l.var = none := lookup_none_of_mem_false a l.var hm
  refine ⟨keysNodup_assign a _ _ _ hnd,
    entryDl_assign a _ _ _ a.dl hdl (Nat.le_refl _),
    oneDecision_assign_some a _ _ c a.dl hod,
    anteSound_assign a _ _ (some c) a.dl hfresh has ?_⟩
  intro A hA l' hl' hlv
  injection hA with hA1
  subst hA1
  have hval := unit_other_false c a hu hl hm l' hl' hlv
  rw [Assignments.valueOpt] at hval
  obtain ⟨asg, hasg, hv⟩ := Option.map_eq_some'.mp hval
  exact ⟨asg, hasg, hv, hdl (l'.var, asg) (lookup_some_mem a.entries l'.var asg hasg)⟩

theorem trailSafe_backjump (a : Assignments) (b : Nat) (hts : TrailSafe a) :
    TrailSafe { backtrack a b with dl := b } := by
  obtain ⟨hnd, hdl, hod, has⟩ := hts
  have hent : ({ backtrack a b with dl := b } : Assignments).entries
      = a.entries.filter (fun p => decide (p.2.dl ≤ b)) := backtrack_entries a b hnd
  refine ⟨?_, ?_, ?_, ?_⟩
  · show (({ backtrack a b with dl := b } : Assignments).entries.map Prod.fst).Nodup
    rw [hent]
    exact hnd.sublist ((List.filter_sublist _).map Prod.fst)
  · intro p hp
    rw [hent] at hp
    show p.2.dl ≤ b
    have := (List.mem_filter.mp hp).2
    simpa using this
  · intro p hp q hq hpa hqa hdleq
    rw [hent] at hp hq
    exact hod p (List.mem_of_mem_filter hp) q (List.mem_of_mem_filter hq) hpa hqa hdleq
  · intro p hp A hpA l hl hlv
    rw [hent] at hp
    have hpdl : p.2.dl ≤ b := by
      have := (List.mem_filter.mp hp).2
      simpa using this
    obtain ⟨asg, h1, h2, h3⟩ := has p (List.mem_of_mem_filter hp) A hpA l hl hlv
    refine ⟨asg, ?_, h2, h3⟩
    show ({ backtrack a b with dl := b } : Assignments).entries.lookup l.var = some asg
    rw [hent, lookup_restrict_list a.entries hnd b l.var]
    have h1' : a.entries.lookup l.var = some asg := h1
    rw [h1']
    show (if asg.dl ≤ b then some asg else none) = some asg
    rw [if_pos (Nat.le_trans h3 (Nat.le_trans hpdl (Nat.le_refl b)))]

theorem pick_unassigned (f : Formula) (a : Assignments) (choice : Nat × Bool)
    (hna : all_variables_assigned f a = false) (hkeys : ∀ p ∈ a.entries, p.1 ∈ f.vars)
    (hnd : KeysNodup a) (hVnd : f.vars.Nodup) :
    a.mem (pick_branching_variable f a choice).1 = false := by
  have hne : (f.vars.filter (fun v => !(a.mem v))).length ≠ 0 := by
    intro hzero
    have hempty : f.vars.filter (fun v => !(a.mem v)) = [] :=
      List.eq_nil_of_length_eq_zero hzero
    have hall : ∀ v ∈ f.vars, a.mem v = true := by
      intro v hv
      by_contra hmem
      rw [Bool.not_eq_true] at hmem
      have : v ∈ f.vars.filter (fun v => !(a.mem v)) :=
        List.mem_filter.mpr ⟨hv, by rw [hmem]; rfl⟩
      rw [hempty] at this
      exact List.not_mem_nil v this
    have hinj : ∀ v ∈ f.vars, ∃ p ∈ a.entries, p.1 = v := by
      intro v hv
      obtain ⟨asg, hasg⟩ := Option.isSome_iff_exists.mp (hall v hv)
      exact ⟨(v, asg), lookup_some_mem a.entries v asg hasg, rfl⟩
    have hsub2 : f.vars.toFinset ⊆ (a.entries.map Prod.fst).toFinset := by
      intro x hx
      obtain ⟨p, hp, hp1⟩ := hinj x (List.mem_toFinset.mp hx)
      exact List.mem_toFinset.mpr (hp1 ▸ List.mem_map_of_mem Prod.fst hp)
    have hsub3 : (a.entries.map Prod.fst).toFinset ⊆ f.vars.toFinset := by
      intro x hx
      obtain ⟨p, hp, hp1⟩ := List.mem_map.mp (List.mem_toFinset.mp hx)
      exact List.mem_toFinset.mpr (hp1 ▸ hkeys p hp)
    have heq : f.vars.toFinset = (a.entries.map Prod.fst).toFinset :=
      le_antisymm hsub2 hsub3
    have hnd' : (a.entries.map Prod.fst).Nodup := hnd
    have hlen : f.vars.length = a.entries.length := by
      rw [← List.toFinset_card_of_nodup hVnd, ← List.length_map a.entries Prod.fst,
        ← List.toFinset_card_of_nodup hnd', heq]
    rw [all_variables_assigned] at hna
    simp [hlen] at hna
  rw [pick_branching_variable]
  have hlt : choice.1 % (f.vars.filter (fun v => !(a.mem v))).length
      < (f.vars.filter (fun v => !(a.mem v))).length :=
    Nat.mod_lt _ (Nat.pos_of_ne_zero hne)
  have hmem := List.getElem_mem hlt
  rw [List.getD_eq_getElem _ 0 hlt]
  have := (List.mem_filter.mp hmem).2
  simpa using this

end CDCL

namespace CDCL

theorem innerLoop_safe (upFuel caFuel : Nat) : ∀ (fuel : Nat) (f : Formula) (a : Assignments),
    TrailSafe a → TrailWF f.vars a → ClausesWF f.vars f → ClausesNodup f →
    NoFalsified f (restrict a (a.dl - 1)) →
    innerLoop upFuel caFuel fuel f a ≠ .stuck ∧
    (∀ f' a', innerLoop upFuel caFuel fuel f a = .ok f' a' →
      TrailSafe a' ∧ ClausesNodup f' ∧ f'.vars = f.vars) := by
  intro fuel
  induction fuel with
  | zero =>
    intro f a _ _ _ _ _
    refine ⟨fun h => ?_, fun f' a' h => ?_⟩
    · rw [innerLoop] at h
      exact InnerOut.noConfusion h
    · rw [innerLoop] at h
      exact InnerOut.noConfusion h
  | succ fuel ih =>
    intro f a hts hwf hcw hcn hnf
    have hext0 : Ext (restrict a (a.dl - 1)) a.dl a :=
      ext_restrict a a.dl hts.1 hts.2.1 rfl
    have hthread := @unit_propagation_inv
        (fun x => TrailSafe x ∧ Ext (restrict a (a.dl - 1)) a.dl x) f
        (fun a' c l hc hl hm hu hp =>
          ⟨trailSafe_unit_assign a' c l hl hm hu hp.1,
           ext_assign (restrict a (a.dl - 1)) a.dl a' l.var (!l.negation) (some c) hp.2
             (lookup_none_of_mem_false a' l.var hm)⟩)
        upFuel a ⟨hts, hext0⟩
    have hwfthread := trailWF_up f.vars f hcw upFuel a hwf
    cases hup : unit_propagation upFuel f a with
    | saturated a1 =>
      have hred : innerLoop upFuel caFuel (fuel + 1) f a = .ok f a1 := by
        rw [innerLoop, hup]
      rw [hred]
      refine ⟨fun h => InnerOut.noConfusion h, fun f' a' h => ?_⟩
      injection h with h1 h2
      subst h1
      subst h2
      exact ⟨(hthread.2 a1 hup).1, hcn, rfl⟩
    | stuck => exact absurd hup (unit_propagation_ne_stuck upFuel f a)
    | fuelOut =>
      have hred : innerLoop upFuel caFuel (fuel + 1) f a = .fuelOut := by
        rw [innerLoop, hup]
      rw [hred]
      exact ⟨fun h => InnerOut.noConfusion h, fun f' a' h => InnerOut.noConfusion h⟩
    | conflict c a1 =>
      obtain ⟨⟨hts1, hext1⟩, hcmem, hstat⟩ := hthread.1 c a1 hup
      obtain ⟨hwf1, _, _⟩ := hwfthread.1 c a1 hup
      have hd : a1.dl = a.dl := hext1.1
      have hfal : Falsified c a1 := (status_unsatisfied_iff c a1).mp hstat
      cases hca : conflict_analysis caFuel c a1 with
      | top =>
        have hred : innerLoop upFuel caFuel (fuel + 1) f a = .unsatAt a1.dl := by
          rw [innerLoop]
          simp only [hup, hca]
        rw [hred]
        exact ⟨fun h => InnerOut.noConfusion h, fun f' a' h => InnerOut.noConfusion h⟩
      | fuelOut =>
        have hred : innerLoop upFuel caFuel (fuel + 1) f a = .fuelOut := by
          rw [innerLoop]
          simp only [hup, hca]
        rw [hred]
        exact ⟨fun h => InnerOut.noConfusion h, fun f' a' h => InnerOut.noConfusion h⟩
      | stuck =>
        exfalso
        rw [conflict_analysis] at hca
        split at hca
        · exact CAOut.noConfusion hca
        · next hdl0 =>
          have hcur := ext_conflict_current (restrict a (a.dl - 1)) a.dl a1 c hext1
            (hnf c hcmem) hfal
          exact analysisLoop_not_stuck caFuel c a1 hfal
            (currentLevelLits_ne_nil a1 c (by rw [hd]; exact hcur))
            (hcn c hcmem) hts1.2.2.1 hts1.2.2.2 hca
      | learned b lc =>
        have hred : innerLoop upFuel caFuel (fuel + 1) f a
            = innerLoop upFuel caFuel fuel (add_learnt_clause f lc)
              { backtrack a1 b with dl := b } := by
          rw [innerLoop]
          simp only [hup, hca]
        have hdl0 : ¬ a1.dl = 0 := by
          intro h0
          rw [conflict_analysis, if_pos h0] at hca
          exact CAOut.noConfusion hca
        have hloop : analysisLoop caFuel c a1 = .learned b lc := by
          rw [conflict_analysis, if_neg hdl0] at hca
          exact hca
        have hb : b = backjumpLevel lc a1 := analysisLoop_learned caFuel c a1 hloop
        have hblt : b < a1.dl := by
          rw [hb]
          exact backjumpLevel_lt lc a1 hts1.2.1 (by omega)
        have hlen1 : (currentLevelLits lc a1).length = 1 :=
          analysisLoop_learned_len caFuel c a1 hloop
        have hlcnd : lc.literals.Nodup :=
          analysisLoop_learned_nodup caFuel c a1 hloop (hcn c hcmem)
        have hent2 : (restrict { backtrack a1 b with dl := b } (b - 1)).entries
            = (restrict a1 (b - 1)).entries := by
          show ({ backtrack a1 b with dl := b } : Assignments).entries.filter
            (fun p => decide (p.2.dl ≤ b - 1)) = _
          rw [backtrack_entries a1 b hts1.1]
          exact restrict_restrict_entries a1 (b - 1) b (Nat.sub_le b 1)
        have heq1 : ∀ v, (restrict a1 (b - 1)).lookup v = (restrict a (b - 1)).lookup v := by
          intro v
          rw [restrict_lookup_ext (restrict a (a.dl - 1)) a1 a.dl (b - 1) hext1
            (by omega) hts1.1 (keysNodup_restrict a (a.dl - 1) hts.1) v]
          exact lookup_entries_congr
            (restrict_restrict_entries a (b - 1) (a.dl - 1) (by omega)) v
        have heqA : ∀ v, (restrict { backtrack a1 b with dl := b } (b - 1)).lookup v
            = (restrict a (b - 1)).lookup v := by
          intro v
          rw [lookup_entries_congr hent2 v]
          exact heq1 v
        have H1 : TrailSafe ({ backtrack a1 b with dl := b } : Assignments) :=
          trailSafe_backjump a1 b hts1
        have H2 : TrailWF (add_learnt_clause f lc).vars
            ({ backtrack a1 b with dl := b } : Assignments) :=
          trailWF_backtrack f.vars a1 b hwf1
        have H3 : ClausesWF (add_learnt_clause f lc).vars (add_learnt_clause f lc) := by
          have hlcvars : ∀ l ∈ lc.literals, l.var ∈ f.vars :=
            conflict_analysis_vars f.vars caFuel c a1 b lc hca
              (fun l hl => hcw c hcmem l hl) hwf1
          intro c' hc' l hl
          rcases List.mem_append.mp hc' with h' | h'
          · exact hcw c' h' l hl
          · rw [List.mem_singleton.mp h'] at hl
            exact hlcvars l hl
        have H4 : ClausesNodup (add_learnt_clause f lc) := by
          intro c' hc'
          rcases List.mem_append.mp hc' with h' | h'
          · exact hcn c' h'
          · rw [List.mem_singleton.mp h']
            exact hlcnd
        have H5 : NoFalsified (add_learnt_clause f lc)
            (restrict { backtrack a1 b with dl := b }
              (({ backtrack a1 b with dl := b } : Assignments).dl - 1)) := by
          intro c' hc' hfals
          rcases List.mem_append.mp hc' with h' | h'
          · have h1 : Falsified c' (restrict a (b - 1)) :=
              (falsified_congr heqA c').mp hfals
            exact hnf c' h'
              (falsified_mono a hts.1 (by omega) c' h1)
          · rw [List.mem_singleton.mp h'] at hfals
            have hlmem : (currentLevelLits lc a1).getD 0 (Literal.mk 0 false)
                ∈ currentLevelLits lc a1 := by
              have hi : 0 < (currentLevelLits lc a1).length := by omega
              rw [List.getD_eq_getElem _ _ hi]
              exact List.getElem_mem hi
            obtain ⟨hclit, asg, hlk, hdlasg⟩ :=
              (currentLevel_mem_iff lc a1 _).mp hlmem
            have hv := hfals _ hclit
            rw [Assignments.valueOpt] at hv
            have hnone : (restrict { backtrack a1 b with dl := b } (b - 1)).lookup
                ((currentLevelLits lc a1).getD 0 (Literal.mk 0 false)).var = none := by
              rw [heqA, ← heq1, lookup_restrict a1 hts1.1 (b - 1), hlk]
              show (if asg.dl ≤ b - 1 then some asg else none) = none
              rw [if_neg (by omega)]
            rw [hnone] at hv
            exact Option.noConfusion hv
        have hih := ih (add_learnt_clause f lc) { backtrack a1 b with dl := b }
          H1 H2 H3 H4 H5
        rw [hred]
        refine ⟨hih.1, fun f' a' h => ?_⟩
        obtain ⟨g1, g2, g3⟩ := hih.2 f' a' h
        exact ⟨g1, g2, g3⟩

end CDCL

namespace CDCL

theorem outerLoop_safe (oracle : Nat → Nat × Bool) (upFuel caFuel : Nat) :
    ∀ (fuel k : Nat) (f : Formula) (a : Assignments),
    TrailSafe a → TrailWF f.vars a → ClausesWF f.vars f → ClausesNodup f →
    NoFalsified f a → f.vars.Nodup →
    outerLoop oracle upFuel caFuel fuel k f a ≠ .stuck := by
  intro fuel
  induction fuel with
  | zero =>
    intro k f a _ _ _ _ _ _ h
    rw [outerLoop] at h
    exact Result.noConfusion h
  | succ fuel ih =>
    intro k f a hts hwf hcw hcn hnf hvnd h
    rw [outerLoop] at h
    split at h
    · exact Result.noConfusion h
    · next hna =>
      have hna' : all_variables_assigned f a = false := by
        rw [Bool.not_eq_true] at hna
        exact hna
      have hkeys : ∀ p ∈ a.entries, p.1 ∈ f.vars := fun p hp => (hwf.2 p hp).1
      have hfresh0 : a.mem (pick_branching_variable f a (oracle k)).1 = false :=
        pick_unassigned f a (oracle k) hna' hkeys hts.1 hvnd
      have hpv : (pick_branching_variable f a (oracle k)).1 ∈ f.vars :=
        pick_mem_of_not_all f a (oracle k) hna' hkeys hts.1 hvnd
      have hlk0 : a.lookup (pick_branching_variable f a (oracle k)).1 = none :=
        lookup_none_of_mem_false a _ hfresh0
      have Hts : TrailSafe (Assignments.assign { a with dl := a.dl + 1 }
          (pick_branching_variable f a (oracle k)).1
          (pick_branching_variable f a (oracle k)).2 none) :=
        ⟨keysNodup_assign { a with dl := a.dl + 1 } _ _ none hts.1,
         entryDl_assign a _ _ none (a.dl + 1) hts.2.1 (Nat.le_succ _),
         oneDecision_assign_decision a _ _ hts.2.2.1 hts.2.1,
         anteSound_assign a _ _ none (a.dl + 1) hlk0 hts.2.2.2
           (fun A hA => Option.noConfusion hA)⟩
      have Hwf : TrailWF f.vars (Assignments.assign { a with dl := a.dl + 1 }
          (pick_branching_variable f a (oracle k)).1
          (pick_branching_variable f a (oracle k)).2 none) :=
        trailWF_assign f.vars { a with dl := a.dl + 1 } _ _ none hwf hpv
          (fun c hc => Option.noConfusion hc)
      have hlookeq : ∀ w, (restrict (Assignments.assign { a with dl := a.dl + 1 }
          (pick_branching_variable f a (oracle k)).1
          (pick_branching_variable f a (oracle k)).2 none) a.dl).lookup w
          = a.lookup w := by
        intro w
        rw [lookup_restrict _ Hts.1 a.dl w, lookup_assign]
        by_cases hw : w = (pick_branching_variable f a (oracle k)).1
        · rw [if_pos hw]
          show (if ({ a with dl := a.dl + 1 } : Assignments).dl ≤ a.dl
            then some ⟨(pick_branching_variable f a (oracle k)).2, none,
              ({ a with dl := a.dl + 1 } : Assignments).dl⟩ else none) = a.lookup w
          rw [if_neg (by show ¬ (a.dl + 1 ≤ a.dl); omega), hw, hlk0]
        · rw [if_neg hw]
          have hsw : ({ a with dl := a.dl + 1 } : Assignments).lookup w = a.lookup w := rfl
          rw [hsw]
          cases hlw : a.lookup w with
          | none => rfl
          | some asg =>
            show (if asg.dl ≤ a.dl then some asg else none) = some asg
            rw [if_pos (hts.2.1 (w, asg) (lookup_some_mem a.entries w asg hlw))]
      have H5 : NoFalsified f (restrict (Assignments.assign { a with dl := a.dl + 1 }
          (pick_branching_variable f a (oracle k)).1
          (pick_branching_variable f a (oracle k)).2 none) a.dl) :=
        fun c' hc' hfals => hnf c' hc' ((falsified_congr hlookeq c').mp hfals)
      have hinner := innerLoop_safe upFuel caFuel fuel f
        (Assignments.assign { a with dl := a.dl + 1 }
          (pick_branching_variable f a (oracle k)).1
          (pick_branching_variable f a (oracle k)).2 none) Hts Hwf hcw hcn H5
      split at h
      · next f1 a1 hok =>
        obtain ⟨g1, g2, g3⟩ := hinner.2 f1 a1 hok
        obtain ⟨hveq, hcw1, hwf1, _, hstat1⟩ :=
          innerLoop_ok_inv f.vars upFuel caFuel fuel f _ f1 a1 hok rfl hcw Hwf
        have hnf1 : NoFalsified f1 a1 := by
          intro c' hc' hf'
          rcases hstat1 c' hc' with h1 | h1 <;>
            · rw [(status_unsatisfied_iff c' a1).mpr hf'] at h1
              exact ClauseStatus.noConfusion h1
        exact ih (k + 1) f1 a1 g1 (by rw [hveq]; exact hwf1) (by rw [hveq]; exact hcw1)
          g2 hnf1 (by rw [hveq]; exact hvnd) h
      · exact Result.noConfusion h
      · next hst => exact hinner.1 hst
      · exact Result.noConfusion h

end CDCL

namespace CDCL

/-- **C6** (progress of conflict analysis is safe): in every run of the
solver on a constructed `Formula`, under every branching oracle and every
fuel allowance, no modelled runtime failure is reached: in particular every
invocation of `conflict_analysis` reachable from the driver at a positive
decision level always finds, whenever the current-level literal set of the
working conflict clause does not have exactly one element, a literal whose
trail entry carries a non-absent antecedent (the `next` over the filtered
literals succeeds), and every literal of the evolving conflict clause has a
trail entry (the decision-level lookups succeed) — so `cdcl_solve` never
returns the `stuck` outcome that models those `StopIteration`/`KeyError`
failures (nor can propagation's own literal selection fail). -/
theorem C6_conflict_analysis_progress (oracle : Nat → Nat × Bool)
    (fuel upFuel caFuel : Nat) (cs : List Clause) :
    cdcl_solve oracle fuel upFuel caFuel (Formula.mk' cs) ≠ .stuck := by
  intro h
  rw [cdcl_solve] at h
  split at h
  · exact Result.noConfusion h
  · next hup => exact unit_propagation_ne_stuck upFuel (Formula.mk' cs) ⟨[], 0⟩ hup
  · exact Result.noConfusion h
  · next a1 hup =>
    have htsE : TrailSafe ⟨[], 0⟩ :=
      ⟨List.nodup_nil,
       fun p hp => absurd hp (List.not_mem_nil p),
       fun p hp => absurd hp (List.not_mem_nil p),
       fun p hp => absurd hp (List.not_mem_nil p)⟩
    have hwfE : TrailWF (Formula.mk' cs).vars ⟨[], 0⟩ :=
      ⟨List.nodup_nil, fun p hp => absurd hp (List.not_mem_nil p)⟩
    have hts1 : TrailSafe a1 :=
      (@unit_propagation_inv TrailSafe (Formula.mk' cs)
        (fun a' c l _ hl hm hu hp => trailSafe_unit_assign a' c l hl hm hu hp)
        upFuel ⟨[], 0⟩ htsE).2 a1 hup
    have hwf1 : TrailWF (Formula.mk' cs).vars a1 :=
      (trailWF_up (Formula.mk' cs).vars (Formula.mk' cs) (formula_mk_clausesWF cs)
        upFuel ⟨[], 0⟩ hwfE).2 a1 hup
    have hnf1 : NoFalsified (Formula.mk' cs) a1 :=
      saturated_noFalsified upFuel (Formula.mk' cs) ⟨[], 0⟩ a1 hup
    exact outerLoop_safe oracle upFuel caFuel fuel 0 (Formula.mk' cs) a1 hts1 hwf1
      (formula_mk_clausesWF cs) (clausesNodup_mk cs) hnf1 (List.nodup_dedup _) h

end CDCL

namespace CDCL

theorem propagatePass_entries : ∀ (cs : List Clause) (a : Assignments) (ch : Bool)
    (r : PassOut), propagatePass cs a ch = r →
    (∀ c a', r = .conflict c a' → ∃ new, a'.entries = new ++ a.entries ∧
      (∀ p ∈ new, p.2.dl = a.dl) ∧ a'.dl = a.dl ∧ (new = [] → a' = a)) ∧
    (∀ a' ch', r = .done a' ch' → ∃ new, a'.entries = new ++ a.entries ∧
      (∀ p ∈ new, p.2.dl = a.dl) ∧ a'.dl = a.dl ∧ (ch = false → ch' = true → new ≠ [])) := by
  intro cs
  induction cs with
  | nil =>
    intro a ch r h
    rw [propagatePass] at h
    subst h
    refine ⟨fun c a' hr => PassOut.noConfusion hr, fun a' ch' hr => ?_⟩
    injection hr with h1 h2
    subst h1
    refine ⟨[], rfl, fun p hp => absurd hp (List.not_mem_nil p), rfl, fun hch hch' => ?_⟩
    rw [← h2, hch] at hch'
    exact Bool.noConfusion hch'
  | cons c0 rest ih =>
    intro a ch r h
    rw [propagatePass] at h
    split at h
    · exact ih a ch r h
    · exact ih a ch r h
    · split at h
      · next l hfind =>
        have hm : a.mem l.var = false := by
          have := List.find?_some hfind
          simpa using this
        have hent1 : (a.assign l.var (!l.negation) (some c0)).entries
            = (l.var, ⟨!l.negation, some c0, a.dl⟩) :: a.entries := by
          rw [Assignments.assign,
            eraseP_no_match a.entries l.var (lookup_none_of_mem_false a l.var hm)]
        obtain ⟨ihc, ihd⟩ := ih (a.assign l.var (!l.negation) (some c0)) true r h
        refine ⟨fun c a' hr => ?_, fun a' ch' hr => ?_⟩
        · obtain ⟨new1, he, hdl, hd, _⟩ := ihc c a' hr
          refine ⟨new1 ++ [(l.var, ⟨!l.negation, some c0, a.dl⟩)], ?_, ?_, hd, ?_⟩
          · rw [he, hent1, List.append_assoc, List.singleton_append]
          · intro p hp
            rcases List.mem_append.mp hp with h' | h'
            · exact hdl p h'
            · rw [List.mem_singleton.mp h']
          · intro hnil
            exact absurd hnil (by simp)
        · obtain ⟨new1, he, hdl, hd, _⟩ := ihd a' ch' hr
          refine ⟨new1 ++ [(l.var, ⟨!l.negation, some c0, a.dl⟩)], ?_, ?_, hd, ?_⟩
          · rw [he, hent1, List.append_assoc, List.singleton_append]
          · intro p hp
            rcases List.mem_append.mp hp with h' | h'
            · exact hdl p h'
            · rw [List.mem_singleton.mp h']
          · intro _ _
            simp
      · subst h
        exact ⟨fun c a' hr => PassOut.noConfusion hr,
          fun a' ch' hr => PassOut.noConfusion hr⟩
    · subst h
      refine ⟨fun c a' hr => ?_, fun a' ch' hr => PassOut.noConfusion hr⟩
      injection hr with h1 h2
      subst h2
      exact ⟨[], rfl, fun p hp => absurd hp (List.not_mem_nil p), rfl, fun _ => rfl⟩

theorem unit_propagation_entries : ∀ (fuel : Nat) (f : Formula) (a : Assignments),
    (∀ c a', unit_propagation fuel f a = .conflict c a' →
      ∃ new, a'.entries = new ++ a.entries ∧ (∀ p ∈ new, p.2.dl = a.dl) ∧ a'.dl = a.dl) ∧
    (∀ a', unit_propagation fuel f a = .saturated a' →
      ∃ new, a'.entries = new ++ a.entries ∧ (∀ p ∈ new, p.2.dl = a.dl) ∧ a'.dl = a.dl) := by
  intro fuel
  induction fuel with
  | zero =>
    intro f a
    exact ⟨fun c a' h => UPOut.noConfusion h, fun a' h => UPOut.noConfusion h⟩
  | succ fuel ih =>
    intro f a
    constructor
    · intro c a' h
      rw [unit_propagation] at h
      split at h
      · next c1 a1 heq =>
        injection h with h1 h2
        subst h2
        obtain ⟨new, he, hdl, hd, _⟩ :=
          (propagatePass_entries f.clauses a false _ heq).1 c1 a1 rfl
        exact ⟨new, he, hdl, hd⟩
      · exact UPOut.noConfusion h
      · next a1 changed heq =>
        split at h
        · obtain ⟨new1, he1, hdl1, hd1, _⟩ :=
            (propagatePass_entries f.clauses a false _ heq).2 a1 changed rfl
          obtain ⟨new2, he2, hdl2, hd2⟩ := (ih f a1).1 c a' h
          refine ⟨new2 ++ new1, ?_, ?_, by rw [hd2, hd1]⟩
          · rw [he2, he1, List.append_assoc]
          · intro p hp
            rcases List.mem_append.mp hp with h' | h'
            · rw [hdl2 p h', hd1]
            · exact hdl1 p h'
        · exact UPOut.noConfusion h
    · intro a' h
      rw [unit_propagation] at h
      split at h
      · exact UPOut.noConfusion h
      · exact UPOut.noConfusion h
      · next a1 changed heq =>
        obtain ⟨new1, he1, hdl1, hd1, _⟩ :=
          (propagatePass_entries f.clauses a false _ heq).2 a1 changed rfl
        split at h
        · obtain ⟨new2, he2, hdl2, hd2⟩ := (ih f a1).2 a' h
          refine ⟨new2 ++ new1, ?_, ?_, by rw [hd2, hd1]⟩
          · rw [he2, he1, List.append_assoc]
          · intro p hp
            rcases List.mem_append.mp hp with h' | h'
            · rw [hdl2 p h', hd1]
            · exact hdl1 p h'
        · injection h with h1
          subst h1
          exact ⟨new1, he1, hdl1, hd1⟩

end CDCL

namespace CDCL

theorem entries_length_le (V : List Int) (a : Assignments) (hnd : KeysNodup a)
    (hkeys : ∀ p ∈ a.entries, p.1 ∈ V) (hVnd : V.Nodup) :
    a.entries.length ≤ V.length := by
  have hnd' : (a.entries.map Prod.fst).Nodup := hnd
  have hsub : a.entries.map Prod.fst ⊆ V := by
    intro x hx
    obtain ⟨p, hp, hp1⟩ := List.mem_map.mp hx
    exact hp1 ▸ hkeys p hp
  have hle := (List.subperm_of_subset hnd' hsub).length_le
  rw [List.length_map] at hle
  exact hle

theorem unit_propagation_fuel (V : List Int) (hVnd : V.Nodup) (f : Formula)
    (hcw : ClausesWF V f) : ∀ (fuel : Nat) (a : Assignments), TrailWF V a →
    V.length - a.entries.length < fuel →
    unit_propagation fuel f a ≠ .fuelOut := by
  intro fuel
  induction fuel with
  | zero => intro a _ hlt; omega
  | succ fuel ih =>
    intro a hwf hlt h
    rw [unit_propagation] at h
    split at h
    · exact UPOut.noConfusion h
    · exact UPOut.noConfusion h
    · next a1 changed heq =>
      split at h
      · next hch =>
        have hwf1 : TrailWF V a1 := (propagatePass_inv f.clauses a false _ hwf
          (fun a' c l hc hl _ _ hp =>
            trailWF_assign V a' l.var (!l.negation) (some c) hp (hcw c hc l hl)
              (fun c' hc' => by injection hc' with h1; exact h1 ▸ hcw c hc))
          heq).2 a1 changed rfl
        have hgrow : a.entries.length < a1.entries.length := by
          obtain ⟨new, he, _, _, hne⟩ :=
            (propagatePass_entries f.clauses a false _ heq).2 a1 changed rfl
          have hpos := List.length_pos.mpr (hne rfl hch)
          rw [he, List.length_append]
          omega
        have hle1 : a1.entries.length ≤ V.length :=
          entries_length_le V a1 hwf1.1 (fun p hp => (hwf1.2 p hp).1) hVnd
        exact ih a1 hwf1 (by omega) h
      · exact UPOut.noConfusion h

theorem unit_propagation_conflict_grows (fuel : Nat) (f : Formula) (a : Assignments)
    (hnf : NoFalsified f a) :
    ∀ c a', unit_propagation fuel f a = .conflict c a' →
      a.entries.length < a'.entries.length := by
  intro c a' h
  cases fuel with
  | zero => exact UPOut.noConfusion h
  | succ fuel =>
    rw [unit_propagation] at h
    split at h
    · next c1 a1 heq =>
      injection h with h1 h2
      subst h2
      obtain ⟨new, he, _, _, hnil⟩ :=
        (propagatePass_entries f.clauses a false _ heq).1 c1 a1 rfl
      cases hn : new with
      | nil =>
        exfalso
        have haa : a1 = a := hnil hn
        obtain ⟨_, hcmem, hstat⟩ := (@propagatePass_inv (fun _ => True) f.clauses a false _
          trivial (fun _ _ _ _ _ _ _ _ => trivial) heq).1 c1 a1 rfl
        rw [haa] at hstat
        exact hnf c1 hcmem ((status_unsatisfied_iff c1 a).mp hstat)
      | cons q qs =>
        rw [he, hn, List.length_append, List.length_cons]
        omega
    · exact UPOut.noConfusion h
    · next a1 changed heq =>
      split at h
      · next hch =>
        obtain ⟨new1, he1, _, _, hne⟩ :=
          (propagatePass_entries f.clauses a false _ heq).2 a1 changed rfl
        have hpos := List.length_pos.mpr (hne rfl hch)
        obtain ⟨new2, he2, _, _⟩ := (unit_propagation_entries fuel f a1).1 c a' h
        rw [he2, List.length_append, he1, List.length_append]
        omega
      · exact UPOut.noConfusion h

theorem unit_propagation_saturated_grows (fuel : Nat) (f : Formula) (a : Assignments)
    (hunit : ∃ c ∈ f.clauses, clause_status c a = .unitS) :
    ∀ a', unit_propagation fuel f a = .saturated a' →
      a.entries.length < a'.entries.length := by
  intro a' h
  cases fuel with
  | zero => exact UPOut.noConfusion h
  | succ fuel =>
    rw [unit_propagation] at h
    split at h
    · exact UPOut.noConfusion h
    · exact UPOut.noConfusion h
    · next a1 changed heq =>
      split at h
      · next hch =>
        obtain ⟨new1, he1, _, _, hne⟩ :=
          (propagatePass_entries f.clauses a false _ heq).2 a1 changed rfl
        have hpos := List.length_pos.mpr (hne rfl hch)
        obtain ⟨new2, he2, _, _⟩ := (unit_propagation_entries fuel f a1).2 a' h
        rw [he2, List.length_append, he1, List.length_append]
        omega
      · next hch =>
        exfalso
        rw [Bool.not_eq_true] at hch
        subst hch
        obtain ⟨_, _, hstat⟩ := propagatePass_done_false f.clauses a false a1 heq
        obtain ⟨c, hc, hcu⟩ := hunit
        rcases hstat c hc with h1 | h1 <;>
          · rw [hcu] at h1
            exact ClauseStatus.noConfusion h1

end CDCL

namespace CDCL

theorem posW_lt : ∀ (es : List (Int × Assignment)) (v : Int), posW es v < 2 ^ es.length := by
  intro es
  induction es with
  | nil => intro v; rw [posW]; exact Nat.one_pos
  | cons p rest ih =>
    intro v
    rw [posW]
    split
    · rw [List.length_cons, pow_succ]
      have := Nat.one_le_two_pow (n := rest.length)
      omega
    · have h1 := ih v
      rw [List.length_cons, pow_succ]
      omega

theorem posW_cons_ne (p : Int × Assignment) (es : List (Int × Assignment)) (v : Int)
    (h : ¬ p.1 = v) : posW (p :: es) v = posW es v := by
  rw [posW, if_neg h]

theorem posW_append_not_mem : ∀ (pre es : List (Int × Assignment)) (v : Int),
    v ∉ pre.map Prod.fst → posW (pre ++ es) v = posW es v := by
  intro pre
  induction pre with
  | nil => intro es v _; rfl
  | cons q rest ih =>
    intro es v hv
    rw [List.cons_append, posW, if_neg ?_]
    · exact ih es v (fun hx => hv (List.mem_cons_of_mem _ hx))
    · intro hx
      exact hv (by rw [← hx]; simp)

theorem lookup_split : ∀ (es : List (Int × Assignment)) (v : Int) (asg : Assignment),
    es.lookup v = some asg →
    ∃ pre suf, es = pre ++ (v, asg) :: suf ∧ v ∉ pre.map Prod.fst := by
  intro es
  induction es with
  | nil => intro v asg h; exact Option.noConfusion h
  | cons q rest ih =>
    intro v asg h
    obtain ⟨k, b⟩ := q
    rw [List.lookup] at h
    cases hvk : (v == k) with
    | true =>
      rw [hvk] at h
      injection h with h1
      have hk : v = k := eq_of_beq hvk
      subst hk
      subst h1
      exact ⟨[], rest, rfl, List.not_mem_nil v⟩
    | false =>
      rw [hvk] at h
      obtain ⟨pre, suf, he, hv⟩ := ih v asg h
      refine ⟨(k, b) :: pre, suf, by rw [he, List.cons_append], ?_⟩
      intro hx
      rcases List.mem_cons.mp hx with h' | h'
      · rw [h'] at hvk
        simp at hvk
      · exact hv h'

theorem sum_posW_lt : ∀ (es : List (Int × Assignment)) (s : Finset Int),
    (es.map Prod.fst).Nodup → (∀ v ∈ s, v ∈ es.map Prod.fst) →
    s.sum (fun v => posW es v) < 2 ^ es.length := by
  intro es
  induction es with
  | nil =>
    intro s _ hs
    have hse : s = ∅ := Finset.eq_empty_of_forall_not_mem
      (fun v hv => absurd (hs v hv) (List.not_mem_nil v))
    rw [hse, Finset.sum_empty]
    exact Nat.one_pos
  | cons p rest ih =>
    intro s hnd hs
    rw [List.map_cons, List.nodup_cons] at hnd
    have hrestEq : ∀ v ∈ s.erase p.1, posW (p :: rest) v = posW rest v := by
      intro v hv
      exact posW_cons_ne p rest v (fun hx => (Finset.ne_of_mem_erase hv) hx.symm)
    have hrestMem : ∀ v ∈ s.erase p.1, v ∈ rest.map Prod.fst := by
      intro v hv
      have h1 := hs v (Finset.mem_of_mem_erase hv)
      rcases List.mem_cons.mp h1 with h' | h'
      · exact absurd h' (Finset.ne_of_mem_erase hv)
      · exact h'
    have hsumErase : (s.erase p.1).sum (fun v => posW (p :: rest) v) < 2 ^ rest.length := by
      rw [Finset.sum_congr rfl hrestEq]
      exact ih (s.erase p.1) hnd.2 hrestMem
    by_cases hp : p.1 ∈ s
    · have hsplit := Finset.add_sum_erase s (fun v => posW (p :: rest) v) hp
      have hhead : posW (p :: rest) p.1 = 2 ^ rest.length := by
        rw [posW, if_pos rfl]
      have hsplit' : posW (p :: rest) p.1 + (s.erase p.1).sum (fun v => posW (p :: rest) v)
          = s.sum (fun v => posW (p :: rest) v) := hsplit
      rw [hhead] at hsplit'
      rw [List.length_cons, pow_succ]
      omega
    · have hse : s.erase p.1 = s := Finset.erase_eq_of_not_mem hp
      rw [hse] at hsumErase
      rw [List.length_cons, pow_succ]
      have := Nat.one_le_two_pow (n := rest.length)
      omega

theorem anteOrderL_suffix : ∀ (pre es : List (Int × Assignment)),
    AnteOrderL (pre ++ es) → AnteOrderL es := by
  intro pre
  induction pre with
  | nil => intro es h; exact h
  | cons q rest ih => intro es h; exact ih es h.2

theorem anteOrderL_assign (a : Assignments) (v : Int) (val : Bool) (ante : Option Clause)
    (hfresh : a.lookup v = none) (hord : AnteOrderL a.entries) (hdl : EntryDl a)
    (hante : ∀ A, ante = some A → ∀ l ∈ A.literals, l.var ≠ v →
      a.valueOpt l = some false) :
    AnteOrderL (a.assign v val ante).entries := by
  have hent : (a.assign v val ante).entries = (v, ⟨val, ante, a.dl⟩) :: a.entries := by
    rw [Assignments.assign, eraseP_no_match a.entries v hfresh]
  rw [hent]
  refine ⟨?_, hord⟩
  intro A hA l hl hlv
  have hval := hante A hA l hl hlv
  rw [Assignments.valueOpt] at hval
  obtain ⟨asg, hasg, _⟩ := Option.map_eq_some'.mp hval
  exact ⟨(l.var, asg), lookup_some_mem a.entries l.var asg hasg, rfl,
    hdl (l.var, asg) (lookup_some_mem a.entries l.var asg hasg)⟩

theorem anteOrderL_filter_le : ∀ (es : List (Int × Assignment)) (b : Nat),
    AnteOrderL es → AnteOrderL (es.filter (fun p => decide (p.2.dl ≤ b))) := by
  intro es b
  induction es with
  | nil => intro h; exact h
  | cons q rest ih =>
    intro h
    obtain ⟨hq, hrest⟩ := h
    by_cases hb : q.2.dl ≤ b
    · rw [List.filter_cons_of_pos (by simpa using hb)]
      refine ⟨?_, ih hrest⟩
      intro A hA l hl hlv
      obtain ⟨p, hp, hp1, hp2⟩ := hq A hA l hl hlv
      exact ⟨p, List.mem_filter.mpr ⟨hp, by
        simp only [decide_eq_true_eq]
        omega⟩, hp1, hp2⟩
    · rw [List.filter_cons_of_neg (by simpa using hb)]
      exact ih hrest

theorem currentLevel_vars_nodup (c : Clause) (a : Assignments) (hf : Falsified c a)
    (hnd : c.literals.Nodup) : ((currentLevelLits c a).map (·.var)).Nodup := by
  refine List.Nodup.map_on ?_ (hnd.filter _)
  intro l1 h1 l2 h2 heq
  by_contra hne
  exact falsified_distinct_vars hf
    (List.mem_of_mem_filter h1) (List.mem_of_mem_filter h2) hne heq

end CDCL

namespace CDCL

theorem caMeasure_eq_sum (c : Clause) (a : Assignments)
    (hnd : ((currentLevelLits c a).map (·.var)).Nodup) :
    caMeasure c a
      = (((currentLevelLits c a).map (·.var)).toFinset).sum (fun v => posW a.entries v) := by
  rw [caMeasure, List.sum_toFinset _ hnd, List.map_map]
  rfl

theorem currentLevel_vars_mem_keys (c : Clause) (a : Assignments) :
    ∀ v ∈ (currentLevelLits c a).map (·.var), v ∈ a.entries.map Prod.fst := by
  intro v hv
  obtain ⟨l, hl, rfl⟩ := List.mem_map.mp hv
  obtain ⟨_, asg, hlk, _⟩ := (currentLevel_mem_iff c a l).mp hl
  exact List.mem_map.mpr ⟨(l.var, asg), lookup_some_mem a.entries l.var asg hlk, rfl⟩

theorem caMeasure_lt_pow (c : Clause) (a : Assignments) (hf : Falsified c a)
    (hcnd : c.literals.Nodup) (hknd : KeysNodup a) :
    caMeasure c a < 2 ^ a.entries.length := by
  have hknd' : (a.entries.map Prod.fst).Nodup := hknd
  have hvnd := currentLevel_vars_nodup c a hf hcnd
  rw [caMeasure_eq_sum c a hvnd]
  refine sum_posW_lt a.entries _ hknd' ?_
  intro v hv
  exact currentLevel_vars_mem_keys c a v (List.mem_toFinset.mp hv)

theorem caMeasure_resolve_lt (c A : Clause) (a : Assignments) (l : Literal)
    (asg : Assignment) (hf : Falsified c a) (hcnd : c.literals.Nodup)
    (hknd : KeysNodup a) (hord : AnteOrderL a.entries) (hAS : AnteSound a)
    (hlmem : l ∈ currentLevelLits c a) (hlk : a.lookup l.var = some asg)
    (hante : asg.antecedent = some A) :
    caMeasure (resolve c A l.var) a < caMeasure c a := by
  have hknd' : (a.entries.map Prod.fst).Nodup := hknd
  have hfr : Falsified (resolve c A l.var) a := resolve_falsified hf hlk hante hAS
  have hrnd : (resolve c A l.var).literals.Nodup := List.nodup_dedup _
  have hOldnd := currentLevel_vars_nodup c a hf hcnd
  have hNewnd := currentLevel_vars_nodup (resolve c A l.var) a hfr hrnd
  obtain ⟨pre, suf, hes, hpre⟩ := lookup_split a.entries l.var asg hlk
  have hwx : posW a.entries l.var = 2 ^ suf.length := by
    rw [hes, posW_append_not_mem pre _ _ hpre, posW, if_pos rfl]
  have hkeysSplit : ((pre.map Prod.fst) ++ l.var :: suf.map Prod.fst).Nodup := by
    have h1 := hknd'
    rw [hes, List.map_append, List.map_cons] at h1
    exact h1
  obtain ⟨hpreNd, hconsNd, hdisj⟩ := List.nodup_append.mp hkeysSplit
  have hsufNd : (suf.map Prod.fst).Nodup := (List.nodup_cons.mp hconsNd).2
  have hxsuf : l.var ∉ suf.map Prod.fst := (List.nodup_cons.mp hconsNd).1
  have hwlt : ∀ v ∈ suf.map Prod.fst, posW a.entries v = posW suf v := by
    intro v hv
    have hv1 : v ∉ pre.map Prod.fst := fun hx =>
      hdisj hx (List.mem_cons_of_mem _ hv)
    have hv2 : ¬ l.var = v := fun hx => hxsuf (hx ▸ hv)
    rw [hes, posW_append_not_mem pre _ _ hv1]
    exact posW_cons_ne (l.var, asg) suf v hv2
  have hordsuf : AnteOrderL ((l.var, asg) :: suf) := by
    have h1 := hord
    rw [hes] at h1
    exact anteOrderL_suffix pre _ h1
  have hA_after : ∀ l2 ∈ A.literals, l2.var ≠ l.var → l2.var ∈ suf.map Prod.fst := by
    intro l2 h2 h3
    obtain ⟨q, hq, hq1, _⟩ := hordsuf.1 A hante l2 h2 h3
    exact hq1 ▸ List.mem_map_of_mem Prod.fst hq
  have hsumT : (suf.map Prod.fst).toFinset.sum (fun v => posW a.entries v)
      < 2 ^ suf.length := by
    have he1 : (suf.map Prod.fst).toFinset.sum (fun v => posW a.entries v)
        = (suf.map Prod.fst).toFinset.sum (fun v => posW suf v) :=
      Finset.sum_congr rfl (fun v hv => hwlt v (List.mem_toFinset.mp hv))
    rw [he1]
    exact sum_posW_lt suf _ hsufNd (fun v hv => List.mem_toFinset.mp hv)
  have hxOld : l.var ∈ ((currentLevelLits c a).map (·.var)).toFinset :=
    List.mem_toFinset.mpr (List.mem_map_of_mem (·.var) hlmem)
  have hsub : ((currentLevelLits (resolve c A l.var) a).map (·.var)).toFinset
      ⊆ (((currentLevelLits c a).map (·.var)).toFinset.erase l.var)
        ∪ (suf.map Prod.fst).toFinset := by
    intro v hv
    obtain ⟨l2, hl2, rfl⟩ := List.mem_map.mp (List.mem_toFinset.mp hv)
    have hl2r : l2 ∈ (resolve c A l.var).literals := List.mem_of_mem_filter hl2
    have hvne : l2.var ≠ l.var := resolve_var_ne hl2r
    rcases resolve_literal_mem hl2r with hc' | hA'
    · have hcur : l2 ∈ currentLevelLits c a :=
        List.mem_filter.mpr ⟨hc', (List.mem_filter.mp hl2).2⟩
      exact Finset.mem_union_left _ (Finset.mem_erase.mpr
        ⟨hvne, List.mem_toFinset.mpr (List.mem_map_of_mem (·.var) hcur)⟩)
    · exact Finset.mem_union_right _ (List.mem_toFinset.mpr (hA_after l2 hA' hvne))
  have hsplitOld' : posW a.entries l.var
      + (((currentLevelLits c a).map (·.var)).toFinset.erase l.var).sum
          (fun v => posW a.entries v)
      = (((currentLevelLits c a).map (·.var)).toFinset).sum (fun v => posW a.entries v) :=
    Finset.add_sum_erase ((currentLevelLits c a).map (·.var)).toFinset
      (fun v => posW a.entries v) hxOld
  have hle1 : (((currentLevelLits (resolve c A l.var) a).map (·.var)).toFinset).sum
        (fun v => posW a.entries v)
      ≤ ((((currentLevelLits c a).map (·.var)).toFinset.erase l.var)
          ∪ (suf.map Prod.fst).toFinset).sum (fun v => posW a.entries v) :=
    Finset.sum_le_sum_of_subset hsub
  have hle2 : ((((currentLevelLits c a).map (·.var)).toFinset.erase l.var)
          ∪ (suf.map Prod.fst).toFinset).sum (fun v => posW a.entries v)
        + ((((currentLevelLits c a).map (·.var)).toFinset.erase l.var)
          ∩ (suf.map Prod.fst).toFinset).sum (fun v => posW a.entries v)
      = ((((currentLevelLits c a).map (·.var)).toFinset.erase l.var)).sum
          (fun v => posW a.entries v)
        + ((suf.map Prod.fst).toFinset).sum (fun v => posW a.entries v) :=
    Finset.sum_union_inter
  rw [caMeasure_eq_sum c a hOldnd, caMeasure_eq_sum (resolve c A l.var) a hNewnd]
  omega

end CDCL

namespace CDCL

theorem analysisLoop_fuel : ∀ (fuel : Nat) (c : Clause) (a : Assignments),
    Falsified c a → c.literals.Nodup → TrailSafe a → AnteOrderL a.entries →
    caMeasure c a < fuel →
    analysisLoop fuel c a ≠ .fuelOut := by
  intro fuel
  induction fuel with
  | zero => intro c a _ _ _ _ hm _; omega
  | succ fuel ih =>
    intro c a hf hnd hts hord hm h
    rw [analysisLoop] at h
    split at h
    · exact CAOut.noConfusion h
    · split at h
      · exact CAOut.noConfusion h
      · split at h
        · exact CAOut.noConfusion h
        · next l hfind =>
          split at h
          · exact CAOut.noConfusion h
          · next ante hante =>
            have hlmem : l ∈ currentLevelLits c a := List.mem_of_find?_eq_some hfind
            cases hlkc : a.lookup l.var with
            | none =>
              rw [hlkc] at hante
              exact Option.noConfusion hante
            | some asg =>
              rw [hlkc] at hante
              have hante' : asg.antecedent = some ante := hante
              have hdec := caMeasure_resolve_lt c ante a l asg hf hnd hts.1 hord
                hts.2.2.2 hlmem hlkc hante'
              exact ih (resolve c ante l.var) a
                (resolve_falsified hf hlkc hante' hts.2.2.2)
                (List.nodup_dedup _) hts hord (by omega) h

theorem innerLoop_fuel (upFuel caFuel : Nat) (V : List Int) (hVnd : V.Nodup) :
    ∀ (fuel : Nat) (f : Formula) (a : Assignments),
    f.vars = V → TrailSafe a → TrailWF V a → ClausesWF V f → ClausesNodup f →
    AnteOrderL a.entries →
    V.length < upFuel → 2 ^ V.length < caFuel → a.dl + 1 < fuel →
    innerLoop upFuel caFuel fuel f a ≠ .fuelOut := by
  intro fuel
  induction fuel with
  | zero =>
    intro f a _ _ _ _ _ _ _ _ hfl h
    omega
  | succ fuel ih =>
    intro f a hfv hts hwf hcw hcn hord hup hca2 hfl h
    rw [innerLoop] at h
    split at h
    · exact InnerOut.noConfusion h
    · exact InnerOut.noConfusion h
    · next hupf =>
      exact unit_propagation_fuel V hVnd f hcw upFuel a hwf (by omega) hupf
    · next c a1 hupc =>
      have hthread := @unit_propagation_inv
          (fun x => TrailSafe x ∧ AnteOrderL x.entries) f
          (fun a' c' l hc' hl hm hu hp =>
            ⟨trailSafe_unit_assign a' c' l hl hm hu hp.1,
             anteOrderL_assign a' l.var (!l.negation) (some c')
               (lookup_none_of_mem_false a' l.var hm) hp.2 hp.1.2.1
               (fun A hA l' hl' hlv => by
                 injection hA with h1
                 subst h1
                 exact unit_other_false c' a' hu hl hm l' hl' hlv)⟩)
          upFuel a ⟨hts, hord⟩
      obtain ⟨⟨hts1, hord1⟩, hcmem, hstat⟩ := hthread.1 c a1 hupc
      obtain ⟨new1, _, _, hd1⟩ := (unit_propagation_entries upFuel f a).1 c a1 hupc
      have hfal : Falsified c a1 := (status_unsatisfied_iff c a1).mp hstat
      have hwf1 : TrailWF V a1 := ((trailWF_up V f hcw upFuel a hwf).1 c a1 hupc).1
      split at h
      · exact InnerOut.noConfusion h
      · exact InnerOut.noConfusion h
      · next hcaf =>
        rw [conflict_analysis] at hcaf
        split at hcaf
        · exact CAOut.noConfusion hcaf
        · refine analysisLoop_fuel caFuel c a1 hfal (hcn c hcmem) hts1 hord1 ?_ hcaf
          have h1 : caMeasure c a1 < 2 ^ a1.entries.length :=
            caMeasure_lt_pow c a1 hfal (hcn c hcmem) hts1.1
          have h2 : a1.entries.length ≤ V.length :=
            entries_length_le V a1 hts1.1 (fun p hp => (hwf1.2 p hp).1) hVnd
          have h3 : (2:Nat) ^ a1.entries.length ≤ 2 ^ V.length :=
            Nat.pow_le_pow_right (by omega) h2
          omega
      · next b lc hca =>
        have hdl0 : ¬ a1.dl = 0 := by
          intro h0
          rw [conflict_analysis, if_pos h0] at hca
          exact CAOut.noConfusion hca
        have hloop : analysisLoop caFuel c a1 = .learned b lc := by
          rw [conflict_analysis, if_neg hdl0] at hca
          exact hca
        have hblt : b < a1.dl := by
          rw [analysisLoop_learned caFuel c a1 hloop]
          exact backjumpLevel_lt lc a1 hts1.2.1 (by omega)
        have hlcnd : lc.literals.Nodup :=
          analysisLoop_learned_nodup caFuel c a1 hloop (hcn c hcmem)
        have H1 : TrailSafe ({ backtrack a1 b with dl := b } : Assignments) :=
          trailSafe_backjump a1 b hts1
        have H2 : TrailWF V ({ backtrack a1 b with dl := b } : Assignments) :=
          trailWF_backtrack V a1 b hwf1
        have hent : ({ backtrack a1 b with dl := b } : Assignments).entries
            = a1.entries.filter (fun p => decide (p.2.dl ≤ b)) :=
          backtrack_entries a1 b hts1.1
        have HO : AnteOrderL ({ backtrack a1 b with dl := b } : Assignments).entries := by
          rw [hent]
          exact anteOrderL_filter_le a1.entries b hord1
        have H3 : ClausesWF V (add_learnt_clause f lc) := by
          have hlcvars : ∀ l ∈ lc.literals, l.var ∈ V :=
            conflict_analysis_vars V caFuel c a1 b lc hca
              (fun l hl => hcw c hcmem l hl) hwf1
          intro c' hc' l hl
          rcases List.mem_append.mp hc' with h' | h'
          · exact hcw c' h' l hl
          · rw [List.mem_singleton.mp h'] at hl
            exact hlcvars l hl
        have H4 : ClausesNodup (add_learnt_clause f lc) := by
          intro c' hc'
          rcases List.mem_append.mp hc' with h' | h'
          · exact hcn c' h'
          · rw [List.mem_singleton.mp h']
            exact hlcnd
        exact ih (add_learnt_clause f lc) { backtrack a1 b with dl := b }
          hfv H1 H2 H3 H4 HO hup hca2 (by
            show b + 1 < fuel
            omega) h

end CDCL

namespace CDCL

theorem countLev_append_ne {a1 a : Assignments} {new : List (Int × Assignment)} {d : Nat}
    (he : a1.entries = new ++ a.entries) (hdl : ∀ p ∈ new, p.2.dl = d) :
    ∀ i, i ≠ d → countLev a1 i = countLev a i := by
  intro i hi
  rw [countLev, countLev, he, List.filter_append, List.length_append]
  have hnil : new.filter (fun p => p.2.dl == i) = [] := by
    rw [List.filter_eq_nil]
    intro p hp
    rw [hdl p hp]
    simp only [beq_iff_eq]
    omega
  rw [hnil]
  simp

theorem countLev_append_eq {a1 a : Assignments} {new : List (Int × Assignment)} {d : Nat}
    (he : a1.entries = new ++ a.entries) (hdl : ∀ p ∈ new, p.2.dl = d) :
    countLev a1 d = countLev a d + new.length := by
  rw [countLev, countLev, he, List.filter_append, List.length_append]
  have hself : new.filter (fun p => p.2.dl == d) = new := by
    rw [List.filter_eq_self]
    intro p hp
    rw [hdl p hp]
    simp
  rw [hself]
  omega

theorem countLev_backjump (a1 : Assignments) (b : Nat) (hnd : KeysNodup a1) (i : Nat)
    (hib : i ≤ b) :
    countLev ({ backtrack a1 b with dl := b } : Assignments) i = countLev a1 i := by
  have hent : ({ backtrack a1 b with dl := b } : Assignments).entries
      = a1.entries.filter (fun p => decide (p.2.dl ≤ b)) := backtrack_entries a1 b hnd
  rw [countLev, countLev, hent, List.filter_filter]
  congr 1
  apply List.filter_congr
  intro p _
  by_cases hdl : p.2.dl = i
  · simp [hdl, hib]
  · simp [hdl]

theorem sum_digits_lt (B : Nat) (g : Nat → Nat) (hg : ∀ i, g i < B) :
    ∀ (m L b : Nat), b + m = L →
    (Finset.Ico (b + 1) (L + 1)).sum (fun i => g i * B ^ (L - i)) < B ^ (L - b) := by
  intro m
  induction m with
  | zero =>
    intro L b hb
    have hbL : b = L := by omega
    subst hbL
    rw [Finset.Ico_self, Finset.sum_empty]
    have hb0 : b - b = 0 := by omega
    rw [hb0]
    exact Nat.one_pos
  | succ m ihm =>
    intro L b hb
    rw [Finset.sum_eq_sum_Ico_succ_bot (by omega : b + 1 < L + 1)]
    have ih2 := ihm L (b + 1) (by omega)
    have hgb := hg (b + 1)
    have hpow : B ^ (L - b) = B * B ^ (L - (b + 1)) := by
      have hLb : L - b = (L - (b + 1)) + 1 := by omega
      rw [hLb, pow_succ]
      ring
    rw [hpow]
    have hmul : (g (b + 1) + 1) * B ^ (L - (b + 1)) ≤ B * B ^ (L - (b + 1)) :=
      Nat.mul_le_mul_right _ (by omega)
    rw [add_mul, one_mul] at hmul
    omega

theorem levMeasure_eq_finset (B L : Nat) (x : Assignments) :
    levMeasure B L x = (Finset.range (L + 1)).sum (fun i => countLev x i * B ^ (L - i)) := by
  rfl

theorem levMeasure_lt (B L : Nat) (a2 a1 : Assignments) (b : Nat) (hbL : b ≤ L)
    (heq : ∀ i < b, countLev a1 i = countLev a2 i)
    (hgt : countLev a2 b < countLev a1 b)
    (hbound : ∀ i, countLev a2 i < B) :
    levMeasure B L a2 < levMeasure B L a1 := by
  have hsplit : ∀ (x : Assignments),
      levMeasure B L x
      = (Finset.Ico 0 b).sum (fun i => countLev x i * B ^ (L - i))
        + countLev x b * B ^ (L - b)
        + (Finset.Ico (b + 1) (L + 1)).sum (fun i => countLev x i * B ^ (L - i)) := by
    intro x
    rw [levMeasure_eq_finset, Finset.range_eq_Ico,
      ← Finset.sum_Ico_consecutive _ (Nat.zero_le b) (by omega : b ≤ L + 1),
      Finset.sum_eq_sum_Ico_succ_bot (by omega : b < L + 1)]
    ring
  have h1 := hsplit a1
  have h2 := hsplit a2
  have heqlow : (Finset.Ico 0 b).sum (fun i => countLev a1 i * B ^ (L - i))
      = (Finset.Ico 0 b).sum (fun i => countLev a2 i * B ^ (L - i)) :=
    Finset.sum_congr rfl (fun i hi => by rw [heq i (Finset.mem_Ico.mp hi).2])
  have hhigh : (Finset.Ico (b + 1) (L + 1)).sum (fun i => countLev a2 i * B ^ (L - i))
      < B ^ (L - b) :=
    sum_digits_lt B (fun i => countLev a2 i) hbound (L - b) L b (by omega)
  have hmid : (countLev a2 b + 1) * B ^ (L - b) ≤ countLev a1 b * B ^ (L - b) :=
    Nat.mul_le_mul_right _ (by omega)
  rw [add_mul, one_mul] at hmid
  omega

end CDCL

namespace CDCL

theorem analysisLoop_learned_falsified : ∀ (fuel : Nat) (c : Clause) (a : Assignments)
    {b : Nat} {lc : Clause}, analysisLoop fuel c a = .learned b lc →
    Falsified c a → AnteSound a → Falsified lc a := by
  intro fuel
  induction fuel with
  | zero =>
    intro c a b lc h _ _
    rw [analysisLoop] at h
    exact CAOut.noConfusion h
  | succ fuel ih =>
    intro c a b lc h hf hAS
    rw [analysisLoop] at h
    split at h
    · exact CAOut.noConfusion h
    · split at h
      · rw [CAOut.learned.injEq] at h
        rw [← h.2]
        exact hf
      · split at h
        · exact CAOut.noConfusion h
        · next l hfind =>
          split at h
          · exact CAOut.noConfusion h
          · next ante hante =>
            cases hlkc : a.lookup l.var with
            | none =>
              rw [hlkc] at hante
              exact Option.noConfusion hante
            | some asg =>
              rw [hlkc] at hante
              have hante' : asg.antecedent = some ante := hante
              exact ih _ _ h (resolve_falsified hf hlkc hante' hAS) hAS

theorem level_le_secondHighest (S : Finset Nat) (d x : Nat) (hd : d ∈ S)
    (hmax : ∀ y ∈ S, y ≤ d) (hx : x ∈ S) (hxd : x ≠ d) :
    x ≤ secondHighestLevel S := by
  have hcard : 1 < S.card := Finset.one_lt_card.mpr ⟨x, hx, d, hd, hxd⟩
  rw [secondHighestLevel, if_neg (by omega)]
  have hmaxd : S.max = some d := by
    have h1 : S.max ≤ (d : WithBot Nat) :=
      Finset.max_le (fun y hy => WithBot.coe_le_coe.mpr (hmax y hy))
    have h2 : (d : WithBot Nat) ≤ S.max := Finset.le_max hd
    exact le_antisymm h1 h2
  rw [hmaxd]
  have hxe : x ∈ S.erase d := Finset.mem_erase.mpr ⟨hxd, hx⟩
  obtain ⟨m, hm⟩ := Finset.max_of_nonempty ⟨x, hxe⟩
  have hle := Finset.le_max hxe
  rw [hm] at hle
  show x ≤ ((S.erase d).max.getD 0)
  rw [hm]
  exact WithBot.coe_le_coe.mp hle

theorem count_false_map : ∀ (lits : List Literal) (f : Literal → Option Bool) (l0 : Literal),
    lits.Nodup → l0 ∈ lits → f l0 = none → (∀ l ∈ lits, l ≠ l0 → f l = some false) →
    (lits.map f).count (some false) = lits.length - 1 := by
  intro lits
  induction lits with
  | nil =>
    intro f l0 _ h0 _ _
    exact absurd h0 (List.not_mem_nil l0)
  | cons h t ih =>
    intro f l0 hnd h0 hnone hfalse
    rw [List.map_cons, List.count_cons]
    by_cases hh : h = l0
    · subst hh
      rw [hnone]
      have hcount : (t.map f).count (some false) = (t.map f).length := by
        rw [List.count_eq_length]
        intro x hx
        obtain ⟨l, hl, hval⟩ := List.mem_map.mp hx
        have hne : l ≠ h := fun hx2 => (List.nodup_cons.mp hnd).1 (hx2 ▸ hl)
        rw [← hval, hfalse l (List.mem_cons_of_mem h hl) hne]
      rw [hcount, List.length_map]
      simp
    · have h0t : l0 ∈ t := by
        rcases List.mem_cons.mp h0 with h' | h'
        · exact absurd h'.symm hh
        · exact h'
      have hrec := ih f l0 (List.nodup_cons.mp hnd).2 h0t hnone
        (fun l hl hne => hfalse l (List.mem_cons_of_mem h hl) hne)
      rw [hrec, hfalse h (List.mem_cons_self h t) hh]
      have hpos : 1 ≤ t.length := List.length_pos.mpr (List.ne_nil_of_mem h0t)
      simp only [List.length_cons]
      have hbeq : (some false == some false) = true := by simp
      rw [hbeq, if_pos rfl]
      omega

theorem status_unit_of (c : Clause) (a : Assignments) (l0 : Literal)
    (h1 : l0 ∈ c.literals) (hnd : c.literals.Nodup) (h2 : a.valueOpt l0 = none)
    (h3 : ∀ l' ∈ c.literals, l' ≠ l0 → a.valueOpt l' = some false) :
    clause_status c a = .unitS := by
  rw [clause_status]
  have htrue : some true ∉ c.literals.map (fun l => a.valueOpt l) := by
    intro hx
    obtain ⟨l, hl, hval⟩ := List.mem_map.mp hx
    by_cases hll : l = l0
    · rw [hll, h2] at hval
      exact Option.noConfusion hval
    · rw [h3 l hl hll] at hval
      injection hval with h4
      exact Bool.noConfusion h4
  have hcount := count_false_map c.literals (fun l => a.valueOpt l) l0 hnd h1 h2 h3
  have hlen : 1 ≤ c.literals.length := List.length_pos.mpr (List.ne_nil_of_mem h1)
  rw [if_neg htrue, List.length_map, if_neg (by omega), if_pos hcount]

end CDCL

namespace CDCL

theorem learned_unit_after_backjump (caFuel : Nat) (c : Clause) (a1 : Assignments)
    (b : Nat) (lc : Clause)
    (hloop : analysisLoop caFuel c a1 = .learned b lc)
    (hf : Falsified c a1) (hcnd : c.literals.Nodup) (hts : TrailSafe a1)
    (hd1 : 1 ≤ a1.dl) :
    clause_status lc ({ backtrack a1 b with dl := b } : Assignments) = .unitS := by
  have hb : b = backjumpLevel lc a1 := analysisLoop_learned caFuel c a1 hloop
  have hlen1 : (currentLevelLits lc a1).length = 1 :=
    analysisLoop_learned_len caFuel c a1 hloop
  have hlcf : Falsified lc a1 := analysisLoop_learned_falsified caFuel c a1 hloop hf hts.2.2.2
  have hlcnd : lc.literals.Nodup := analysisLoop_learned_nodup caFuel c a1 hloop hcnd
  have hblt : b < a1.dl := by
    rw [hb]
    exact backjumpLevel_lt lc a1 hts.2.1 hd1
  obtain ⟨l0, hl0⟩ := List.length_eq_one.mp hlen1
  have hl0mem : l0 ∈ currentLevelLits lc a1 := by
    rw [hl0]
    exact List.mem_cons_self _ _
  obtain ⟨hl0c, asg0, hlk0, hdl0⟩ := (currentLevel_mem_iff lc a1 l0).mp hl0mem
  have hent : ({ backtrack a1 b with dl := b } : Assignments).entries
      = a1.entries.filter (fun p => decide (p.2.dl ≤ b)) := backtrack_entries a1 b hts.1
  have hlkA : ∀ v, ({ backtrack a1 b with dl := b } : Assignments).lookup v
      = match a1.lookup v with
        | some asg => if asg.dl ≤ b then some asg else none
        | none => none := by
    intro v
    have h1 : ({ backtrack a1 b with dl := b } : Assignments).lookup v
        = (restrict a1 b).lookup v := lookup_entries_congr hent v
    rw [h1]
    exact lookup_restrict a1 hts.1 b v
  have h2 : ({ backtrack a1 b with dl := b } : Assignments).valueOpt l0 = none := by
    rw [Assignments.valueOpt, hlkA, hlk0]
    show ((if asg0.dl ≤ b then some asg0 else none).map
      (fun asg => if l0.negation then !asg.value else asg.value)) = none
    rw [if_neg (by omega)]
    rfl
  have h3 : ∀ l' ∈ lc.literals, l' ≠ l0 →
      ({ backtrack a1 b with dl := b } : Assignments).valueOpt l' = some false := by
    intro l' hl' hne
    have hlf := hlcf l' hl'
    rw [Assignments.valueOpt] at hlf
    cases hlk' : a1.lookup l'.var with
    | none =>
      rw [hlk'] at hlf
      exact Option.noConfusion hlf
    | some asg' =>
      rw [hlk'] at hlf
      have hne_d : asg'.dl ≠ a1.dl := by
        intro hx
        have hcur : l' ∈ currentLevelLits lc a1 :=
          (currentLevel_mem_iff lc a1 l').mpr ⟨hl', asg', hlk', hx⟩
        rw [hl0] at hcur
        exact hne (List.mem_singleton.mp hcur)
      have hmemS : asg'.dl ∈ clauseLevels lc a1 := by
        rw [clauseLevels, List.mem_toFinset]
        exact List.mem_filterMap.mpr ⟨l', hl', by simp [hlk']⟩
      have hdS : a1.dl ∈ clauseLevels lc a1 := by
        rw [clauseLevels, List.mem_toFinset]
        exact List.mem_filterMap.mpr ⟨l0, hl0c, by simp [hlk0, hdl0]⟩
      have hmaxS : ∀ y ∈ clauseLevels lc a1, y ≤ a1.dl := by
        intro y hy
        rw [clauseLevels, List.mem_toFinset] at hy
        obtain ⟨l2, _, hval⟩ := List.mem_filterMap.mp hy
        cases hlk2 : a1.lookup l2.var with
        | none =>
          rw [hlk2] at hval
          exact Option.noConfusion hval
        | some asg2 =>
          rw [hlk2] at hval
          injection hval with hv
          have hv' : asg2.dl = y := hv
          have hle2 := hts.2.1 (l2.var, asg2)
            (lookup_some_mem a1.entries l2.var asg2 hlk2)
          simp only at hle2
          omega
      have hleb : asg'.dl ≤ b := by
        rw [hb, backjumpLevel_eq_secondHighest]
        exact level_le_secondHighest (clauseLevels lc a1) a1.dl asg'.dl hdS hmaxS hmemS hne_d
      rw [Assignments.valueOpt, hlkA, hlk']
      show ((if asg'.dl ≤ b then some asg' else none).map
        (fun asg => if l'.negation then !asg.value else asg.value)) = some false
      rw [if_pos hleb]
      exact hlf
  exact status_unit_of lc _ l0 hl0c hlcnd h2 h3

end CDCL

namespace CDCL

theorem innerLoop_digits (upFuel caFuel : Nat) :
    ∀ (fuel : Nat) (f : Formula) (a : Assignments) (g : Nat) (f1 : Formula)
    (a1 : Assignments),
    innerLoop upFuel caFuel fuel f a = .ok f1 a1 →
    TrailSafe a → ClausesNodup f → NoFalsified f (restrict a (a.dl - 1)) →
    (g = 0 ∨ (g = 1 ∧ ∃ c ∈ f.clauses, clause_status c a = .unitS)) →
    ∃ b, b ≤ a.dl ∧ (∀ i, i < b → countLev a1 i = countLev a i) ∧
      ((b < a.dl ∧ countLev a b < countLev a1 b) ∨
       (b = a.dl ∧ countLev a b + g ≤ countLev a1 b)) := by
  intro fuel
  induction fuel with
  | zero =>
    intro f a g f1 a1 h
    exact absurd h (fun hx => InnerOut.noConfusion hx)
  | succ fuel ih =>
    intro f a g f1 a1 h hts hcn hnf hg
    rw [innerLoop] at h
    split at h
    · next aS hup =>
      injection h with h1 h2
      subst h1
      subst h2
      obtain ⟨new, he, hdl, hdleq⟩ := (unit_propagation_entries upFuel f a).2 aS hup
      refine ⟨a.dl, Nat.le_refl _, ?_, Or.inr ⟨rfl, ?_⟩⟩
      · intro i hi
        exact countLev_append_ne he hdl i (by omega)
      · have hceq := countLev_append_eq he hdl
        rcases hg with hg0 | ⟨hg1, hunit⟩
        · omega
        · have hgrow := unit_propagation_saturated_grows upFuel f a hunit aS hup
          rw [he, List.length_append] at hgrow
          omega
    · exact InnerOut.noConfusion h
    · exact InnerOut.noConfusion h
    · next c aC hup =>
      have hext0 : Ext (restrict a (a.dl - 1)) a.dl a :=
        ext_restrict a a.dl hts.1 hts.2.1 rfl
      have hthread := @unit_propagation_inv
          (fun x => TrailSafe x ∧ Ext (restrict a (a.dl - 1)) a.dl x) f
          (fun a' c' l hc' hl hm hu hp =>
            ⟨trailSafe_unit_assign a' c' l hl hm hu hp.1,
             ext_assign (restrict a (a.dl - 1)) a.dl a' l.var (!l.negation) (some c') hp.2
               (lookup_none_of_mem_false a' l.var hm)⟩)
          upFuel a ⟨hts, hext0⟩
      obtain ⟨⟨hts1, hext1⟩, hcmem, hstat⟩ := hthread.1 c aC hup
      obtain ⟨newC, heC, hdlC, hdC⟩ := (unit_propagation_entries upFuel f a).1 c aC hup
      have hd : aC.dl = a.dl := hext1.1
      have hfal : Falsified c aC := (status_unsatisfied_iff c aC).mp hstat
      split at h
      · exact InnerOut.noConfusion h
      · exact InnerOut.noConfusion h
      · exact InnerOut.noConfusion h
      · next b' lc hca =>
        have hdl0 : ¬ aC.dl = 0 := by
          intro h0
          rw [conflict_analysis, if_pos h0] at hca
          exact CAOut.noConfusion hca
        have hloop : analysisLoop caFuel c aC = .learned b' lc := by
          rw [conflict_analysis, if_neg hdl0] at hca
          exact hca
        have hblt : b' < aC.dl := by
          rw [analysisLoop_learned caFuel c aC hloop]
          exact backjumpLevel_lt lc aC hts1.2.1 (by omega)
        have hlen1 : (currentLevelLits lc aC).length = 1 :=
          analysisLoop_learned_len caFuel c aC hloop
        have hlcnd : lc.literals.Nodup :=
          analysisLoop_learned_nodup caFuel c aC hloop (hcn c hcmem)
        have hent2 : (restrict { backtrack aC b' with dl := b' } (b' - 1)).entries
            = (restrict aC (b' - 1)).entries := by
          show ({ backtrack aC b' with dl := b' } : Assignments).entries.filter
            (fun p => decide (p.2.dl ≤ b' - 1)) = _
          rw [backtrack_entries aC b' hts1.1]
          exact restrict_restrict_entries aC (b' - 1) b' (Nat.sub_le b' 1)
        have heq1 : ∀ v, (restrict aC (b' - 1)).lookup v
            = (restrict a (b' - 1)).lookup v := by
          intro v
          rw [restrict_lookup_ext (restrict a (a.dl - 1)) aC a.dl (b' - 1) hext1
            (by omega) hts1.1 (keysNodup_restrict a (a.dl - 1) hts.1) v]
          exact lookup_entries_congr
            (restrict_restrict_entries a (b' - 1) (a.dl - 1) (by omega)) v
        have heqA : ∀ v, (restrict { backtrack aC b' with dl := b' } (b' - 1)).lookup v
            = (restrict a (b' - 1)).lookup v := by
          intro v
          rw [lookup_entries_congr hent2 v]
          exact heq1 v
        have H1 : TrailSafe ({ backtrack aC b' with dl := b' } : Assignments) :=
          trailSafe_backjump aC b' hts1
        have H4 : ClausesNodup (add_learnt_clause f lc) := by
          intro c' hc'
          rcases List.mem_append.mp hc' with h' | h'
          · exact hcn c' h'
          · rw [List.mem_singleton.mp h']
            exact hlcnd
        have H5 : NoFalsified (add_learnt_clause f lc)
            (restrict { backtrack aC b' with dl := b' }
              (({ backtrack aC b' with dl := b' } : Assignments).dl - 1)) := by
          intro c' hc' hfals
          rcases List.mem_append.mp hc' with h' | h'
          · have h1 : Falsified c' (restrict a (b' - 1)) :=
              (falsified_congr heqA c').mp hfals
            exact hnf c' h' (falsified_mono a hts.1 (by omega) c' h1)
          · rw [List.mem_singleton.mp h'] at hfals
            obtain ⟨l0, hl0⟩ := List.length_eq_one.mp hlen1
            have hl0mem : l0 ∈ currentLevelLits lc aC := by
              rw [hl0]
              exact List.mem_cons_self _ _
            obtain ⟨hl0c, asg0, hlk0, hdl0'⟩ := (currentLevel_mem_iff lc aC l0).mp hl0mem
            have hv := hfals _ hl0c
            rw [Assignments.valueOpt] at hv
            have hnone : (restrict { backtrack aC b' with dl := b' } (b' - 1)).lookup
                l0.var = none := by
              rw [heqA, ← heq1, lookup_restrict aC hts1.1 (b' - 1), hlk0]
              show (if asg0.dl ≤ b' - 1 then some asg0 else none) = none
              rw [if_neg (by omega)]
            rw [hnone] at hv
            exact Option.noConfusion hv
        have H7 : clause_status lc ({ backtrack aC b' with dl := b' } : Assignments)
            = .unitS :=
          learned_unit_after_backjump caFuel c aC b' lc hloop hfal (hcn c hcmem) hts1
            (by omega)
        obtain ⟨b2, hb2le, hlow, hdisj⟩ := ih (add_learnt_clause f lc)
          { backtrack aC b' with dl := b' } 1 f1 a1 h H1 H4 H5
          (Or.inr ⟨rfl, lc, List.mem_append_right _ (List.mem_singleton_self lc), H7⟩)
        have hb2le' : b2 ≤ b' := hb2le
        have hCeq : ∀ i, i ≤ b' →
            countLev ({ backtrack aC b' with dl := b' } : Assignments) i
              = countLev a i := by
          intro i hi
          rw [countLev_backjump aC b' hts1.1 i hi]
          exact countLev_append_ne heC hdlC i (by omega)
        refine ⟨b2, by omega, ?_, Or.inl ⟨by omega, ?_⟩⟩
        · intro i hi
          rw [hlow i hi]
          exact hCeq i (by omega)
        · rcases hdisj with ⟨hb2lt, hstrict⟩ | ⟨hb2eq, hge⟩
          · have := hCeq b2 (by omega)
            omega
          · have := hCeq b2 (by omega)
            omega

end CDCL

namespace CDCL

theorem levelsFull_assign_unit (a : Assignments) (v : Int) (val : Bool)
    (ante : Option Clause) (hfresh : a.lookup v = none) (hfull : LevelsFull a) :
    LevelsFull (a.assign v val ante) := by
  have hE : (a.assign v val ante).entries = (v, ⟨val, ante, a.dl⟩) :: a.entries := by
    rw [Assignments.assign, eraseP_no_match a.entries v hfresh]
  intro i h1 h2
  obtain ⟨p, hp, hdl, hante⟩ := hfull i h1 h2
  refine ⟨p, ?_, hdl, hante⟩
  rw [hE]
  exact List.mem_cons_of_mem _ hp

theorem levelsFull_decision (a : Assignments) (v : Int) (val : Bool)
    (hfresh : a.lookup v = none) (hfull : LevelsFull a) :
    LevelsFull (Assignments.assign { a with dl := a.dl + 1 } v val none) := by
  have hE : (Assignments.assign { a with dl := a.dl + 1 } v val none).entries
      = (v, ⟨val, none, a.dl + 1⟩) :: a.entries := by
    show (v, (⟨val, none, a.dl + 1⟩ : Assignment))
        :: a.entries.eraseP (fun p => p.1 == v)
      = (v, ⟨val, none, a.dl + 1⟩) :: a.entries
    rw [eraseP_no_match a.entries v hfresh]
  intro i h1 h2
  by_cases hi : i = a.dl + 1
  · refine ⟨(v, ⟨val, none, a.dl + 1⟩), ?_, by rw [hi], rfl⟩
    rw [hE]
    exact List.mem_cons_self _ _
  · have h2' : i ≤ a.dl := by
      have h2'' : i ≤ a.dl + 1 := h2
      omega
    obtain ⟨p, hp, hdl, hante⟩ := hfull i h1 h2'
    refine ⟨p, ?_, hdl, hante⟩
    rw [hE]
    exact List.mem_cons_of_mem _ hp

theorem levelsFull_backjump (a : Assignments) (b : Nat) (hnd : KeysNodup a)
    (hble : b ≤ a.dl) (hfull : LevelsFull a) :
    LevelsFull ({ backtrack a b with dl := b } : Assignments) := by
  have hent : ({ backtrack a b with dl := b } : Assignments).entries
      = a.entries.filter (fun p => decide (p.2.dl ≤ b)) := backtrack_entries a b hnd
  intro i h1 h2
  have h2' : i ≤ b := h2
  obtain ⟨p, hp, hdl, hante⟩ := hfull i h1 (by omega)
  refine ⟨p, ?_, hdl, hante⟩
  rw [hent]
  refine List.mem_filter.mpr ⟨hp, ?_⟩
  simp only [decide_eq_true_eq]
  omega

theorem dl_le_entries (a : Assignments) (hfull : LevelsFull a) :
    a.dl ≤ a.entries.length := by
  have hchoice : ∀ i : Nat, ∃ p : Int × Assignment,
      (1 ≤ i ∧ i ≤ a.dl) → p ∈ a.entries ∧ p.2.dl = i := by
    intro i
    by_cases hi : 1 ≤ i ∧ i ≤ a.dl
    · obtain ⟨p, hp, h1, _⟩ := hfull i hi.1 hi.2
      exact ⟨p, fun _ => ⟨hp, h1⟩⟩
    · exact ⟨(0, ⟨false, none, 0⟩), fun hx => absurd hx hi⟩
  choose g hg using hchoice
  have hmaps : ∀ i ∈ Finset.Icc 1 a.dl, g i ∈ a.entries.toFinset := by
    intro i hi
    rw [Finset.mem_Icc] at hi
    exact List.mem_toFinset.mpr (hg i hi).1
  have hinj : Set.InjOn g (Finset.Icc 1 a.dl) := by
    intro i hi j hj heq
    rw [Finset.mem_coe, Finset.mem_Icc] at hi hj
    have h1 := (hg i hi).2
    have h2 := (hg j hj).2
    rw [heq] at h1
    omega
  have hcard := Finset.card_le_card_of_injOn g hmaps hinj
  rw [Nat.card_Icc] at hcard
  have htf := a.entries.toFinset_card_le
  omega

theorem levMeasure_lt_pow (B L : Nat) (x : Assignments) (hbound : ∀ i, countLev x i < B) :
    levMeasure B L x < B ^ (L + 1) := by
  rw [levMeasure_eq_finset, Finset.range_eq_Ico,
    Finset.sum_eq_sum_Ico_succ_bot (by omega : 0 < L + 1)]
  have hhigh := sum_digits_lt B (fun i => countLev x i) hbound L L 0 (by omega)
  have hg0 := hbound 0
  have hmul : (countLev x 0 + 1) * B ^ L ≤ B * B ^ L := Nat.mul_le_mul_right _ (by omega)
  rw [add_mul, one_mul] at hmul
  have hpow : B ^ (L + 1) = B * B ^ L := by
    rw [pow_succ]
    ring
  rw [hpow]
  simp only [Nat.sub_zero] at hhigh ⊢
  omega

end CDCL

namespace CDCL

theorem innerLoop_ok_extra (upFuel caFuel : Nat) :
    ∀ (fuel : Nat) (f : Formula) (a : Assignments) (f1 : Formula) (a1 : Assignments),
    innerLoop upFuel caFuel fuel f a = .ok f1 a1 →
    TrailSafe a → LevelsFull a → AnteOrderL a.entries →
    LevelsFull a1 ∧ AnteOrderL a1.entries := by
  intro fuel
  induction fuel with
  | zero =>
    intro f a f1 a1 h _ _ _
    exact InnerOut.noConfusion h
  | succ fuel ih =>
    intro f a f1 a1 h hts hfull hord
    have hthread := @unit_propagation_inv
        (fun x => TrailSafe x ∧ LevelsFull x ∧ AnteOrderL x.entries) f
        (fun a' c' l hc' hl hm hu hp =>
          ⟨trailSafe_unit_assign a' c' l hl hm hu hp.1,
           levelsFull_assign_unit a' l.var (!l.negation) (some c')
             (lookup_none_of_mem_false a' l.var hm) hp.2.1,
           anteOrderL_assign a' l.var (!l.negation) (some c')
             (lookup_none_of_mem_false a' l.var hm) hp.2.2 hp.1.2.1
             (fun A hA l' hl' hlv => by
               injection hA with h1
               subst h1
               exact unit_other_false c' a' hu hl hm l' hl' hlv)⟩)
        upFuel a ⟨hts, hfull, hord⟩
    rw [innerLoop] at h
    split at h
    · next aS hup =>
      injection h with h1 h2
      subst h1
      subst h2
      exact (hthread.2 aS hup).2
    · exact InnerOut.noConfusion h
    · exact InnerOut.noConfusion h
    · next c aC hup =>
      obtain ⟨hts1, hfull1, hord1⟩ := (hthread.1 c aC hup).1
      split at h
      · exact InnerOut.noConfusion h
      · exact InnerOut.noConfusion h
      · exact InnerOut.noConfusion h
      · next b lc hca =>
        have hdl0 : ¬ aC.dl = 0 := by
          intro h0
          rw [conflict_analysis, if_pos h0] at hca
          exact CAOut.noConfusion hca
        have hloop : analysisLoop caFuel c aC = .learned b lc := by
          rw [conflict_analysis, if_neg hdl0] at hca
          exact hca
        have hblt : b < aC.dl := by
          rw [analysisLoop_learned caFuel c aC hloop]
          exact backjumpLevel_lt lc aC hts1.2.1 (by omega)
        have hent : ({ backtrack aC b with dl := b } : Assignments).entries
            = aC.entries.filter (fun p => decide (p.2.dl ≤ b)) :=
          backtrack_entries aC b hts1.1
        refine ih (add_learnt_clause f lc) { backtrack aC b with dl := b } f1 a1 h
          (trailSafe_backjump aC b hts1)
          (levelsFull_backjump aC b hts1.1 (by omega) hfull1)
          ?_
        rw [hent]
        exact anteOrderL_filter_le aC.entries b hord1

end CDCL

namespace CDCL

theorem outerLoop_fuel (oracle : Nat → Nat × Bool) (upFuel caFuel : Nat) (V : List Int)
    (hVnd : V.Nodup) :
    ∀ (fuel k : Nat) (f : Formula) (a : Assignments),
    f.vars = V → TrailSafe a → TrailWF V a → ClausesWF V f → ClausesNodup f →
    NoFalsified f a → LevelsFull a → AnteOrderL a.entries →
    V.length < upFuel → 2 ^ V.length < caFuel →
    (V.length + 1) ^ (V.length + 1) + V.length + 3
      ≤ fuel + levMeasure (V.length + 1) V.length a →
    outerLoop oracle upFuel caFuel fuel k f a ≠ .fuelOut := by
  intro fuel
  induction fuel with
  | zero =>
    intro k f a hfv hts hwf hcw hcn hnf hfull hord hup hca hfl h
    have hboundd : ∀ i, countLev a i < V.length + 1 := by
      intro i
      have h1 : countLev a i ≤ a.entries.length := by
        rw [countLev]
        exact List.length_filter_le _ _
      have h2 := entries_length_le V a hts.1 (fun p hp => (hwf.2 p hp).1) hVnd
      omega
    have hmu := levMeasure_lt_pow (V.length + 1) V.length a hboundd
    omega
  | succ fuel ih =>
    intro k f a hfv hts hwf hcw hcn hnf hfull hord hup hca hfl h
    have hboundd : ∀ i, countLev a i < V.length + 1 := by
      intro i
      have h1 : countLev a i ≤ a.entries.length := by
        rw [countLev]
        exact List.length_filter_le _ _
      have h2 := entries_length_le V a hts.1 (fun p hp => (hwf.2 p hp).1) hVnd
      omega
    have hmu := levMeasure_lt_pow (V.length + 1) V.length a hboundd
    rw [outerLoop] at h
    split at h
    · exact Result.noConfusion h
    · next hna =>
      have hna' : all_variables_assigned f a = false := by
        rw [Bool.not_eq_true] at hna
        exact hna
      have hkeys : ∀ p ∈ a.entries, p.1 ∈ f.vars := by
        intro p hp
        rw [hfv]
        exact (hwf.2 p hp).1
      have hVnd' : f.vars.Nodup := by
        rw [hfv]
        exact hVnd
      have hfresh0 : a.mem (pick_branching_variable f a (oracle k)).1 = false :=
        pick_unassigned f a (oracle k) hna' hkeys hts.1 hVnd'
      have hpv : (pick_branching_variable f a (oracle k)).1 ∈ f.vars :=
        pick_mem_of_not_all f a (oracle k) hna' hkeys hts.1 hVnd'
      have hlk0 : a.lookup (pick_branching_variable f a (oracle k)).1 = none :=
        lookup_none_of_mem_false a _ hfresh0
      have Hts : TrailSafe (Assignments.assign { a with dl := a.dl + 1 }
          (pick_branching_variable f a (oracle k)).1
          (pick_branching_variable f a (oracle k)).2 none) :=
        ⟨keysNodup_assign { a with dl := a.dl + 1 } _ _ none hts.1,
         entryDl_assign a _ _ none (a.dl + 1) hts.2.1 (Nat.le_succ _),
         oneDecision_assign_decision a _ _ hts.2.2.1 hts.2.1,
         anteSound_assign a _ _ none (a.dl + 1) hlk0 hts.2.2.2
           (fun A hA => Option.noConfusion hA)⟩
      have Hwf : TrailWF V (Assignments.assign { a with dl := a.dl + 1 }
          (pick_branching_variable f a (oracle k)).1
          (pick_branching_variable f a (oracle k)).2 none) :=
        trailWF_assign V { a with dl := a.dl + 1 } _ _ none hwf (hfv ▸ hpv)
          (fun c hc => Option.noConfusion hc)
      have hlookeq : ∀ w, (restrict (Assignments.assign { a with dl := a.dl + 1 }
          (pick_branching_variable f a (oracle k)).1
          (pick_branching_variable f a (oracle k)).2 none) a.dl).lookup w
          = a.lookup w := by
        intro w
        rw [lookup_restrict _ Hts.1 a.dl w, lookup_assign]
        by_cases hw : w = (pick_branching_variable f a (oracle k)).1
        · rw [if_pos hw]
          show (if ({ a with dl := a.dl + 1 } : Assignments).dl ≤ a.dl
            then some ⟨(pick_branching_variable f a (oracle k)).2, none,
              ({ a with dl := a.dl + 1 } : Assignments).dl⟩ else none) = a.lookup w
          rw [if_neg (by show ¬ (a.dl + 1 ≤ a.dl); omega), hw, hlk0]
        · rw [if_neg hw]
          have hsw : ({ a with dl := a.dl + 1 } : Assignments).lookup w = a.lookup w := rfl
          rw [hsw]
          cases hlw : a.lookup w with
          | none => rfl
          | some asg =>
            show (if asg.dl ≤ a.dl then some asg else none) = some asg
            rw [if_pos (hts.2.1 (w, asg) (lookup_some_mem a.entries w asg hlw))]
      have H5full : NoFalsified f (restrict (Assignments.assign { a with dl := a.dl + 1 }
          (pick_branching_variable f a (oracle k)).1
          (pick_branching_variable f a (oracle k)).2 none) a.dl) :=
        fun c' hc' hfals => hnf c' hc' ((falsified_congr hlookeq c').mp hfals)
      have HO : AnteOrderL (Assignments.assign { a with dl := a.dl + 1 }
          (pick_branching_variable f a (oracle k)).1
          (pick_branching_variable f a (oracle k)).2 none).entries :=
        anteOrderL_assign { a with dl := a.dl + 1 } _ _ none hlk0 hord
          (fun p hp => Nat.le_trans (hts.2.1 p hp) (Nat.le_succ _))
          (fun A hA => Option.noConfusion hA)
      have HF : LevelsFull (Assignments.assign { a with dl := a.dl + 1 }
          (pick_branching_variable f a (oracle k)).1
          (pick_branching_variable f a (oracle k)).2 none) :=
        levelsFull_decision a _ _ hlk0 hfull
      have hdlbound : a.dl + 1 ≤ V.length := by
        have h1 : a.dl + 1 ≤ (Assignments.assign { a with dl := a.dl + 1 }
            (pick_branching_variable f a (oracle k)).1
            (pick_branching_variable f a (oracle k)).2 none).entries.length :=
          dl_le_entries _ HF
        have h2 := entries_length_le V _ Hts.1 (fun p hp => (Hwf.2 p hp).1) hVnd
        omega
      have HwfFV : TrailWF f.vars (Assignments.assign { a with dl := a.dl + 1 }
          (pick_branching_variable f a (oracle k)).1
          (pick_branching_variable f a (oracle k)).2 none) := by
        rw [hfv]
        exact Hwf
      have hcwFV : ClausesWF f.vars f := by
        rw [hfv]
        exact hcw
      have hinnerF := innerLoop_fuel upFuel caFuel V hVnd fuel f
        (Assignments.assign { a with dl := a.dl + 1 }
          (pick_branching_variable f a (oracle k)).1
          (pick_branching_variable f a (oracle k)).2 none)
        hfv Hts Hwf hcw hcn HO hup hca (by
          show a.dl + 1 + 1 < fuel
          omega)
      have hinnerS := innerLoop_safe upFuel caFuel fuel f
        (Assignments.assign { a with dl := a.dl + 1 }
          (pick_branching_variable f a (oracle k)).1
          (pick_branching_variable f a (oracle k)).2 none)
        Hts HwfFV hcwFV hcn H5full
      have hEdec : (Assignments.assign { a with dl := a.dl + 1 }
          (pick_branching_variable f a (oracle k)).1
          (pick_branching_variable f a (oracle k)).2 none).entries
          = [((pick_branching_variable f a (oracle k)).1,
              ⟨(pick_branching_variable f a (oracle k)).2, none, a.dl + 1⟩)]
            ++ a.entries := by
        show ((pick_branching_variable f a (oracle k)).1,
            (⟨(pick_branching_variable f a (oracle k)).2, none, a.dl + 1⟩ : Assignment))
            :: a.entries.eraseP (fun p => p.1 == (pick_branching_variable f a (oracle k)).1)
          = _
        rw [eraseP_no_match a.entries _ hlk0, List.singleton_append]
      have hEdl : ∀ p ∈ [((pick_branching_variable f a (oracle k)).1,
          (⟨(pick_branching_variable f a (oracle k)).2, none, a.dl + 1⟩ : Assignment))],
          p.2.dl = a.dl + 1 := by
        intro p hp
        rw [List.mem_singleton.mp hp]
      split at h
      · next f1 a1 hok =>
        obtain ⟨g1, g2, g3⟩ := hinnerS.2 f1 a1 hok
        obtain ⟨hveq, hcw1, hwf1, _, hstat1⟩ :=
          innerLoop_ok_inv f.vars upFuel caFuel fuel f _ f1 a1 hok rfl hcwFV HwfFV
        have hnf1 : NoFalsified f1 a1 := by
          intro c' hc' hf'
          rcases hstat1 c' hc' with h1 | h1 <;>
            · rw [(status_unsatisfied_iff c' a1).mpr hf'] at h1
              exact ClauseStatus.noConfusion h1
        obtain ⟨HF1, HO1⟩ := innerLoop_ok_extra upFuel caFuel fuel f _ f1 a1 hok Hts HF HO
        obtain ⟨b2, hb2le, hlow, hdisj⟩ := innerLoop_digits upFuel caFuel fuel f
          (Assignments.assign { a with dl := a.dl + 1 }
            (pick_branching_variable f a (oracle k)).1
            (pick_branching_variable f a (oracle k)).2 none)
          0 f1 a1 hok Hts hcn H5full (Or.inl rfl)
        have hb2le' : b2 ≤ a.dl + 1 := hb2le
        have hstep : levMeasure (V.length + 1) V.length a
            < levMeasure (V.length + 1) V.length a1 := by
          have hlowa : ∀ i, i < b2 → countLev a1 i = countLev a i := by
            intro i hi
            rw [hlow i hi]
            exact countLev_append_ne hEdec hEdl i (by omega)
          rcases hdisj with ⟨hb2lt, hstrict⟩ | ⟨hb2eq, hge⟩
          · have hdec2 := countLev_append_ne hEdec hEdl b2 (by
              have hb2lt' : b2 < a.dl + 1 := hb2lt
              omega)
            exact levMeasure_lt (V.length + 1) V.length a a1 b2 (by omega) hlowa
              (by omega) hboundd
          · have hb2eq' : b2 = a.dl + 1 := hb2eq
            have hdec2 := countLev_append_eq hEdec hEdl
            have hge' : countLev (Assignments.assign { a with dl := a.dl + 1 }
                (pick_branching_variable f a (oracle k)).1
                (pick_branching_variable f a (oracle k)).2 none) b2 + 0
                ≤ countLev a1 b2 := hge
            rw [hb2eq'] at hge'
            exact levMeasure_lt (V.length + 1) V.length a a1 (a.dl + 1) (by omega)
              (by intro i hi; exact hlowa i (by omega)) (by
                simp only [List.length_singleton] at hdec2
                omega) hboundd
        exact ih (k + 1) f1 a1 (hveq.trans hfv) g1 (hfv ▸ hwf1) (hfv ▸ hcw1)
          g2 hnf1 HF1 HO1 hup hca (by omega) h
      · exact Result.noConfusion h
      · exact Result.noConfusion h
      · next hfo => exact hinnerF hfo

end CDCL

namespace CDCL

/-- **C2** (termination): for every constructed `Formula` and under every
branching oracle, `cdcl_solve` halts within explicit bounds that are
functions of the variable count alone: with `n` variables, `n + 1` passes
of fuel for each unit propagation, `2 ^ n + 1` steps for each conflict
analysis, and `(n + 1) ^ (n + 1) + n + 3` iterations of the driver loops
(each conflict strictly increases the lexicographic decision-level
population measure of the trail, which is bounded by `(n + 1) ^ (n + 1)`),
the solver never exhausts its fuel — so it terminates even under an
adversarial branching strategy, with the number of conflicts bounded by a
function of the variable count; moreover every conflict strictly grows the
clause store by exactly the one learnt clause. -/
theorem C2_termination (oracle : Nat → Nat × Bool) (cs : List Clause) :
    cdcl_solve oracle
      (((Formula.mk' cs).vars.length + 1) ^ ((Formula.mk' cs).vars.length + 1)
        + (Formula.mk' cs).vars.length + 3)
      ((Formula.mk' cs).vars.length + 1)
      (2 ^ (Formula.mk' cs).vars.length + 1)
      (Formula.mk' cs) ≠ .fuelOut
    ∧ ∀ (f : Formula) (lc : Clause),
        (add_learnt_clause f lc).clauses.length = f.clauses.length + 1 := by
  constructor
  · intro h
    have hwfE : TrailWF (Formula.mk' cs).vars ⟨[], 0⟩ :=
      ⟨List.nodup_nil, fun p hp => absurd hp (List.not_mem_nil p)⟩
    rw [cdcl_solve] at h
    split at h
    · exact Result.noConfusion h
    · exact Result.noConfusion h
    · next hup =>
      exact unit_propagation_fuel (Formula.mk' cs).vars (List.nodup_dedup _)
        (Formula.mk' cs) (formula_mk_clausesWF cs)
        ((Formula.mk' cs).vars.length + 1) ⟨[], 0⟩ hwfE (by omega) hup
    · next a1 hup =>
      have htsE : TrailSafe ⟨[], 0⟩ :=
        ⟨List.nodup_nil,
         fun p hp => absurd hp (List.not_mem_nil p),
         fun p hp => absurd hp (List.not_mem_nil p),
         fun p hp => absurd hp (List.not_mem_nil p)⟩
      have hfullE : LevelsFull ⟨[], 0⟩ := by
        intro i h1 h2
        exact absurd (show i ≤ 0 from h2) (by omega)
      have hextra := @unit_propagation_inv
          (fun x => TrailSafe x ∧ LevelsFull x ∧ AnteOrderL x.entries) (Formula.mk' cs)
          (fun a' c' l hc' hl hm hu hp =>
            ⟨trailSafe_unit_assign a' c' l hl hm hu hp.1,
             levelsFull_assign_unit a' l.var (!l.negation) (some c')
               (lookup_none_of_mem_false a' l.var hm) hp.2.1,
             anteOrderL_assign a' l.var (!l.negation) (some c')
               (lookup_none_of_mem_false a' l.var hm) hp.2.2 hp.1.2.1
               (fun A hA l' hl' hlv => by
                 injection hA with h1
                 subst h1
                 exact unit_other_false c' a' hu hl hm l' hl' hlv)⟩)
          ((Formula.mk' cs).vars.length + 1) ⟨[], 0⟩ ⟨htsE, hfullE, trivial⟩
      obtain ⟨hts1, hfull1, hord1⟩ := hextra.2 a1 hup
      have hwf1 : TrailWF (Formula.mk' cs).vars a1 :=
        (trailWF_up (Formula.mk' cs).vars (Formula.mk' cs) (formula_mk_clausesWF cs)
          ((Formula.mk' cs).vars.length + 1) ⟨[], 0⟩ hwfE).2 a1 hup
      have hnf1 : NoFalsified (Formula.mk' cs) a1 :=
        saturated_noFalsified ((Formula.mk' cs).vars.length + 1) (Formula.mk' cs)
          ⟨[], 0⟩ a1 hup
      exact outerLoop_fuel oracle ((Formula.mk' cs).vars.length + 1)
        (2 ^ (Formula.mk' cs).vars.length + 1) (Formula.mk' cs).vars
        (List.nodup_dedup _)
        (((Formula.mk' cs).vars.length + 1) ^ ((Formula.mk' cs).vars.length + 1)
          + (Formula.mk' cs).vars.length + 3)
        0 (Formula.mk' cs) a1 rfl hts1 hwf1 (formula_mk_clausesWF cs)
        (clausesNodup_mk cs) hnf1 hfull1 hord1 (by omega) (by omega) (by omega) h
  · intro f lc
    show (f.clauses ++ [lc]).length = f.clauses.length + 1
    rw [List.length_append, List.length_singleton]

end CDCL
